import Mathlib

/-!
# normalmap: height map to normal map conversion

A shallow embedding of `src/normalmap.c` (and the option record of `src/options.c`).

Modelling conventions.

* `unsigned` / `png_uint_32` values are natural numbers; every unsigned operation of the
  source is performed modulo `2^32` (`uadd`, `usub`, `umul`).
* A read `heightmap->data[i]` or a write `nmap->data[i]` outside the buffer is undefined
  behaviour in C; here such an access yields `none`, and `none` propagates to the caller.
* `double` values are modelled as exact real numbers.  Every value the program computes
  before the call of `sqrt` is rational (`ℚ`); every value after it is a rational divided
  by the square root of a positive rational, which is what `Dbl` represents.
* The conversion `(unsigned char) v` of a double truncates towards zero and keeps the low
  eight bits (the wrapping conversion), so that `d_to_signed_byte (-1) = 0`.
* A `for` loop is `forLoop cond step body fuel init state`; an unsigned 32-bit counter
  takes at most `2^32` values before it repeats, so `loopFuel = 2^32 + 1` iterations are
  enough for every loop that terminates at all.
-/

namespace Normalmap

/-! ## Machine arithmetic -/

/-- Unsigned 32-bit addition. -/
def uadd (a b : Nat) : Nat := (a + b) % 4294967296

/-- Unsigned 32-bit subtraction (wraps below zero). -/
def usub (a b : Nat) : Nat := (a + (4294967296 - b % 4294967296)) % 4294967296

/-- Unsigned 32-bit multiplication. -/
def umul (a b : Nat) : Nat := (a * b) % 4294967296

/-- Iteration budget of a loop driven by an unsigned 32-bit counter. -/
def loopFuel : Nat := 4294967297

/-- The C loop `for (i = init; cond i; i = step i) state = body i state`, where the body may
fail (`none`).  Running out of fuel is reported as `none` as well. -/
def forLoop {σ : Type} (cond : Nat → Bool) (step : Nat → Nat) (body : Nat → σ → Option σ) :
    Nat → Nat → σ → Option σ
  | 0, _, _ => none
  | fuel + 1, i, s =>
    if cond i then (body i s).bind (fun s' => forLoop cond step body fuel (step i) s')
    else some s

/-! ## Exact real values of the form `num / √rad` -/

/-- Bisection for the integer square root: keeps `lo * lo ≤ n < hi * hi`. -/
def isqrtLoop (n : Nat) : Nat → Nat → Nat → Nat
  | 0, lo, _ => lo
  | fuel + 1, lo, hi =>
    if hi ≤ lo + 1 then lo
    else if ((lo + hi) / 2) * ((lo + hi) / 2) ≤ n then isqrtLoop n fuel ((lo + hi) / 2) hi
    else isqrtLoop n fuel lo ((lo + hi) / 2)

/-- The integer square root `⌊√n⌋`. -/
def isqrt (n : Nat) : Nat := isqrtLoop n (n + 1) 0 (n + 1)

/-- The exact real number `num / √rad`, with `rad > 0`.  A rational `q` is `q / √1`. -/
structure Dbl where
  num : ℚ
  rad : ℚ
  deriving DecidableEq

namespace Dbl

/-- The rational `q` as a double. -/
def ofRat (q : ℚ) : Dbl := ⟨q, 1⟩

/-- The quotient `a / sqrt s` of two rationals. -/
def divSqrt (a s : ℚ) : Dbl := ⟨a, s⟩

/-- Multiplication by a rational constant. -/
def mulRat (v : Dbl) (q : ℚ) : Dbl := ⟨v.num * q, v.rad⟩

/-- The comparison `v == q` with a non-negative rational `q`:
`num / √rad = q` iff `num ≥ 0` and `num² = q² · rad`. -/
def eqRat (v : Dbl) (q : ℚ) : Bool := decide (0 ≤ v.num) && decide (v.num * v.num = q * q * v.rad)

/-- Truncation towards zero: `⌊|num| / √rad⌋ = ⌊√⌊num² / rad⌋⌋`, with the sign of `num`. -/
def trunc (v : Dbl) : Int :=
  let m : Int := (isqrt (⌊v.num * v.num / v.rad⌋).toNat : Nat)
  if 0 ≤ v.num then m else -m

/-- The square of the value, a rational. -/
def sq (v : Dbl) : ℚ := v.num * v.num / v.rad

/-- The order of the real numbers `v.num / √v.rad ≤ w.num / √w.rad`, decided on the signs
of the numerators and on the squares. -/
def le (v w : Dbl) : Prop :=
  if 0 ≤ v.num then 0 ≤ w.num ∧ v.sq ≤ w.sq else 0 ≤ w.num ∨ w.sq ≤ v.sq

instance (v w : Dbl) : Decidable (le v w) := by
  unfold le; infer_instance

end Dbl

/-! ## Data model -/

/-- The pixel formats of libpng that the program uses. -/
inductive PngFormat where
  | GRAY
  | RGB
  | RGBA
  deriving DecidableEq, Repr

/-- The image record `NormalmapPng`: `info.width`, `info.height`, `info.format`, `data`. -/
structure NormalmapPng where
  width : Nat
  height : Nat
  format : PngFormat
  data : List Nat
  deriving DecidableEq

/-- The option record `NormalmapOptions` (the file names are left out). -/
structure NormalmapOptions where
  xyz : List Char
  scale : ℚ
  normalise : Bool
  unsigned_z : Bool
  wrap : Bool
  tilesize : Int

/-- The result of `sobel`. -/
structure NormalVector where
  x : Dbl
  y : Dbl
  z : Dbl
  deriving DecidableEq

/-! ## normalmap.c -/

/-- The function `byte_offset` (normalmap.c:26). -/
def byte_offset (axis : Char) : Nat :=
  if axis = 'r' then 0
  else if axis = 'g' then 1
  else if axis = 'b' then 2
  else if axis = 'a' then 3
  else 0

/-- The function `sample_pixel` (normalmap.c:48): `heightmap->data[y * width + x]`. -/
def sample_pixel (heightmap : NormalmapPng) (x y : Nat) : Option Nat :=
  heightmap.data[uadd (umul y heightmap.width) x]?

/-- The function `pixel_diff` (normalmap.c:55). -/
def pixel_diff (heightmap : NormalmapPng) (x1 x2 y1 y2 : Nat)
    (tile_x tile_y tile_width tile_height : Nat) : Option Int :=
  if x1 < tile_x ∨ x1 ≥ uadd tile_x tile_width ∨ y1 < tile_y ∨ y1 ≥ uadd tile_y tile_height then
    some 0
  else if x2 < tile_x ∨ x2 ≥ uadd tile_x tile_width ∨ y2 < tile_y
      ∨ y2 ≥ uadd tile_y tile_height then
    some 0
  else
    (sample_pixel heightmap x2 y2).bind fun b =>
    (sample_pixel heightmap x1 y1).bind fun a =>
    some ((b : Int) - (a : Int))

/-- The function `row_dh` (normalmap.c:69). -/
def row_dh (heightmap : NormalmapPng) (x y : Nat) (wrap : Bool)
    (tile_x tile_y tile_width tile_height : Nat) : Option Int :=
  let w := tile_width
  if x = 1 then some 0
  else if x = 0 then
    if wrap then
      (pixel_diff heightmap 1 (usub w 1) y y tile_x tile_y tile_width tile_height).map fun d => -d
    else
      (pixel_diff heightmap 0 1 y y tile_x tile_y tile_width tile_height).map fun d => -d
  else if x = usub w 1 then
    if wrap then
      (pixel_diff heightmap (usub w 2) 0 y y tile_x tile_y tile_width tile_height).map fun d => -d
    else
      (pixel_diff heightmap (usub w 2) (usub w 1) y y
        tile_x tile_y tile_width tile_height).map fun d => -d
  else
    (pixel_diff heightmap (usub x 1) (uadd x 1) y y
      tile_x tile_y tile_width tile_height).map fun d => -d

/-- The function `col_dh` (normalmap.c:104). -/
def col_dh (heightmap : NormalmapPng) (x y : Nat) (wrap : Bool)
    (tile_x tile_y tile_width tile_height : Nat) : Option Int :=
  let h := tile_height
  if h = 1 then some 0
  else if y = 0 then
    if wrap then
      pixel_diff heightmap x x 1 (usub h 1) tile_x tile_y tile_width tile_height
    else
      pixel_diff heightmap x x 0 1 tile_x tile_y tile_width tile_height
  else if y = usub h 1 then
    if wrap then
      pixel_diff heightmap x x (usub h 2) 0 tile_x tile_y tile_width tile_height
    else
      pixel_diff heightmap x x (usub h 2) (usub h 1) tile_x tile_y tile_width tile_height
  else
    pixel_diff heightmap x x (usub y 1) (uadd y 1) tile_x tile_y tile_width tile_height

/-- Lines 147-171 of `sobel`: the accumulated row slope `dh` and the divisor `div` that
enter `nv.x = scale * dh / div`. -/
def sobel_row_acc (heightmap : NormalmapPng) (x y : Nat) (wrap : Bool)
    (tile_x tile_y tile_width tile_height : Nat) : Option (Int × ℚ) :=
  let h := tile_height
  (row_dh heightmap x y wrap tile_x tile_y tile_width tile_height).bind fun r0 =>
  (if y = 0 then
      if wrap then
        (row_dh heightmap x (usub h 1) wrap tile_x tile_y tile_width tile_height).map
          fun r => (r0 * 2 + r, (5 : ℚ))
      else some (r0 * 2, (5 : ℚ) - 1)
    else
      (row_dh heightmap x (usub y 1) wrap tile_x tile_y tile_width tile_height).map
        fun r => (r0 * 2 + r, (5 : ℚ))).bind fun acc =>
  if y = usub h 1 then
    if wrap then
      (row_dh heightmap x 0 wrap tile_x tile_y tile_width tile_height).map
        fun r => (acc.1 + r, acc.2)
    else some (acc.1, acc.2 - 1)
  else
    (row_dh heightmap x (uadd y 1) wrap tile_x tile_y tile_width tile_height).map
      fun r => (acc.1 + r, acc.2)

/-- Lines 174-197 of `sobel`: the accumulated column slope `dh` and the divisor `div` that
enter `nv.y = scale * dh / div`. -/
def sobel_col_acc (heightmap : NormalmapPng) (x y : Nat) (wrap : Bool)
    (tile_x tile_y tile_width tile_height : Nat) : Option (Int × ℚ) :=
  let w := tile_width
  (col_dh heightmap x y wrap tile_x tile_y tile_width tile_height).bind fun c0 =>
  (if x = 0 then
      if wrap then
        (col_dh heightmap (usub w 1) y wrap tile_x tile_y tile_width tile_height).map
          fun c => (c0 * 2 + c, (5 : ℚ))
      else some (c0 * 2, (5 : ℚ) - 1)
    else
      (col_dh heightmap (usub x 1) y wrap tile_x tile_y tile_width tile_height).map
        fun c => (c0 * 2 + c, (5 : ℚ))).bind fun acc =>
  if x = usub w 1 then
    if wrap then
      (col_dh heightmap 0 y wrap tile_x tile_y tile_width tile_height).map
        fun c => (acc.1 + c, acc.2)
    else some (acc.1, acc.2 - 1)
  else
    (col_dh heightmap (uadd x 1) y wrap tile_x tile_y tile_width tile_height).map
      fun c => (acc.1 + c, acc.2)

/-- Lines 172, 198-205 of `sobel`: the vector computed from the two accumulated slopes. -/
def sobel_vec (scale : ℚ) (ax ay : Int × ℚ) : NormalVector :=
  let nx : ℚ := scale * (ax.1 : ℚ) / ax.2
  let ny : ℚ := scale * (ay.1 : ℚ) / ay.2
  let s : ℚ := nx * nx + ny * ny + 1
  { x := Dbl.divSqrt nx s, y := Dbl.divSqrt ny s, z := Dbl.divSqrt 1 s }

/-- The function `sobel` (normalmap.c:139). -/
def sobel (heightmap : NormalmapPng) (x y : Nat) (scale : ℚ) (wrap : Bool)
    (tile_x tile_y tile_width tile_height : Nat) : Option NormalVector :=
  (sobel_row_acc heightmap x y wrap tile_x tile_y tile_width tile_height).bind fun ax =>
  (sobel_col_acc heightmap x y wrap tile_x tile_y tile_width tile_height).bind fun ay =>
  some (sobel_vec scale ax ay)

/-- The conversion `(unsigned char) v` of a double. -/
def to_uchar (v : Dbl) : Nat := (v.trunc % 256).toNat

/-- The function `d_to_signed_byte` (normalmap.c:208). -/
def d_to_signed_byte (v : Dbl) : Nat :=
  let v := v.mulRat 128
  let v := if v.eqRat 128 then Dbl.ofRat 127 else v
  (to_uchar v + 128) % 256

/-- The function `d_to_unsigned_byte` (normalmap.c:216). -/
def d_to_unsigned_byte (v : Dbl) : Nat :=
  let v := v.mulRat 256
  let v := if v.eqRat 256 then Dbl.ofRat 255 else v
  to_uchar v

/-- A store `buf[i] = b`; outside the buffer it fails. -/
def store (buf : List Nat) (i b : Nat) : Option (List Nat) :=
  if i < buf.length then some (buf.set i b) else none

/-- Lines 258-270 of `normalmap_convert`: the least and greatest sample, as `(min, max)`. -/
def min_max (heightmap : NormalmapPng) : Option (Nat × Nat) :=
  forLoop (fun p_y => decide (p_y < umul heightmap.height heightmap.width))
    (fun p_y => uadd p_y 1)
    (fun p_y mm =>
      (heightmap.data[p_y]?).bind fun pix =>
        let max := if pix > mm.2 then pix else mm.2
        let min := if pix < mm.1 then pix else mm.1
        some (min, max))
    loopFuel 0 (255, 0)

/-- Lines 256-275 of `normalmap_convert`: the scale handed to `sobel`. -/
def effective_scale (heightmap : NormalmapPng) (options : NormalmapOptions) : Option ℚ :=
  if options.normalise then
    (min_max heightmap).map fun mm => (((mm.2 : Int) - (mm.1 : Int) : Int) : ℚ) / 255 * options.scale
  else
    some (options.scale / 255)

/-- Lines 291-302 of `normalmap_convert`: the body of the innermost loop. -/
def convert_pixel (heightmap : NormalmapPng) (options : NormalmapOptions)
    (bpp xo yo zo : Nat) (scale : ℚ) (tile_x tile_y tile_width tile_height : Nat)
    (p_y p_x : Nat) (data : List Nat) : Option (List Nat) :=
  let x := uadd tile_x p_x
  let y := uadd tile_y p_y
  let n := umul (uadd (umul y heightmap.width) x) bpp
  (sobel heightmap x y scale options.wrap tile_x tile_y tile_width tile_height).bind fun v =>
  (store data (uadd n xo) (d_to_signed_byte v.x)).bind fun data =>
  (store data (uadd n yo) (d_to_signed_byte v.y)).bind fun data =>
  store data (uadd n zo)
    (if options.unsigned_z then d_to_unsigned_byte v.z else d_to_signed_byte v.z)

/-- Line 288 of `normalmap_convert`: the loop over the pixels `p_x` of one row of a tile. -/
def pixel_loop (heightmap : NormalmapPng) (options : NormalmapOptions)
    (bpp xo yo zo : Nat) (scale : ℚ) (tile_x tile_y tile_width tile_height : Nat)
    (p_y : Nat) (data : List Nat) : Option (List Nat) :=
  forLoop (fun p_x => decide (p_x < tile_width) && decide (uadd tile_x p_x < heightmap.width))
    (fun p_x => uadd p_x 1)
    (convert_pixel heightmap options bpp xo yo zo scale tile_x tile_y tile_width tile_height p_y)
    loopFuel 0 data

/-- Line 286 of `normalmap_convert`: the loop over the rows `p_y` of one tile. -/
def row_loop (heightmap : NormalmapPng) (options : NormalmapOptions)
    (bpp xo yo zo : Nat) (scale : ℚ) (tile_x tile_y tile_width tile_height : Nat)
    (data : List Nat) : Option (List Nat) :=
  forLoop (fun p_y => decide (p_y < tile_height) && decide (uadd tile_y p_y < heightmap.height))
    (fun p_y => uadd p_y 1)
    (pixel_loop heightmap options bpp xo yo zo scale tile_x tile_y tile_width tile_height)
    loopFuel 0 data

/-- Line 283 of `normalmap_convert`: the loop over the tiles `tile_x` of one band of tiles. -/
def tile_x_loop (heightmap : NormalmapPng) (options : NormalmapOptions)
    (bpp xo yo zo : Nat) (scale : ℚ) (tile_width tile_height : Nat) (tile_y : Nat)
    (data : List Nat) : Option (List Nat) :=
  forLoop (fun tile_x => decide (tile_x < heightmap.width))
    (fun tile_x => uadd tile_x tile_width)
    (fun tile_x =>
      row_loop heightmap options bpp xo yo zo scale tile_x tile_y tile_width tile_height)
    loopFuel 0 data

/-- Lines 281-306 of `normalmap_convert`: the loop over the bands `tile_y` of tiles. -/
def convert_tiles (heightmap : NormalmapPng) (options : NormalmapOptions)
    (bpp xo yo zo : Nat) (scale : ℚ) (tile_width tile_height : Nat)
    (data : List Nat) : Option (List Nat) :=
  forLoop (fun tile_y => decide (tile_y < heightmap.height))
    (fun tile_y => uadd tile_y tile_height)
    (tile_x_loop heightmap options bpp xo yo zo scale tile_width tile_height)
    loopFuel 0 data

/-- Lines 238-247 of `normalmap_convert`: the bytes per pixel `bpp` of the output. -/
def bytes_per_pixel (options : NormalmapOptions) : Nat :=
  if 'a' ∈ options.xyz then 4 else 3

/-- Lines 251-253 of `normalmap_convert`: the offset `byte_offset (options->xyz[i])`. -/
def axis_offset (options : NormalmapOptions) (i : Nat) : Nat :=
  byte_offset (options.xyz.getD i (Char.ofNat 0))

/-- Lines 278-279 of `normalmap_convert`: the side of a tile, given the side of the image:
`options->tilesize > 0 ? options->tilesize : full`, as an `unsigned`. -/
def tile_side (options : NormalmapOptions) (full : Nat) : Nat :=
  if options.tilesize > 0 then options.tilesize.toNat % 4294967296 else full

/-- The function `normalmap_convert` (normalmap.c:225). -/
def normalmap_convert (heightmap : NormalmapPng) (options : NormalmapOptions) :
    Option NormalmapPng :=
  let bpp := bytes_per_pixel options
  let format := if 'a' ∈ options.xyz then PngFormat.RGBA else PngFormat.RGB
  let data := List.replicate (umul (umul heightmap.height heightmap.width) bpp) 0
  let xo := axis_offset options 0
  let yo := axis_offset options 1
  let zo := axis_offset options 2
  (effective_scale heightmap options).bind fun scale =>
  let tile_width := tile_side options heightmap.width
  let tile_height := tile_side options heightmap.height
  (convert_tiles heightmap options bpp xo yo zo scale tile_width tile_height data).map
    fun data => { width := heightmap.width, height := heightmap.height, format := format,
                  data := data }

/-- Lines 281-306 of `normalmap_convert` with the body of the innermost loop left open:
the loop over the pixels `p_x` of one row of a tile (line 288). -/
def nest_px {σ : Type} (W tile_width : Nat) (body : Nat → σ → Option σ) (tile_x : Nat)
    (s : σ) : Option σ :=
  forLoop (fun p_x => decide (p_x < tile_width) && decide (uadd tile_x p_x < W))
    (fun p_x => uadd p_x 1) body loopFuel 0 s

/-- The loop over the rows `p_y` of one tile (line 286), body left open. -/
def nest_py {σ : Type} (H tile_height : Nat) (body : Nat → σ → Option σ) (tile_y : Nat)
    (s : σ) : Option σ :=
  forLoop (fun p_y => decide (p_y < tile_height) && decide (uadd tile_y p_y < H))
    (fun p_y => uadd p_y 1) body loopFuel 0 s

/-- The loop over the tiles `tile_x` of one band (line 283), body left open. -/
def nest_tx {σ : Type} (W H tile_width tile_height : Nat)
    (body : Nat → Nat → Nat → Nat → σ → Option σ) (tile_y : Nat) (s : σ) : Option σ :=
  forLoop (fun tile_x => decide (tile_x < W)) (fun tile_x => uadd tile_x tile_width)
    (fun tile_x =>
      nest_py H tile_height (fun p_y => nest_px W tile_width (body tile_x tile_y p_y) tile_x)
        tile_y)
    loopFuel 0 s

/-- The four nested loops of lines 281-306 for an image of `W × H` pixels, with the body
`body tile_x tile_y p_y p_x` of the innermost loop left open. -/
def loop_nest {σ : Type} (W H tile_width tile_height : Nat)
    (body : Nat → Nat → Nat → Nat → σ → Option σ) (s : σ) : Option σ :=
  forLoop (fun tile_y => decide (tile_y < H)) (fun tile_y => uadd tile_y tile_height)
    (nest_tx W H tile_width tile_height body) loopFuel 0 s

/-- The coordinates `(x, y)` (lines 291-292) of the executions of the innermost loop body,
in the order of execution. -/
def visited (W H tile_width tile_height : Nat) : Option (List (Nat × Nat)) :=
  loop_nest W H tile_width tile_height
    (fun tile_x tile_y p_y p_x trace => some (trace ++ [(uadd tile_x p_x, uadd tile_y p_y)]))
    []

/-! ## options.c -/

/-- The libc function `tolower` in the "C" locale: `A`..`Z` become `a`..`z`. -/
def tolower (c : Char) : Char :=
  if 65 ≤ c.toNat ∧ c.toNat ≤ 90 then Char.ofNat (c.toNat + 32) else c

/-- The libc function `strspn`: the length of the longest prefix of `s` that consists of
characters of `accept`. -/
def strspn (s accept : List Char) : Nat :=
  (s.takeWhile fun c => decide (c ∈ accept)).length

/-- The function `validate_xyz` (options.c:78) on a string without its terminator: the
returned `int`, and the string it leaves in the buffer of the caller. -/
def validate_xyz (xyz : List Char) : Int × List Char :=
  if xyz.length ≠ 3 then (0, xyz)
  else
    let xyz := [0, 1, 2].foldl (fun s n => s.set n (tolower (s.getD n (Char.ofNat 0)))) xyz
    if strspn xyz ['r', 'g', 'b', 'a'] ≠ 3 then (0, xyz)
    else if [0, 1, 2].any (fun n => [0, 1, 2].any (fun m =>
        decide (n ≠ m) && decide (xyz.getD n (Char.ofNat 0) = xyz.getD m (Char.ofNat 0))))
      then (0, xyz)
    else (1, xyz)

/-! ## Vocabulary of the specification -/

/-- The sample `s(x, y)` of pixel `(x, y)` of a height field stored in row-major order. -/
def pix (heightmap : NormalmapPng) (x y : Nat) : Int :=
  ((heightmap.data.getD (y * heightmap.width + x) 0 : Nat) : Int)

/-- The byte that the three stores of `convert_pixel` leave at offset `o` of the channel
group of a pixel whose normal vector is `v`, in a buffer that was zero before. -/
def pixel_bytes (options : NormalmapOptions) (v : NormalVector) (xo yo zo o : Nat) : Nat :=
  if o = zo then
    (if options.unsigned_z then d_to_unsigned_byte v.z else d_to_signed_byte v.z)
  else if o = yo then d_to_signed_byte v.y
  else if o = xo then d_to_signed_byte v.x
  else 0

/-- The output buffer `buf` after the pixels in `D` have been converted and no others: the
channel group of a converted pixel `(x, y)` holds the bytes of `sobel` taken in the tile
whose origin is `(x / tw * tw, y / th * th)`, every other channel group is still zero. -/
def Painted (heightmap : NormalmapPng) (options : NormalmapOptions) (bpp xo yo zo : Nat)
    (scale : ℚ) (tw th : Nat) (D : Nat → Nat → Prop) (buf : List Nat) : Prop :=
  buf.length = heightmap.width * heightmap.height * bpp ∧
  ∀ x y o, x < heightmap.width → y < heightmap.height → o < bpp →
    (D x y → ∃ v, sobel heightmap x y scale options.wrap (x / tw * tw) (y / th * th) tw th
        = some v ∧
      buf[(y * heightmap.width + x) * bpp + o]? = some (pixel_bytes options v xo yo zo o)) ∧
    (¬ D x y → buf[(y * heightmap.width + x) * bpp + o]? = some 0)

/-- The standing assumptions of the loop proofs: three or four bytes per pixel, offsets
inside the channel group, a non-empty image whose buffers fit `unsigned`, positive tile
sides below `2^31` (the tile size is an `int`), and every call of
`sobel` made for a pixel of the image in its own tile returns. -/
structure LoopCtx (heightmap : NormalmapPng) (options : NormalmapOptions) (bpp xo yo zo : Nat)
    (scale : ℚ) (tw th : Nat) : Prop where
  hbpp : bpp = 3 ∨ bpp = 4
  hxo : xo < bpp
  hyo : yo < bpp
  hzo : zo < bpp
  hwpos : 0 < heightmap.width
  hsz : heightmap.width * heightmap.height * 4 < 4294967296
  htw : 0 < tw
  hth : 0 < th
  htw2 : tw < 2147483648
  hth2 : th < 2147483648
  hsob : ∀ x y, x < heightmap.width → y < heightmap.height →
    ∃ v, sobel heightmap x y scale options.wrap (x / tw * tw) (y / th * th) tw th = some v

/-- A channel mapping accepted by the option parser: three pairwise distinct characters
from `r`, `g`, `b`, `a`. -/
def valid_mapping (m : List Char) : Prop :=
  m.length = 3 ∧ (∀ c ∈ m, c ∈ ['r', 'g', 'b', 'a']) ∧ m.Nodup

instance (m : List Char) : Decidable (valid_mapping m) := by
  unfold valid_mapping; infer_instance

/-- The tile size `t` is 0, or positive and divides both sides of the image (and is an
`int`). -/
def tile_fits (t : Int) (W H : Nat) : Prop :=
  t = 0 ∨ (0 < t ∧ t < 2147483648 ∧ t.toNat ∣ W ∧ t.toNat ∣ H)

instance (t : Int) (W H : Nat) : Decidable (tile_fits t W H) := by
  unfold tile_fits; infer_instance

/-- The standing assumptions of the proofs about `loop_nest`: a non-empty image and tiles
with sides below `2^31`; a state predicate `P D s` ("the pixels in `D` are done in `s`")
that depends on `D` inside the image only; and a loop body that, run on a pixel of the
image that is not done yet, in the tile it belongs to, returns a state in which that pixel
is done as well.  Under `ok` the body is known to return. -/
structure NestCtx {σ : Type} (W H tw th : Nat) (ok : Prop)
    (P : (Nat → Nat → Prop) → σ → Prop)
    (body : Nat → Nat → Nat → Nat → σ → Option σ) : Prop where
  hW : 0 < W
  hH : 0 < H
  hW2 : W < 2147483648
  hH2 : H < 2147483648
  htw : 0 < tw
  hth : 0 < th
  htw2 : tw < 2147483648
  hth2 : th < 2147483648
  hcongr : ∀ (D D' : Nat → Nat → Prop) (s : σ),
    (∀ x y, x < W → y < H → (D x y ↔ D' x y)) → P D s → P D' s
  hbody : ∀ (D : Nat → Nat → Prop) (s : σ) (tx ty py px : Nat), P D s →
    tx + px < W → ty + py < H → px < tw → py < th →
    (tx + px) / tw * tw = tx → (ty + py) / th * th = ty → ¬ D (tx + px) (ty + py) →
    (ok → ∃ s', body tx ty py px s = some s') ∧
    (∀ s', body tx ty py px s = some s' →
      P (fun x y => D x y ∨ (x = tx + px ∧ y = ty + py)) s')

/-- Two runs that fail together or return related results. -/
def OptRel {σ τ : Type} (R : σ → τ → Prop) (a : Option σ) (b : Option τ) : Prop :=
  (a = none ∧ b = none) ∨ ∃ s t, a = some s ∧ b = some t ∧ R s t

/-- The buffer `buf2` (with `bpp` bytes per pixel) holds at the offsets `a0`, `a1`, `a2` of
every channel group what the buffer `buf1` of an `rgb` run (3 bytes per pixel) holds at the
offsets 0, 1, 2, for an image of `n` pixels. -/
def Relocated (n bpp a0 a1 a2 : Nat) (buf1 buf2 : List Nat) : Prop :=
  buf1.length = n * 3 ∧ buf2.length = n * bpp ∧
  ∀ k, k < n →
    buf2[k * bpp + a0]? = buf1[k * 3 + 0]? ∧
    buf2[k * bpp + a1]? = buf1[k * 3 + 1]? ∧
    buf2[k * bpp + a2]? = buf1[k * 3 + 2]?

/-! ## Sample inputs -/

/-- The 3 × 1 height field 0, 10, 0. -/
def lowField : NormalmapPng :=
  { width := 3, height := 1, format := PngFormat.GRAY, data := [0, 10, 0] }

/-- The height field `lowField` scaled by 2. -/
def lowFieldDoubled : NormalmapPng :=
  { width := 3, height := 1, format := PngFormat.GRAY, data := [0, 20, 0] }

/-- The 3 × 1 height field 0, 5, 10. -/
def rampField : NormalmapPng :=
  { width := 3, height := 1, format := PngFormat.GRAY, data := [0, 5, 10] }

/-- The 1 × 1 height field 7. -/
def singlePixel : NormalmapPng :=
  { width := 1, height := 1, format := PngFormat.GRAY, data := [7] }

/-- A 3 × 3 height field. -/
def smallField : NormalmapPng :=
  { width := 3, height := 3, format := PngFormat.GRAY, data := [7, 1, 2, 3, 4, 5, 6, 7, 8] }

/-- A 4 × 2 height field, two 2 × 2 tiles side by side. -/
def pairField : NormalmapPng :=
  { width := 4, height := 2, format := PngFormat.GRAY, data := [0, 0, 0, 100, 0, 0, 0, 100] }

/-- The 2 × 2 image cropped from `pairField` to its tile with origin `(2, 0)`. -/
def pairFieldCrop : NormalmapPng :=
  { width := 2, height := 2, format := PngFormat.GRAY, data := [0, 100, 0, 100] }

/-- A 2 × 4 height field, two 2 × 2 tiles one above the other. -/
def tallField : NormalmapPng :=
  { width := 2, height := 4, format := PngFormat.GRAY, data := [0, 9, 0, 9, 0, 9, 0, 9] }

/-- The 2 × 2 height field 0, 255 / 255, 0. -/
def checkerField : NormalmapPng :=
  { width := 2, height := 2, format := PngFormat.GRAY, data := [0, 255, 255, 0] }

/-- A 4 × 2 height field that agrees with `pairField` on the tile with origin `(2, 0)`. -/
def pairFieldOther : NormalmapPng :=
  { width := 4, height := 2, format := PngFormat.GRAY,
    data := [50, 60, 0, 100, 70, 80, 0, 100] }

/-- A 6 × 3 height field, two 3 × 3 tiles side by side. -/
def wideField : NormalmapPng :=
  { width := 6, height := 3, format := PngFormat.GRAY,
    data := [0, 10, 30, 60, 100, 150, 5, 20, 45, 80, 125, 180, 10, 30, 60, 100, 150, 210] }


/-- The default options of the program: `--xyz=rgb`, scale 1, every switch off, no tiles. -/
def rgbOptions : NormalmapOptions :=
  { xyz := ['r', 'g', 'b'], scale := 1, normalise := false, unsigned_z := false,
    wrap := false, tilesize := 0 }

/-- The flat `w × h` height field of value `c`. -/
def flatField (w h c : Nat) : NormalmapPng :=
  { width := w, height := h, format := PngFormat.GRAY, data := List.replicate (w * h) c }

/-! ## Machine arithmetic without wrap-around -/

theorem uadd_le (a b : Nat) : uadd a b ≤ a + b := by
  unfold uadd; exact Nat.mod_le _ _

theorem umul_le (a b : Nat) : umul a b ≤ a * b := by
  unfold umul; exact Nat.mod_le _ _

theorem uadd_eq {a b : Nat} (h : a + b < 4294967296) : uadd a b = a + b := by
  unfold uadd; exact Nat.mod_eq_of_lt h

theorem umul_eq {a b : Nat} (h : a * b < 4294967296) : umul a b = a * b := by
  unfold umul; exact Nat.mod_eq_of_lt h

theorem usub_eq {a b : Nat} (hb : b ≤ a) (ha : a < 4294967296) : usub a b = a - b := by
  unfold usub; omega

/-- Row-major index of a pixel inside the image lies inside the buffer. -/
theorem idx_lt {W H x y : Nat} (hx : x < W) (hy : y < H) : y * W + x < W * H := by
  have h1 : (y + 1) * W ≤ H * W := Nat.mul_le_mul_right W hy
  have h2 : (y + 1) * W = y * W + W := Nat.succ_mul y W
  have h3 : H * W = W * H := Nat.mul_comm H W
  omega

theorem uidx_lt {W H x y : Nat} (hx : x < W) (hy : y < H) :
    uadd (umul y W) x < W * H := by
  have h1 := uadd_le (umul y W) x
  have h2 := umul_le y W
  have h3 := @idx_lt W H x y hx hy
  omega

/-! ## Flat height fields -/

theorem sample_pixel_flat {W H c x y : Nat} (hx : x < W) (hy : y < H) :
    sample_pixel (flatField W H c) x y = some c := by
  have h := @uidx_lt W H x y hx hy
  simp [sample_pixel, flatField, List.getElem?_replicate, h]

theorem pixel_diff_flat {W H c : Nat} (x1 x2 y1 y2 tile_x tile_y tw th : Nat)
    (htx : tile_x + tw ≤ W) (hty : tile_y + th ≤ H) :
    pixel_diff (flatField W H c) x1 x2 y1 y2 tile_x tile_y tw th = some 0 := by
  have hx := uadd_le tile_x tw
  have hy := uadd_le tile_y th
  unfold pixel_diff
  split_ifs with h1 h2
  · rfl
  · rfl
  · have a1 : x1 < W := by omega
    have a2 : x2 < W := by omega
    have b1 : y1 < H := by omega
    have b2 : y2 < H := by omega
    simp [sample_pixel_flat a1 b1, sample_pixel_flat a2 b2]

theorem row_dh_flat {W H c : Nat} (x y : Nat) (wrap : Bool) (tile_x tile_y tw th : Nat)
    (htx : tile_x + tw ≤ W) (hty : tile_y + th ≤ H) :
    row_dh (flatField W H c) x y wrap tile_x tile_y tw th = some 0 := by
  unfold row_dh
  simp only [pixel_diff_flat _ _ _ _ _ _ _ _ htx hty]
  split_ifs <;> rfl

theorem col_dh_flat {W H c : Nat} (x y : Nat) (wrap : Bool) (tile_x tile_y tw th : Nat)
    (htx : tile_x + tw ≤ W) (hty : tile_y + th ≤ H) :
    col_dh (flatField W H c) x y wrap tile_x tile_y tw th = some 0 := by
  unfold col_dh
  simp only [pixel_diff_flat _ _ _ _ _ _ _ _ htx hty]
  split_ifs <;> rfl

theorem sobel_vec_zero (scale : ℚ) (d e : ℚ) :
    sobel_vec scale (0, d) (0, e) = ⟨⟨0, 1⟩, ⟨0, 1⟩, ⟨1, 1⟩⟩ := by
  simp [sobel_vec, Dbl.divSqrt]

theorem sobel_row_acc_flat {W H c : Nat} (x y : Nat) (wrap : Bool) (tile_x tile_y tw th : Nat)
    (htx : tile_x + tw ≤ W) (hty : tile_y + th ≤ H) :
    ∃ d, sobel_row_acc (flatField W H c) x y wrap tile_x tile_y tw th = some (0, d) := by
  unfold sobel_row_acc
  simp only [row_dh_flat _ _ _ _ _ _ _ htx hty]
  split_ifs <;> simp

theorem sobel_col_acc_flat {W H c : Nat} (x y : Nat) (wrap : Bool) (tile_x tile_y tw th : Nat)
    (htx : tile_x + tw ≤ W) (hty : tile_y + th ≤ H) :
    ∃ d, sobel_col_acc (flatField W H c) x y wrap tile_x tile_y tw th = some (0, d) := by
  unfold sobel_col_acc
  simp only [col_dh_flat _ _ _ _ _ _ _ htx hty]
  split_ifs <;> simp

theorem sobel_flat_aux {W H c : Nat} (x y : Nat) (scale : ℚ) (wrap : Bool)
    (tile_x tile_y tw th : Nat) (htx : tile_x + tw ≤ W) (hty : tile_y + th ≤ H) :
    sobel (flatField W H c) x y scale wrap tile_x tile_y tw th
      = some ⟨⟨0, 1⟩, ⟨0, 1⟩, ⟨1, 1⟩⟩ := by
  obtain ⟨d, hd⟩ := @sobel_row_acc_flat W H c x y wrap tile_x tile_y tw th htx hty
  obtain ⟨e, he⟩ := @sobel_col_acc_flat W H c x y wrap tile_x tile_y tw th htx hty
  simp [sobel, hd, he, sobel_vec_zero]

/-! ## Loops -/

/-- Total-correctness rule for `forLoop`: an invariant kept by the body and a measure that
the step decreases give a final state satisfying the invariant and the negated guard. -/
theorem forLoop_total {σ : Type} (cond : Nat → Bool) (step : Nat → Nat)
    (body : Nat → σ → Option σ) (Inv : Nat → σ → Prop) (m : Nat → Nat)
    (hstep : ∀ i s, Inv i s → cond i = true →
      ∃ s', body i s = some s' ∧ Inv (step i) s' ∧ m (step i) < m i) :
    ∀ fuel i s, m i < fuel → Inv i s →
      ∃ j s', forLoop cond step body fuel i s = some s' ∧ Inv j s' ∧ cond j = false := by
  intro fuel
  induction fuel with
  | zero => intro i s h; omega
  | succ n ih =>
    intro i s hm hinv
    by_cases hc : cond i = true
    · obtain ⟨s', hb, hinv', hlt⟩ := hstep i s hinv hc
      obtain ⟨j, s'', hl, hj, hcj⟩ := ih (step i) s' (by omega) hinv'
      exact ⟨j, s'', by simp [forLoop, hc, hb, hl], hj, hcj⟩
    · have hc' : cond i = false := by simpa using hc
      exact ⟨i, s, by simp [forLoop, hc'], hinv, hc'⟩

theorem store_eq {buf : List Nat} {i : Nat} (b : Nat) (h : i < buf.length) :
    store buf i b = some (buf.set i b) := by
  simp [store, h]

/-- The three stores of `convert_pixel`, all inside the buffer. -/
theorem stores_spec (buf : List Nat) (n xo yo zo bx yb bz : Nat)
    (hx : n + xo < buf.length) (hy : n + yo < buf.length) (hz : n + zo < buf.length) :
    ∃ buf', ((store buf (n + xo) bx).bind fun d => (store d (n + yo) yb).bind fun d =>
        store d (n + zo) bz) = some buf' ∧ buf'.length = buf.length ∧
      ∀ j, buf'[j]? = if j = n + zo then some bz else if j = n + yo then some yb
        else if j = n + xo then some bx else buf[j]? := by
  refine ⟨((buf.set (n + xo) bx).set (n + yo) yb).set (n + zo) bz, ?_, by simp, ?_⟩
  · simp [store, hx, hy, hz]
  · intro j
    simp only [List.getElem?_set, List.length_set]
    by_cases h1 : j = n + zo
    · subst h1; simp [hz]
    · have a : ¬ n + zo = j := fun h => h1 h.symm
      by_cases h2 : j = n + yo
      · subst h2; simp [a, h1, hy]
      · have b : ¬ n + yo = j := fun h => h2 h.symm
        by_cases h3 : j = n + xo
        · subst h3; simp [a, b, h1, h2, hx]
        · have c : ¬ n + xo = j := fun h => h3 h.symm
          simp [a, b, c, h1, h2, h3]

/-- Two pixels of the image with the same row-major index are the same pixel. -/
theorem idx_inj {W x y x' y' : Nat} (hx : x < W) (hx' : x' < W)
    (h : y * W + x = y' * W + x') : x = x' ∧ y = y' := by
  have h1 : (y * W + x) % W = x := by
    rw [Nat.add_comm, Nat.add_mul_mod_self_right]; exact Nat.mod_eq_of_lt hx
  have h2 : (y' * W + x') % W = x' := by
    rw [Nat.add_comm, Nat.add_mul_mod_self_right]; exact Nat.mod_eq_of_lt hx'
  have hxx : x = x' := by rw [← h1, ← h2, h]
  subst hxx
  have hW : 0 < W := by omega
  have h3 : y * W = y' * W := by omega
  exact ⟨rfl, Nat.eq_of_mul_eq_mul_right hW h3⟩

theorem Painted_congr {hm : NormalmapPng} {opts : NormalmapOptions} {bpp xo yo zo : Nat}
    {scale : ℚ} {tw th : Nat} {D D' : Nat → Nat → Prop} {buf : List Nat}
    (h : ∀ x y, x < hm.width → y < hm.height → (D x y ↔ D' x y))
    (hp : Painted hm opts bpp xo yo zo scale tw th D buf) :
    Painted hm opts bpp xo yo zo scale tw th D' buf := by
  refine ⟨hp.1, ?_⟩
  intro x y o hx hy ho
  have := hp.2 x y o hx hy ho
  rw [h x y hx hy] at this
  exact this

/-- One execution of the body of the innermost loop, on a pixel that was not converted yet. -/
theorem convert_pixel_step {hm : NormalmapPng} {opts : NormalmapOptions} {bpp xo yo zo : Nat}
    {scale : ℚ} {tw th : Nat} (ctx : LoopCtx hm opts bpp xo yo zo scale tw th)
    {D : Nat → Nat → Prop} {buf : List Nat}
    (hp : Painted hm opts bpp xo yo zo scale tw th D buf) (tile_x tile_y p_x p_y : Nat)
    (hx : tile_x + p_x < hm.width) (hy : tile_y + p_y < hm.height)
    (htx : (tile_x + p_x) / tw * tw = tile_x) (hty : (tile_y + p_y) / th * th = tile_y)
    (hD : ¬ D (tile_x + p_x) (tile_y + p_y)) :
    ∃ buf', convert_pixel hm opts bpp xo yo zo scale tile_x tile_y tw th p_y p_x buf
        = some buf' ∧
      Painted hm opts bpp xo yo zo scale tw th
        (fun x y => D x y ∨ (x = tile_x + p_x ∧ y = tile_y + p_y)) buf' := by
  obtain ⟨hlen, hcells⟩ := hp
  have hsz := ctx.hsz
  have hxo := ctx.hxo
  have hyo := ctx.hyo
  have hzo := ctx.hzo
  have hk := @idx_lt hm.width hm.height _ _ hx hy
  obtain ⟨v, hv⟩ := ctx.hsob _ _ hx hy
  rw [htx, hty] at hv
  have e1 : uadd tile_x p_x = tile_x + p_x := uadd_eq (by omega)
  have e2 : uadd tile_y p_y = tile_y + p_y := by
    apply uadd_eq
    have : hm.height ≤ hm.width * hm.height := Nat.le_mul_of_pos_left _ (by omega)
    omega
  have e3 : umul (tile_y + p_y) hm.width = (tile_y + p_y) * hm.width := umul_eq (by omega)
  have e4 : uadd ((tile_y + p_y) * hm.width) (tile_x + p_x)
      = (tile_y + p_y) * hm.width + (tile_x + p_x) := uadd_eq (by omega)
  generalize hkk : (tile_y + p_y) * hm.width + (tile_x + p_x) = k at hk e4
  generalize hK : hm.width * hm.height = K at hk hsz hlen
  have e5 : umul k bpp = k * bpp := by
    apply umul_eq
    rcases ctx.hbpp with h | h <;> subst h <;> omega
  have hin : ∀ o, o < bpp → k * bpp + o < buf.length := by
    intro o ho
    rw [hlen]
    rcases ctx.hbpp with h | h <;> subst h <;> omega
  have e6 : ∀ o, o < bpp → uadd (k * bpp) o = k * bpp + o := by
    intro o ho
    apply uadd_eq
    rcases ctx.hbpp with h | h <;> subst h <;> omega
  obtain ⟨buf', hb, hl', hget⟩ := stores_spec buf (k * bpp) xo yo zo (d_to_signed_byte v.x)
    (d_to_signed_byte v.y)
    (if opts.unsigned_z then d_to_unsigned_byte v.z else d_to_signed_byte v.z)
    (hin xo hxo) (hin yo hyo) (hin zo hzo)
  refine ⟨buf', ?_, ?_, ?_⟩
  · simp only [convert_pixel, e1, e2, e3, e4, e5, e6 xo hxo, e6 yo hyo, e6 zo hzo, hv,
      Option.some_bind, Option.bind_eq_bind]
    exact hb
  · rw [hl', hlen, hK]
  · intro x' y' o hx' hy' ho
    by_cases hsame : x' = tile_x + p_x ∧ y' = tile_y + p_y
    · obtain ⟨rfl, rfl⟩ := hsame
      constructor
      · intro _
        refine ⟨v, by rw [htx, hty]; exact hv, ?_⟩
        rw [hkk, hget]
        have h0 := (hcells _ _ o hx' hy' ho).2 hD
        rw [hkk] at h0
        unfold pixel_bytes
        by_cases c1 : o = zo
        · subst c1; simp
        · by_cases c2 : o = yo
          · subst c2
            have : ¬ k * bpp + o = k * bpp + zo := by omega
            simp [this, c1]
          · by_cases c3 : o = xo
            · subst c3
              have a : ¬ k * bpp + o = k * bpp + zo := by omega
              have b : ¬ k * bpp + o = k * bpp + yo := by omega
              simp [a, b, c1, c2]
            · have a : ¬ k * bpp + o = k * bpp + zo := by omega
              have b : ¬ k * bpp + o = k * bpp + yo := by omega
              have c : ¬ k * bpp + o = k * bpp + xo := by omega
              simp [a, b, c, c1, c2, c3, h0]
      · intro h; exact absurd (Or.inr ⟨rfl, rfl⟩) h
    · have hne : y' * hm.width + x' ≠ k := by
        intro h
        rw [← hkk] at h
        exact hsame (idx_inj hx' hx h)
      have hd : (D x' y' ∨ (x' = tile_x + p_x ∧ y' = tile_y + p_y)) ↔ D x' y' := by
        constructor
        · rintro (h | h)
          · exact h
          · exact absurd h hsame
        · exact Or.inl
      have hj : buf'[(y' * hm.width + x') * bpp + o]? = buf[(y' * hm.width + x') * bpp + o]? := by
        rw [hget]
        generalize y' * hm.width + x' = k' at hne
        have a : ¬ k' * bpp + o = k * bpp + zo := by
          rcases ctx.hbpp with h | h <;> subst h <;> omega
        have b : ¬ k' * bpp + o = k * bpp + yo := by
          rcases ctx.hbpp with h | h <;> subst h <;> omega
        have c : ¬ k' * bpp + o = k * bpp + xo := by
          rcases ctx.hbpp with h | h <;> subst h <;> omega
        simp [a, b, c]
      show (D x' y' ∨ (x' = tile_x + p_x ∧ y' = tile_y + p_y) → _) ∧
        (¬ (D x' y' ∨ (x' = tile_x + p_x ∧ y' = tile_y + p_y)) → _)
      rw [hd, hj]
      exact hcells x' y' o hx' hy' ho

theorem tile_origin {tw : Nat} (i p : Nat) (hp : p < tw) : (i * tw + p) / tw * tw = i * tw := by
  have htw : 0 < tw := by omega
  rw [Nat.add_comm, Nat.add_mul_div_right _ _ htw, Nat.div_eq_of_lt hp, Nat.zero_add]

/-- The loop over the pixels of one row of a tile converts exactly that row of the tile. -/
theorem pixel_loop_spec {hm : NormalmapPng} {opts : NormalmapOptions} {bpp xo yo zo : Nat}
    {scale : ℚ} {tw th : Nat} (ctx : LoopCtx hm opts bpp xo yo zo scale tw th)
    {D0 : Nat → Nat → Prop} {buf : List Nat}
    (hp : Painted hm opts bpp xo yo zo scale tw th D0 buf) (a b p_y : Nat)
    (hao : ∀ p, p < tw → (a + p) / tw * tw = a) (hbo : ∀ p, p < th → (b + p) / th * th = b)
    (ha : a < hm.width) (hy : b + p_y < hm.height) (hpy : p_y < th)
    (hfresh : ∀ x, a ≤ x → x < a + tw → ¬ D0 x (b + p_y)) :
    ∃ buf', pixel_loop hm opts bpp xo yo zo scale a b tw th p_y buf = some buf' ∧
      Painted hm opts bpp xo yo zo scale tw th
        (fun x y => D0 x y ∨ (a ≤ x ∧ x < a + tw ∧ y = b + p_y)) buf' := by
  have hsz := ctx.hsz
  have htw2 := ctx.htw2
  have hW : hm.width ≤ hm.width * hm.height := Nat.le_mul_of_pos_right _ (by omega)
  obtain ⟨j, buf', hl, ⟨hj, hpj⟩, hc⟩ := forLoop_total
    (fun p_x => decide (p_x < tw) && decide (uadd a p_x < hm.width)) (fun p_x => uadd p_x 1)
    (convert_pixel hm opts bpp xo yo zo scale a b tw th p_y)
    (fun p_x s => p_x ≤ tw ∧ Painted hm opts bpp xo yo zo scale tw th
      (fun x y => D0 x y ∨ (y = b + p_y ∧ a ≤ x ∧ x < a + p_x)) s)
    (fun p_x => tw - p_x)
    (by
      rintro p_x s ⟨hle, hps⟩ hc
      simp only [Bool.and_eq_true, decide_eq_true_eq] at hc
      obtain ⟨h1, h2⟩ := hc
      rw [uadd_eq (by omega)] at h2
      obtain ⟨s', hs', hps'⟩ := convert_pixel_step ctx hps a b p_x p_y h2 hy (hao p_x h1)
        (hbo p_y hpy) (by
          rintro (h | h)
          · exact hfresh _ (by omega) (by omega) h
          · omega)
      have e : uadd p_x 1 = p_x + 1 := uadd_eq (by omega)
      simp only [e]
      refine ⟨s', hs', ⟨by omega, ?_⟩, by omega⟩
      refine Painted_congr ?_ hps'
      intro x y _ _
      constructor
      · rintro ((h | h) | h)
        · exact Or.inl h
        · exact Or.inr (by omega)
        · exact Or.inr (by omega)
      · rintro (h | h)
        · exact Or.inl (Or.inl h)
        · by_cases hx : x = a + p_x
          · exact Or.inr (by omega)
          · exact Or.inl (Or.inr (by omega)))
    loopFuel 0 buf (by show tw - 0 < loopFuel; unfold loopFuel; omega)
    ⟨Nat.zero_le _, Painted_congr (by
      intro x y _ _
      constructor
      · exact Or.inl
      · rintro (h | h)
        · exact h
        · omega) hp⟩
  refine ⟨buf', hl, Painted_congr ?_ hpj⟩
  intro x y hx _
  simp only [Bool.and_eq_false_iff, decide_eq_false_iff_not] at hc
  have hc' : ¬ j < tw ∨ ¬ a + j < hm.width := by
    rcases hc with h | h
    · exact Or.inl h
    · rw [uadd_eq (by omega)] at h; exact Or.inr h
  constructor
  · rintro (h | h)
    · exact Or.inl h
    · exact Or.inr (by omega)
  · rintro (h | h)
    · exact Or.inl h
    · exact Or.inr (by omega)

/-- The loop over the rows of one tile converts exactly the part of the tile inside the
image. -/
theorem row_loop_spec {hm : NormalmapPng} {opts : NormalmapOptions} {bpp xo yo zo : Nat}
    {scale : ℚ} {tw th : Nat} (ctx : LoopCtx hm opts bpp xo yo zo scale tw th)
    {D0 : Nat → Nat → Prop} {buf : List Nat}
    (hp : Painted hm opts bpp xo yo zo scale tw th D0 buf) (a b : Nat)
    (hao : ∀ p, p < tw → (a + p) / tw * tw = a) (hbo : ∀ p, p < th → (b + p) / th * th = b)
    (ha : a < hm.width) (hb : b < hm.height)
    (hfresh : ∀ x y, a ≤ x → x < a + tw → b ≤ y → y < b + th → ¬ D0 x y) :
    ∃ buf', row_loop hm opts bpp xo yo zo scale a b tw th buf = some buf' ∧
      Painted hm opts bpp xo yo zo scale tw th
        (fun x y => D0 x y ∨ (a ≤ x ∧ x < a + tw ∧ b ≤ y ∧ y < b + th)) buf' := by
  have hsz := ctx.hsz
  have hth2 := ctx.hth2
  have hH : hm.height ≤ hm.width * hm.height := Nat.le_mul_of_pos_left _ (by omega)
  obtain ⟨j, buf', hl, ⟨hj, hpj⟩, hc⟩ := forLoop_total
    (fun p_y => decide (p_y < th) && decide (uadd b p_y < hm.height)) (fun p_y => uadd p_y 1)
    (pixel_loop hm opts bpp xo yo zo scale a b tw th)
    (fun p_y s => p_y ≤ th ∧ Painted hm opts bpp xo yo zo scale tw th
      (fun x y => D0 x y ∨ (a ≤ x ∧ x < a + tw ∧ b ≤ y ∧ y < b + p_y)) s)
    (fun p_y => th - p_y)
    (by
      rintro p_y s ⟨hle, hps⟩ hc
      simp only [Bool.and_eq_true, decide_eq_true_eq] at hc
      obtain ⟨h1, h2⟩ := hc
      rw [uadd_eq (by omega)] at h2
      obtain ⟨s', hs', hps'⟩ := pixel_loop_spec ctx hps a b p_y hao hbo ha h2 h1 (by
          intro x hx1 hx2
          rintro (h | h)
          · exact hfresh _ _ hx1 hx2 (by omega) (by omega) h
          · omega)
      have e : uadd p_y 1 = p_y + 1 := uadd_eq (by omega)
      simp only [e]
      refine ⟨s', hs', ⟨by omega, ?_⟩, by omega⟩
      refine Painted_congr ?_ hps'
      intro x y _ _
      constructor
      · rintro ((h | h) | h)
        · exact Or.inl h
        · exact Or.inr (by omega)
        · exact Or.inr (by omega)
      · rintro (h | h)
        · exact Or.inl (Or.inl h)
        · by_cases hx : y = b + p_y
          · exact Or.inr (by omega)
          · exact Or.inl (Or.inr (by omega)))
    loopFuel 0 buf (by show th - 0 < loopFuel; unfold loopFuel; omega)
    ⟨Nat.zero_le _, Painted_congr (by
      intro x y _ _
      constructor
      · exact Or.inl
      · rintro (h | h)
        · exact h
        · omega) hp⟩
  refine ⟨buf', hl, Painted_congr ?_ hpj⟩
  intro x y _ hy
  simp only [Bool.and_eq_false_iff, decide_eq_false_iff_not] at hc
  have hc' : ¬ j < th ∨ ¬ b + j < hm.height := by
    rcases hc with h | h
    · exact Or.inl h
    · rw [uadd_eq (by omega)] at h; exact Or.inr h
  constructor
  · rintro (h | h)
    · exact Or.inl h
    · exact Or.inr (by omega)
  · rintro (h | h)
    · exact Or.inl h
    · exact Or.inr (by omega)

/-- The loop over the tiles of one band converts exactly the rows of the band. -/
theorem tile_x_loop_spec {hm : NormalmapPng} {opts : NormalmapOptions} {bpp xo yo zo : Nat}
    {scale : ℚ} {tw th : Nat} (ctx : LoopCtx hm opts bpp xo yo zo scale tw th)
    {D0 : Nat → Nat → Prop} {buf : List Nat}
    (hp : Painted hm opts bpp xo yo zo scale tw th D0 buf) (b : Nat)
    (hbo : ∀ p, p < th → (b + p) / th * th = b) (hb : b < hm.height)
    (hfresh : ∀ x y, b ≤ y → y < b + th → ¬ D0 x y) :
    ∃ buf', tile_x_loop hm opts bpp xo yo zo scale tw th b buf = some buf' ∧
      Painted hm opts bpp xo yo zo scale tw th
        (fun x y => D0 x y ∨ (b ≤ y ∧ y < b + th)) buf' := by
  have hsz := ctx.hsz
  have htw := ctx.htw
  have htw2 := ctx.htw2
  have hW : hm.width ≤ hm.width * hm.height := Nat.le_mul_of_pos_right _ (by omega)
  obtain ⟨j, buf', hl, ⟨hj, hpj⟩, hc⟩ := forLoop_total
    (fun tile_x => decide (tile_x < hm.width)) (fun tile_x => uadd tile_x tw)
    (fun tile_x => row_loop hm opts bpp xo yo zo scale tile_x b tw th)
    (fun tile_x s => (∃ i, tile_x = i * tw) ∧ Painted hm opts bpp xo yo zo scale tw th
      (fun x y => D0 x y ∨ (b ≤ y ∧ y < b + th ∧ x < tile_x)) s)
    (fun tile_x => hm.width - tile_x)
    (by
      rintro a s ⟨⟨i, hi⟩, hps⟩ hc
      simp only [decide_eq_true_eq] at hc
      obtain ⟨s', hs', hps'⟩ := row_loop_spec ctx hps a b
        (by intro p hp; rw [hi]; exact tile_origin i p hp) hbo hc hb (by
          intro x y hx1 hx2 hy1 hy2
          rintro (h | h)
          · exact hfresh _ _ hy1 hy2 h
          · omega)
      have e : uadd a tw = a + tw := uadd_eq (by omega)
      simp only [e]
      refine ⟨s', hs', ⟨⟨i + 1, by rw [hi, Nat.succ_mul]⟩, ?_⟩, by omega⟩
      refine Painted_congr ?_ hps'
      intro x y _ _
      constructor
      · rintro ((h | h) | h)
        · exact Or.inl h
        · exact Or.inr (by omega)
        · exact Or.inr (by omega)
      · rintro (h | h)
        · exact Or.inl (Or.inl h)
        · by_cases hx : x < a
          · exact Or.inl (Or.inr (by omega))
          · exact Or.inr (by omega))
    loopFuel 0 buf (by show hm.width - 0 < loopFuel; unfold loopFuel; omega)
    ⟨⟨0, by simp⟩, Painted_congr (by
      intro x y _ _
      constructor
      · exact Or.inl
      · rintro (h | h)
        · exact h
        · omega) hp⟩
  refine ⟨buf', hl, Painted_congr ?_ hpj⟩
  intro x y hx _
  simp only [decide_eq_false_iff_not] at hc
  constructor
  · rintro (h | h)
    · exact Or.inl h
    · exact Or.inr (by omega)
  · rintro (h | h)
    · exact Or.inl h
    · exact Or.inr (by omega)

/-- The four nested loops convert every pixel of the image, each in its own tile. -/
theorem convert_tiles_spec {hm : NormalmapPng} {opts : NormalmapOptions} {bpp xo yo zo : Nat}
    {scale : ℚ} {tw th : Nat} (ctx : LoopCtx hm opts bpp xo yo zo scale tw th)
    {buf : List Nat}
    (hp : Painted hm opts bpp xo yo zo scale tw th (fun _ _ => False) buf) :
    ∃ buf', convert_tiles hm opts bpp xo yo zo scale tw th buf = some buf' ∧
      Painted hm opts bpp xo yo zo scale tw th (fun _ _ => True) buf' := by
  have hsz := ctx.hsz
  have hth := ctx.hth
  have hth2 := ctx.hth2
  have hH : hm.height ≤ hm.width * hm.height := Nat.le_mul_of_pos_left _ ctx.hwpos
  obtain ⟨j, buf', hl, ⟨hj, hpj⟩, hc⟩ := forLoop_total
    (fun tile_y => decide (tile_y < hm.height)) (fun tile_y => uadd tile_y th)
    (tile_x_loop hm opts bpp xo yo zo scale tw th)
    (fun tile_y s => (∃ i, tile_y = i * th) ∧ Painted hm opts bpp xo yo zo scale tw th
      (fun _ y => y < tile_y) s)
    (fun tile_y => hm.height - tile_y)
    (by
      rintro b s ⟨⟨i, hi⟩, hps⟩ hc
      simp only [decide_eq_true_eq] at hc
      obtain ⟨s', hs', hps'⟩ := tile_x_loop_spec ctx hps b
        (by intro p hp; rw [hi]; exact tile_origin i p hp) hc (by
          intro x y hy1 hy2 h
          omega)
      have e : uadd b th = b + th := uadd_eq (by omega)
      simp only [e]
      refine ⟨s', hs', ⟨⟨i + 1, by rw [hi, Nat.succ_mul]⟩, ?_⟩, by omega⟩
      refine Painted_congr ?_ hps'
      intro x y _ _
      constructor
      · rintro (h | h) <;> omega
      · intro h
        by_cases hx : y < b
        · exact Or.inl hx
        · exact Or.inr (by omega))
    loopFuel 0 buf (by show hm.height - 0 < loopFuel; unfold loopFuel; omega)
    ⟨⟨0, by simp⟩, Painted_congr (by
      intro x y _ _
      constructor
      · exact False.elim
      · intro h; omega) hp⟩
  refine ⟨buf', hl, Painted_congr ?_ hpj⟩
  intro x y _ hy
  simp only [decide_eq_false_iff_not] at hc
  constructor
  · intro _; trivial
  · intro _; omega

/-! ## The whole conversion -/

theorem byte_offset_le (c : Char) : byte_offset c ≤ 3 := by
  unfold byte_offset; split_ifs <;> omega

theorem byte_offset_eq_three {c : Char} (h : byte_offset c = 3) : c = 'a' := by
  unfold byte_offset at h
  split_ifs at h with h1 h2 h3 h4 <;> first | omega | exact h4

theorem axis_offset_lt (opts : NormalmapOptions) (i : Nat) :
    axis_offset opts i < bytes_per_pixel opts := by
  unfold axis_offset bytes_per_pixel
  have hle := byte_offset_le (opts.xyz.getD i (Char.ofNat 0))
  by_cases h3 : byte_offset (opts.xyz.getD i (Char.ofNat 0)) = 3
  · have ha := byte_offset_eq_three h3
    have hmem : 'a' ∈ opts.xyz := by
      by_cases hi : i < opts.xyz.length
      · rw [List.getD_eq_getElem _ _ hi] at ha
        rw [← ha]; exact List.getElem_mem hi
      · rw [List.getD_eq_default _ _ (by omega)] at ha
        exact absurd ha (by decide)
    rw [if_pos hmem, h3]; omega
  · split_ifs <;> omega

theorem bytes_per_pixel_cases (opts : NormalmapOptions) :
    bytes_per_pixel opts = 3 ∨ bytes_per_pixel opts = 4 := by
  unfold bytes_per_pixel; split_ifs <;> simp

/-- The freshly zeroed output buffer. -/
theorem Painted_init (hm : NormalmapPng) (opts : NormalmapOptions) (bpp xo yo zo : Nat)
    (scale : ℚ) (tw th : Nat) (hbpp : bpp = 3 ∨ bpp = 4)
    (hsz : hm.width * hm.height * 4 < 4294967296) :
    Painted hm opts bpp xo yo zo scale tw th (fun _ _ => False)
      (List.replicate (umul (umul hm.height hm.width) bpp) 0) := by
  have hc : hm.height * hm.width = hm.width * hm.height := Nat.mul_comm _ _
  have e1 : umul hm.height hm.width = hm.width * hm.height := by
    rw [umul_eq (by omega), hc]
  have e2 : umul (hm.width * hm.height) bpp = hm.width * hm.height * bpp := by
    apply umul_eq
    rcases hbpp with h | h <;> subst h <;> omega
  rw [e1, e2]
  refine ⟨by simp, ?_⟩
  intro x y o hx hy ho
  have hk := @idx_lt hm.width hm.height x y hx hy
  refine ⟨False.elim, fun _ => ?_⟩
  rw [List.getElem?_replicate]
  generalize y * hm.width + x = k at hk
  generalize hm.width * hm.height = K at hk
  have : k * bpp + o < K * bpp := by
    rcases hbpp with h | h <;> subst h <;> omega
  simp [this]

/-- The output of `normalmap_convert`: when the scale is computed and every call of `sobel`
returns, the conversion returns an image in which every pixel holds the bytes of its own
normal vector. -/
theorem normalmap_convert_spec (hm : NormalmapPng) (opts : NormalmapOptions) (scale : ℚ)
    (hscale : effective_scale hm opts = some scale)
    (ctx : LoopCtx hm opts (bytes_per_pixel opts) (axis_offset opts 0) (axis_offset opts 1)
      (axis_offset opts 2) scale (tile_side opts hm.width) (tile_side opts hm.height)) :
    ∃ out, normalmap_convert hm opts = some out ∧ out.width = hm.width ∧
      out.height = hm.height ∧
      Painted hm opts (bytes_per_pixel opts) (axis_offset opts 0) (axis_offset opts 1)
        (axis_offset opts 2) scale (tile_side opts hm.width) (tile_side opts hm.height)
        (fun _ _ => True) out.data := by
  obtain ⟨buf', hb, hp⟩ := convert_tiles_spec ctx
    (Painted_init hm opts _ _ _ _ scale _ _ ctx.hbpp ctx.hsz)
  refine ⟨{ width := hm.width, height := hm.height,
             format := if 'a' ∈ opts.xyz then PngFormat.RGBA else PngFormat.RGB,
             data := buf' }, ?_, rfl, rfl, hp⟩
  simp [normalmap_convert, hscale, hb]

/-- The scan for the least and greatest sample returns when the buffer holds a sample for
every pixel. -/
theorem min_max_some (hm : NormalmapPng) (hlen : hm.width * hm.height ≤ hm.data.length)
    (hsz : hm.width * hm.height * 4 < 4294967296) : ∃ mm, min_max hm = some mm := by
  have hc : hm.height * hm.width = hm.width * hm.height := Nat.mul_comm _ _
  have e1 : umul hm.height hm.width = hm.width * hm.height := by
    rw [umul_eq (by omega), hc]
  obtain ⟨j, mm, hl, -, -⟩ := forLoop_total
    (fun p_y => decide (p_y < umul hm.height hm.width)) (fun p_y => uadd p_y 1)
    (fun p_y (mm : Nat × Nat) =>
      (hm.data[p_y]?).bind fun pix =>
        let max := if pix > mm.2 then pix else mm.2
        let min := if pix < mm.1 then pix else mm.1
        some (min, max))
    (fun _ _ => True) (fun p_y => hm.width * hm.height - p_y)
    (by
      intro i mm _ hc
      simp only [decide_eq_true_eq, e1] at hc
      have hi : i < hm.data.length := by omega
      have e : uadd i 1 = i + 1 := uadd_eq (by omega)
      refine ⟨(if hm.data[i] < mm.1 then hm.data[i] else mm.1,
        if mm.2 < hm.data[i] then hm.data[i] else mm.2), ?_, trivial, ?_⟩
      · simp [List.getElem?_eq_getElem hi]
      · simp only [e]; omega)
    loopFuel 0 (255, 0) (by show hm.width * hm.height - 0 < loopFuel; unfold loopFuel; omega)
    trivial
  exact ⟨mm, hl⟩

theorem effective_scale_some (hm : NormalmapPng) (opts : NormalmapOptions)
    (hlen : hm.width * hm.height ≤ hm.data.length)
    (hsz : hm.width * hm.height * 4 < 4294967296) : ∃ s, effective_scale hm opts = some s := by
  unfold effective_scale
  obtain ⟨mm, hmm⟩ := min_max_some hm hlen hsz
  split_ifs
  · exact ⟨_, by rw [hmm]; rfl⟩
  · exact ⟨_, rfl⟩

/-! ## Tile geometry -/

theorem tile_in_image {n W x : Nat} (hd : n ∣ W) (hx : x < W) :
    x / n * n + n ≤ W := by
  obtain ⟨q, rfl⟩ := hd
  have h1 : x / n < q := Nat.div_lt_of_lt_mul hx
  have h2 : (x / n + 1) * n ≤ q * n := Nat.mul_le_mul_right n h1
  rw [Nat.succ_mul] at h2
  rw [Nat.mul_comm n q]
  exact h2

theorem whole_tile_origin {W x : Nat} (hx : x < W) : x / W * W = 0 := by
  rw [Nat.div_eq_of_lt hx, Nat.zero_mul]

/-- With a tile size that is 0 or divides the sides of the image, the tile of every pixel
lies inside the image. -/
theorem tile_side_inside (opts : NormalmapOptions) (W H : Nat) (hW : 0 < W) (hH : 0 < H)
    (ht : tile_fits opts.tilesize W H) :
    (0 < tile_side opts W ∧
      ∀ x, x < W → x / tile_side opts W * tile_side opts W + tile_side opts W ≤ W) ∧
    (0 < tile_side opts H ∧
      ∀ y, y < H → y / tile_side opts H * tile_side opts H + tile_side opts H ≤ H) := by
  rcases ht with h0 | ⟨hp, hlt, hdW, hdH⟩
  · have e : ∀ full, tile_side opts full = full := by
      intro full; simp [tile_side, h0]
    rw [e W, e H]
    refine ⟨⟨hW, ?_⟩, ⟨hH, ?_⟩⟩
    · intro x hx; rw [whole_tile_origin hx]; omega
    · intro y hy; rw [whole_tile_origin hy]; omega
  · have hn : 0 < opts.tilesize.toNat := by omega
    have e : ∀ full, tile_side opts full = opts.tilesize.toNat := by
      intro full
      simp only [tile_side, gt_iff_lt, hp, if_true]
      exact Nat.mod_eq_of_lt (by omega)
    rw [e W, e H]
    exact ⟨⟨hn, fun x hx => tile_in_image hdW hx⟩, ⟨hn, fun y hy => tile_in_image hdH hy⟩⟩

/-- Both sides of a tile are below `2^31`. -/
theorem tile_side_lt (opts : NormalmapOptions) (W H : Nat) (hW : 0 < W) (hH : 0 < H)
    (hsz : W * H * 4 < 4294967296) (ht : tile_fits opts.tilesize W H) :
    tile_side opts W < 2147483648 ∧ tile_side opts H < 2147483648 := by
  have h1 : W ≤ W * H := Nat.le_mul_of_pos_right _ hH
  have h2 : H ≤ W * H := Nat.le_mul_of_pos_left _ hW
  rcases ht with h0 | ⟨hp, hlt, -, -⟩
  · have e : ∀ full, tile_side opts full = full := by
      intro full; simp [tile_side, h0]
    rw [e W, e H]; omega
  · have e : ∀ full, tile_side opts full = opts.tilesize.toNat := by
      intro full
      simp only [tile_side, gt_iff_lt, hp, if_true]
      exact Nat.mod_eq_of_lt (by omega)
    rw [e W, e H]; omega

/-- The standing assumptions of the loop proofs hold for a non-empty image whose buffers
fit `unsigned`, a tile size that is 0 or divides both sides, and a `sobel` that returns. -/
theorem loopCtx_of_fits (hm : NormalmapPng) (opts : NormalmapOptions) (scale : ℚ)
    (hW : 0 < hm.width) (hH : 0 < hm.height)
    (hsz : hm.width * hm.height * 4 < 4294967296)
    (ht : tile_fits opts.tilesize hm.width hm.height)
    (hsob : ∀ x y, x < hm.width → y < hm.height →
      ∃ v, sobel hm x y scale opts.wrap
        (x / tile_side opts hm.width * tile_side opts hm.width)
        (y / tile_side opts hm.height * tile_side opts hm.height)
        (tile_side opts hm.width) (tile_side opts hm.height) = some v) :
    LoopCtx hm opts (bytes_per_pixel opts) (axis_offset opts 0) (axis_offset opts 1)
      (axis_offset opts 2) scale (tile_side opts hm.width) (tile_side opts hm.height) :=
  { hbpp := bytes_per_pixel_cases opts
    hxo := axis_offset_lt opts 0
    hyo := axis_offset_lt opts 1
    hzo := axis_offset_lt opts 2
    hwpos := hW
    hsz := hsz
    htw := (tile_side_inside opts _ _ hW hH ht).1.1
    hth := (tile_side_inside opts _ _ hW hH ht).2.1
    htw2 := (tile_side_lt opts _ _ hW hH hsz ht).1
    hth2 := (tile_side_lt opts _ _ hW hH hsz ht).2
    hsob := hsob }

/-! ## Channel mappings -/

/-- A valid mapping names three pairwise distinct offsets. -/
theorem valid_mapping_offsets (opts : NormalmapOptions) (h : valid_mapping opts.xyz) :
    axis_offset opts 0 ≠ axis_offset opts 1 ∧ axis_offset opts 0 ≠ axis_offset opts 2 ∧
    axis_offset opts 1 ≠ axis_offset opts 2 := by
  obtain ⟨hlen, hmem, hnd⟩ := h
  unfold axis_offset
  match hx : opts.xyz, hlen, hmem, hnd with
  | [c0, c1, c2], _, hmem, hnd =>
    have h0 := hmem c0 (by simp)
    have h1 := hmem c1 (by simp)
    have h2 := hmem c2 (by simp)
    simp only [List.mem_cons, List.mem_singleton, List.not_mem_nil, or_false] at h0 h1 h2
    simp only [List.nodup_cons, List.mem_cons, List.mem_singleton, List.not_mem_nil,
      not_or, or_false, not_false_eq_true, List.nodup_nil, and_true] at hnd
    obtain ⟨⟨n01, n02⟩, n12⟩ := hnd
    simp only [List.getD_cons_zero, List.getD_cons_succ]
    rcases h0 with rfl | rfl | rfl | rfl <;> rcases h1 with rfl | rfl | rfl | rfl <;>
      rcases h2 with rfl | rfl | rfl | rfl <;>
      first
      | exact absurd rfl n01
      | exact absurd rfl n02
      | exact absurd rfl n12
      | decide

/-! ## The quantizer at the components of the vector `(0, 0, 1)` -/

theorem d_to_signed_byte_zero : d_to_signed_byte ⟨0, 1⟩ = 128 := by decide!

theorem d_to_signed_byte_one : d_to_signed_byte ⟨1, 1⟩ = 255 := by decide!

theorem d_to_unsigned_byte_one : d_to_unsigned_byte ⟨1, 1⟩ = 255 := by decide!

/-! ## Claims about flat height fields -/

/-- C2: on a flat height field, for every tile of the partition made by a tile size that is
0 or divides both sides of the image, for both values of wrap and every scale, every call
of `row_dh` and of `col_dh` returns 0 and `sobel` returns exactly the vector `(0, 0, 1)`
(`nx = ny = 0`, and the length under the square root is 1) at every pixel. -/
theorem sobel_flat (W H c : Nat) (opts : NormalmapOptions) (scale : ℚ) (wrap : Bool)
    (i j x y : Nat) (hW : 0 < W) (hH : 0 < H) (ht : tile_fits opts.tilesize W H)
    (hi : i * tile_side opts W < W) (hj : j * tile_side opts H < H) :
    (∀ x' y', row_dh (flatField W H c) x' y' wrap (i * tile_side opts W)
        (j * tile_side opts H) (tile_side opts W) (tile_side opts H) = some 0 ∧
      col_dh (flatField W H c) x' y' wrap (i * tile_side opts W)
        (j * tile_side opts H) (tile_side opts W) (tile_side opts H) = some 0) ∧
    sobel (flatField W H c) x y scale wrap (i * tile_side opts W) (j * tile_side opts H)
      (tile_side opts W) (tile_side opts H)
      = some { x := Dbl.ofRat 0, y := Dbl.ofRat 0, z := Dbl.ofRat 1 } := by
  obtain ⟨⟨hw0, hin⟩, ⟨hh0, hjn⟩⟩ := tile_side_inside opts W H hW hH ht
  have h1 := hin _ hi
  have h2 := hjn _ hj
  have e1 := tile_origin i 0 hw0
  have e2 := tile_origin j 0 hh0
  simp only [Nat.add_zero] at e1 e2
  rw [e1] at h1
  rw [e2] at h2
  exact ⟨fun x' y' => ⟨row_dh_flat _ _ _ _ _ _ _ h1 h2, col_dh_flat _ _ _ _ _ _ _ h1 h2⟩,
    sobel_flat_aux _ _ _ _ _ _ _ _ h1 h2⟩

/-- Witness of C2: the 4 × 4 field of value 100 cut into 2 × 2 tiles, tile `(1, 1)`,
pixel `(3, 2)`, wrap on. -/
theorem sobel_flat_witness :
    (∀ x' y', row_dh (flatField 4 4 100) x' y' true 2 2 2 2 = some 0 ∧
      col_dh (flatField 4 4 100) x' y' true 2 2 2 2 = some 0) ∧
    sobel (flatField 4 4 100) 3 2 (1 / 255) true 2 2 2 2
      = some { x := Dbl.ofRat 0, y := Dbl.ofRat 0, z := Dbl.ofRat 1 } :=
  sobel_flat 4 4 100 { rgbOptions with tilesize := 2 } (1 / 255) true 1 1 3 2
    (by decide) (by decide) (by decide) (by decide) (by decide)

theorem flatField_loopCtx (W H c : Nat) (opts : NormalmapOptions) (scale : ℚ)
    (hW : 0 < W) (hH : 0 < H) (hsz : W * H * 4 < 4294967296)
    (ht : tile_fits opts.tilesize W H) :
    LoopCtx (flatField W H c) opts (bytes_per_pixel opts) (axis_offset opts 0)
      (axis_offset opts 1) (axis_offset opts 2) scale (tile_side opts W) (tile_side opts H) :=
  loopCtx_of_fits (flatField W H c) opts scale hW hH hsz ht (fun x y hx hy =>
    ⟨_, sobel_flat_aux x y scale opts.wrap _ _ _ _
      ((tile_side_inside opts W H hW hH ht).1.2 x hx)
      ((tile_side_inside opts W H hW hH ht).2.2 y hy)⟩)

/-- Counterexample to C1 as stated: for the 4 × 4 field of value 100 with the options
`xyz = "rgb"`, scale 1, normalise off, wrap off, unsigned_z off, tile size 0, the output is
not `(128, 128, 128)` at every pixel; the blue byte of every pixel is 255. -/
theorem convert_flat_not_128 :
    ¬ ∃ out, normalmap_convert (flatField 4 4 100) rgbOptions = some out ∧
      ∀ x y, x < 4 → y < 4 →
        out.data[(y * 4 + x) * 3 + 0]? = some 128 ∧
        out.data[(y * 4 + x) * 3 + 1]? = some 128 ∧
        out.data[(y * 4 + x) * 3 + 2]? = some 128 := by
  rintro ⟨out, hout, hall⟩
  have hrun : normalmap_convert (flatField 4 4 100) rgbOptions
      = some { width := 4, height := 4, format := PngFormat.RGB,
               data := [128, 128, 255, 128, 128, 255, 128, 128, 255, 128, 128, 255,
                        128, 128, 255, 128, 128, 255, 128, 128, 255, 128, 128, 255,
                        128, 128, 255, 128, 128, 255, 128, 128, 255, 128, 128, 255,
                        128, 128, 255, 128, 128, 255, 128, 128, 255, 128, 128, 255] } := by
    decide!
  rw [hrun] at hout
  have hz := (hall 0 0 (by decide) (by decide)).2.2
  rw [← Option.some.inj hout] at hz
  revert hz
  decide

/-- C1 (amended): for every flat height field of width and height at least 1, every scale,
both values of wrap, normalise and unsigned_z, every valid channel mapping and every tile
size that is 0 or divides both sides of the image, `normalmap_convert` returns an image in
which every pixel holds byte 128 at the X-axis offset, byte 128 at the Y-axis offset and
byte 255 at the Z-axis offset. -/
theorem convert_flat (W H c : Nat) (opts : NormalmapOptions)
    (hW : 0 < W) (hH : 0 < H) (hsz : W * H * 4 < 4294967296)
    (hmap : valid_mapping opts.xyz) (ht : tile_fits opts.tilesize W H) :
    ∃ out, normalmap_convert (flatField W H c) opts = some out ∧
      out.width = W ∧ out.height = H ∧
      ∀ x y, x < W → y < H →
        out.data[(y * W + x) * bytes_per_pixel opts + axis_offset opts 0]? = some 128 ∧
        out.data[(y * W + x) * bytes_per_pixel opts + axis_offset opts 1]? = some 128 ∧
        out.data[(y * W + x) * bytes_per_pixel opts + axis_offset opts 2]? = some 255 := by
  obtain ⟨scale, hscale⟩ := effective_scale_some (flatField W H c) opts
    (by simp [flatField]) hsz
  have ctx := flatField_loopCtx W H c opts scale hW hH hsz ht
  obtain ⟨out, hout, hw, hh, -, hcells⟩ := normalmap_convert_spec _ opts scale hscale ctx
  obtain ⟨n01, n02, n12⟩ := valid_mapping_offsets opts hmap
  refine ⟨out, hout, hw, hh, ?_⟩
  intro x y hx hy
  have key : ∀ o, o < bytes_per_pixel opts →
      out.data[(y * W + x) * bytes_per_pixel opts + o]?
        = some (pixel_bytes opts ⟨⟨0, 1⟩, ⟨0, 1⟩, ⟨1, 1⟩⟩ (axis_offset opts 0)
            (axis_offset opts 1) (axis_offset opts 2) o) := by
    intro o ho
    obtain ⟨v, hv, hb⟩ := (hcells x y o hx hy ho).1 trivial
    have hv' := sobel_flat_aux (W := W) (H := H) (c := c) x y scale opts.wrap _ _ _ _
      ((tile_side_inside opts W H hW hH ht).1.2 x hx)
      ((tile_side_inside opts W H hW hH ht).2.2 y hy)
    have e : v = ⟨⟨0, 1⟩, ⟨0, 1⟩, ⟨1, 1⟩⟩ := Option.some.inj (hv.symm.trans hv')
    rw [← e]; exact hb
  refine ⟨?_, ?_, ?_⟩
  · rw [key _ (axis_offset_lt opts 0)]
    simp [pixel_bytes, n01, n02, d_to_signed_byte_zero]
  · rw [key _ (axis_offset_lt opts 1)]
    simp [pixel_bytes, n12, d_to_signed_byte_zero]
  · rw [key _ (axis_offset_lt opts 2)]
    simp [pixel_bytes, d_to_signed_byte_one, d_to_unsigned_byte_one]

/-- Witness of C1 (amended): the 4 × 4 field of value 100 with the default options. -/
theorem convert_flat_witness :
    ∃ out, normalmap_convert (flatField 4 4 100) rgbOptions = some out ∧
      out.width = 4 ∧ out.height = 4 ∧
      ∀ x y, x < 4 → y < 4 →
        out.data[(y * 4 + x) * bytes_per_pixel rgbOptions + axis_offset rgbOptions 0]?
          = some 128 ∧
        out.data[(y * 4 + x) * bytes_per_pixel rgbOptions + axis_offset rgbOptions 1]?
          = some 128 ∧
        out.data[(y * 4 + x) * bytes_per_pixel rgbOptions + axis_offset rgbOptions 2]?
          = some 255 :=
  convert_flat 4 4 100 rgbOptions (by decide) (by decide) (by decide) (by decide) (by decide)

/-! ## Samples and differences of a well-formed height field -/

theorem sample_pixel_eq (hm : NormalmapPng) (hlen : hm.data.length = hm.width * hm.height)
    (hsz : hm.width * hm.height < 4294967296) {x y : Nat} (hx : x < hm.width)
    (hy : y < hm.height) :
    sample_pixel hm x y = some (hm.data.getD (y * hm.width + x) 0) := by
  have hk := @idx_lt hm.width hm.height x y hx hy
  have e1 : umul y hm.width = y * hm.width := umul_eq (by omega)
  have e2 : uadd (y * hm.width) x = y * hm.width + x := uadd_eq (by omega)
  have hk' : y * hm.width + x < hm.data.length := by omega
  simp only [sample_pixel, e1, e2, List.getD_eq_getElem?_getD, List.getElem?_eq_getElem hk',
    Option.getD_some]

/-- A difference between two pixels of the tile, for a tile inside the image. -/
theorem pixel_diff_in (hm : NormalmapPng) (hlen : hm.data.length = hm.width * hm.height)
    (hsz : hm.width * hm.height < 4294967296) (x1 x2 y1 y2 tx ty tw th : Nat)
    (htx : tx + tw ≤ hm.width) (hty : ty + th ≤ hm.height)
    (h1 : tx ≤ x1 ∧ x1 < tx + tw ∧ ty ≤ y1 ∧ y1 < ty + th)
    (h2 : tx ≤ x2 ∧ x2 < tx + tw ∧ ty ≤ y2 ∧ y2 < ty + th) :
    pixel_diff hm x1 x2 y1 y2 tx ty tw th = some (pix hm x2 y2 - pix hm x1 y1) := by
  have hW : hm.width ≤ hm.width * hm.height := Nat.le_mul_of_pos_right _ (by omega)
  have hH : hm.height ≤ hm.width * hm.height := Nat.le_mul_of_pos_left _ (by omega)
  have e1 : uadd tx tw = tx + tw := uadd_eq (by omega)
  have e2 : uadd ty th = ty + th := uadd_eq (by omega)
  have c1 : ¬ (x1 < tx ∨ x1 ≥ tx + tw ∨ y1 < ty ∨ y1 ≥ ty + th) := by omega
  have c2 : ¬ (x2 < tx ∨ x2 ≥ tx + tw ∨ y2 < ty ∨ y2 ≥ ty + th) := by omega
  have s1 := sample_pixel_eq hm hlen hsz (x := x1) (y := y1) (by omega) (by omega)
  have s2 := sample_pixel_eq hm hlen hsz (x := x2) (y := y2) (by omega) (by omega)
  simp only [pixel_diff, e1, e2, if_neg c1, if_neg c2, s1, s2, Option.some_bind, pix]

/-- A difference with a pixel outside the tile counts as 0. -/
theorem pixel_diff_out (hm : NormalmapPng) (x1 x2 y1 y2 tx ty tw th : Nat)
    (hx : tx + tw < 4294967296) (hy : ty + th < 4294967296)
    (h : ¬ (tx ≤ x1 ∧ x1 < tx + tw ∧ ty ≤ y1 ∧ y1 < ty + th) ∨
      ¬ (tx ≤ x2 ∧ x2 < tx + tw ∧ ty ≤ y2 ∧ y2 < ty + th)) :
    pixel_diff hm x1 x2 y1 y2 tx ty tw th = some 0 := by
  have e1 : uadd tx tw = tx + tw := uadd_eq hx
  have e2 : uadd ty th = ty + th := uadd_eq hy
  simp only [pixel_diff, e1, e2]
  split_ifs with c1 c2
  · rfl
  · rfl
  · omega

/-! ## Claims about `row_dh` and `col_dh` on the whole image -/

/-- C9: with wrap on and the single tile covering the whole image, the row slope at column
0 is `-(s(w-1,y) - s(1,y))` and at the last column `-(s(0,y) - s(w-2,y))` when `w ≥ 2`, and
the column slope at row 0 is `s(x,h-1) - s(x,1)` and at the last row `s(x,0) - s(x,h-2)`
when `h ≥ 2`. -/
theorem wrap_edge_slopes (hm : NormalmapPng) (hlen : hm.data.length = hm.width * hm.height)
    (hsz : hm.width * hm.height < 4294967296) (x y : Nat)
    (hx : x < hm.width) (hy : y < hm.height) :
    (2 ≤ hm.width →
      row_dh hm 0 y true 0 0 hm.width hm.height
        = some (-(pix hm (hm.width - 1) y - pix hm 1 y)) ∧
      row_dh hm (hm.width - 1) y true 0 0 hm.width hm.height
        = some (-(pix hm 0 y - pix hm (hm.width - 2) y))) ∧
    (2 ≤ hm.height →
      col_dh hm x 0 true 0 0 hm.width hm.height
        = some (pix hm x (hm.height - 1) - pix hm x 1) ∧
      col_dh hm x (hm.height - 1) true 0 0 hm.width hm.height
        = some (pix hm x 0 - pix hm x (hm.height - 2))) := by
  have hW : hm.width ≤ hm.width * hm.height := Nat.le_mul_of_pos_right _ (by omega)
  have hH : hm.height ≤ hm.width * hm.height := Nat.le_mul_of_pos_left _ (by omega)
  have ew1 : usub hm.width 1 = hm.width - 1 := usub_eq (by omega) (by omega)
  have eh1 : usub hm.height 1 = hm.height - 1 := usub_eq (by omega) (by omega)
  refine ⟨fun h2 => ⟨?_, ?_⟩, fun h2 => ⟨?_, ?_⟩⟩
  · have d := pixel_diff_in hm hlen hsz 1 (hm.width - 1) y y 0 0 hm.width hm.height
      (by omega) (by omega) (by omega) (by omega)
    simp [row_dh, ew1, d]
  · by_cases hw2 : hm.width = 2
    · have e : hm.width - 1 = 1 := by omega
      have e' : hm.width - 2 = 0 := by omega
      simp [row_dh, e, e']
    · have ew2 : usub hm.width 2 = hm.width - 2 := usub_eq (by omega) (by omega)
      have d := pixel_diff_in hm hlen hsz (hm.width - 2) 0 y y 0 0 hm.width hm.height
        (by omega) (by omega) (by omega) (by omega)
      have n1 : ¬ hm.width - 1 = 1 := by omega
      have n0 : ¬ hm.width - 1 = 0 := by omega
      simp [row_dh, ew1, ew2, d, n1, n0]
  · have d := pixel_diff_in hm hlen hsz x x 1 (hm.height - 1) 0 0 hm.width hm.height
      (by omega) (by omega) (by omega) (by omega)
    have n1 : ¬ hm.height = 1 := by omega
    simp [col_dh, eh1, d, n1]
  · have n1 : ¬ hm.height = 1 := by omega
    have n0 : ¬ hm.height - 1 = 0 := by omega
    have eh2 : usub hm.height 2 = hm.height - 2 := usub_eq (by omega) (by omega)
    have d := pixel_diff_in hm hlen hsz x x (hm.height - 2) 0 0 0 hm.width hm.height
      (by omega) (by omega) (by omega) (by omega)
    simp [col_dh, eh1, eh2, d, n1, n0]

/-- Witness of C9: the 3 × 3 height field with the samples 0, 10, 20 / 30, 40, 50 /
60, 70, 80, at column 2 and row 1. -/
theorem wrap_edge_slopes_witness :
    (2 ≤ 3 →
      row_dh ⟨3, 3, PngFormat.GRAY, [0, 10, 20, 30, 40, 50, 60, 70, 80]⟩ 0 1 true 0 0 3 3
        = some (-(pix ⟨3, 3, PngFormat.GRAY, [0, 10, 20, 30, 40, 50, 60, 70, 80]⟩ (3 - 1) 1
            - pix ⟨3, 3, PngFormat.GRAY, [0, 10, 20, 30, 40, 50, 60, 70, 80]⟩ 1 1)) ∧
      row_dh ⟨3, 3, PngFormat.GRAY, [0, 10, 20, 30, 40, 50, 60, 70, 80]⟩ (3 - 1) 1 true 0 0 3 3
        = some (-(pix ⟨3, 3, PngFormat.GRAY, [0, 10, 20, 30, 40, 50, 60, 70, 80]⟩ 0 1
            - pix ⟨3, 3, PngFormat.GRAY, [0, 10, 20, 30, 40, 50, 60, 70, 80]⟩ (3 - 2) 1))) ∧
    (2 ≤ 3 →
      col_dh ⟨3, 3, PngFormat.GRAY, [0, 10, 20, 30, 40, 50, 60, 70, 80]⟩ 2 0 true 0 0 3 3
        = some (pix ⟨3, 3, PngFormat.GRAY, [0, 10, 20, 30, 40, 50, 60, 70, 80]⟩ 2 (3 - 1)
            - pix ⟨3, 3, PngFormat.GRAY, [0, 10, 20, 30, 40, 50, 60, 70, 80]⟩ 2 1) ∧
      col_dh ⟨3, 3, PngFormat.GRAY, [0, 10, 20, 30, 40, 50, 60, 70, 80]⟩ 2 (3 - 1) true 0 0 3 3
        = some (pix ⟨3, 3, PngFormat.GRAY, [0, 10, 20, 30, 40, 50, 60, 70, 80]⟩ 2 0
            - pix ⟨3, 3, PngFormat.GRAY, [0, 10, 20, 30, 40, 50, 60, 70, 80]⟩ 2 (3 - 2))) :=
  wrap_edge_slopes ⟨3, 3, PngFormat.GRAY, [0, 10, 20, 30, 40, 50, 60, 70, 80]⟩
    (by decide) (by decide) 2 1 (by decide) (by decide)

/-! ## Tiles inside the image: every call returns -/

theorem pixel_diff_some (hm : NormalmapPng) (hlen : hm.data.length = hm.width * hm.height)
    (hsz : hm.width * hm.height < 4294967296) (x1 x2 y1 y2 tx ty tw th : Nat)
    (htx : tx + tw ≤ hm.width) (hty : ty + th ≤ hm.height) :
    ∃ d, pixel_diff hm x1 x2 y1 y2 tx ty tw th = some d := by
  have hx := uadd_le tx tw
  have hy := uadd_le ty th
  unfold pixel_diff
  split_ifs with h1 h2
  · exact ⟨0, rfl⟩
  · exact ⟨0, rfl⟩
  · have s1 := sample_pixel_eq hm hlen hsz (x := x1) (y := y1) (by omega) (by omega)
    have s2 := sample_pixel_eq hm hlen hsz (x := x2) (y := y2) (by omega) (by omega)
    rw [s1, s2]; exact ⟨_, rfl⟩

theorem row_dh_some (hm : NormalmapPng) (hlen : hm.data.length = hm.width * hm.height)
    (hsz : hm.width * hm.height < 4294967296) (x y : Nat) (wrap : Bool) (tx ty tw th : Nat)
    (htx : tx + tw ≤ hm.width) (hty : ty + th ≤ hm.height) :
    ∃ d, row_dh hm x y wrap tx ty tw th = some d := by
  have key := fun x1 x2 => pixel_diff_some hm hlen hsz x1 x2 y y tx ty tw th htx hty
  simp only [row_dh]
  split_ifs
  · exact ⟨0, rfl⟩
  · obtain ⟨d, hd⟩ := key 1 (usub tw 1); exact ⟨-d, by rw [hd]; rfl⟩
  · obtain ⟨d, hd⟩ := key 0 1; exact ⟨-d, by rw [hd]; rfl⟩
  · obtain ⟨d, hd⟩ := key (usub tw 2) 0; exact ⟨-d, by rw [hd]; rfl⟩
  · obtain ⟨d, hd⟩ := key (usub tw 2) (usub tw 1); exact ⟨-d, by rw [hd]; rfl⟩
  · obtain ⟨d, hd⟩ := key (usub x 1) (uadd x 1); exact ⟨-d, by rw [hd]; rfl⟩

theorem col_dh_some (hm : NormalmapPng) (hlen : hm.data.length = hm.width * hm.height)
    (hsz : hm.width * hm.height < 4294967296) (x y : Nat) (wrap : Bool) (tx ty tw th : Nat)
    (htx : tx + tw ≤ hm.width) (hty : ty + th ≤ hm.height) :
    ∃ d, col_dh hm x y wrap tx ty tw th = some d := by
  have key := fun y1 y2 => pixel_diff_some hm hlen hsz x x y1 y2 tx ty tw th htx hty
  simp only [col_dh]
  split_ifs
  · exact ⟨0, rfl⟩
  · exact key _ _
  · exact key _ _
  · exact key _ _
  · exact key _ _
  · exact key _ _

theorem sobel_row_acc_some (hm : NormalmapPng)
    (hlen : hm.data.length = hm.width * hm.height)
    (hsz : hm.width * hm.height < 4294967296) (x y : Nat) (wrap : Bool) (tx ty tw th : Nat)
    (htx : tx + tw ≤ hm.width) (hty : ty + th ≤ hm.height) :
    ∃ a, sobel_row_acc hm x y wrap tx ty tw th = some a := by
  have key := fun y' => row_dh_some hm hlen hsz x y' wrap tx ty tw th htx hty
  obtain ⟨r0, h0⟩ := key y
  obtain ⟨r1, h1⟩ := key (usub th 1)
  obtain ⟨r2, h2⟩ := key (usub y 1)
  obtain ⟨r3, h3⟩ := key 0
  obtain ⟨r4, h4⟩ := key (uadd y 1)
  simp only [sobel_row_acc, h0, h1, h2, h3, h4, Option.some_bind, Option.map_some']
  split_ifs <;> simp

theorem sobel_col_acc_some (hm : NormalmapPng)
    (hlen : hm.data.length = hm.width * hm.height)
    (hsz : hm.width * hm.height < 4294967296) (x y : Nat) (wrap : Bool) (tx ty tw th : Nat)
    (htx : tx + tw ≤ hm.width) (hty : ty + th ≤ hm.height) :
    ∃ a, sobel_col_acc hm x y wrap tx ty tw th = some a := by
  have key := fun x' => col_dh_some hm hlen hsz x' y wrap tx ty tw th htx hty
  obtain ⟨r0, h0⟩ := key x
  obtain ⟨r1, h1⟩ := key (usub tw 1)
  obtain ⟨r2, h2⟩ := key (usub x 1)
  obtain ⟨r3, h3⟩ := key 0
  obtain ⟨r4, h4⟩ := key (uadd x 1)
  simp only [sobel_col_acc, h0, h1, h2, h3, h4, Option.some_bind, Option.map_some']
  split_ifs <;> simp

/-- For a tile inside the image of a well-formed height field, `sobel` returns: every
sample it reads lies inside the buffer. -/
theorem sobel_some (hm : NormalmapPng) (hlen : hm.data.length = hm.width * hm.height)
    (hsz : hm.width * hm.height < 4294967296) (x y : Nat) (scale : ℚ) (wrap : Bool)
    (tx ty tw th : Nat) (htx : tx + tw ≤ hm.width) (hty : ty + th ≤ hm.height) :
    ∃ v, sobel hm x y scale wrap tx ty tw th = some v := by
  obtain ⟨a, ha⟩ := sobel_row_acc_some hm hlen hsz x y wrap tx ty tw th htx hty
  obtain ⟨b, hb⟩ := sobel_col_acc_some hm hlen hsz x y wrap tx ty tw th htx hty
  unfold sobel
  rw [ha, hb]; exact ⟨_, rfl⟩

/-- The standing assumptions of the loop proofs, for a well-formed height field and a tile
size that is 0 or divides both sides. -/
theorem wellFormed_loopCtx (hm : NormalmapPng) (opts : NormalmapOptions) (scale : ℚ)
    (hW : 0 < hm.width) (hH : 0 < hm.height)
    (hlen : hm.data.length = hm.width * hm.height)
    (hsz : hm.width * hm.height * 4 < 4294967296)
    (ht : tile_fits opts.tilesize hm.width hm.height) :
    LoopCtx hm opts (bytes_per_pixel opts) (axis_offset opts 0)
      (axis_offset opts 1) (axis_offset opts 2) scale (tile_side opts hm.width)
      (tile_side opts hm.height) :=
  loopCtx_of_fits hm opts scale hW hH hsz ht (fun x y hx hy =>
    sobel_some hm hlen (by omega) x y scale opts.wrap _ _ _ _
      ((tile_side_inside opts _ _ hW hH ht).1.2 x hx)
      ((tile_side_inside opts _ _ hW hH ht).2.2 y hy))

/-! ## Pixels strictly inside a tile -/

theorem row_dh_interior (hm : NormalmapPng) (hlen : hm.data.length = hm.width * hm.height)
    (hsz : hm.width * hm.height < 4294967296) (x y : Nat) (wrap : Bool) (tx ty tw th : Nat)
    (htx : tx + tw ≤ hm.width) (hty : ty + th ≤ hm.height)
    (hx : tx < x ∧ x + 1 < tx + tw) (hy : ty ≤ y ∧ y < ty + th) (hne : x + 1 ≠ tw) :
    row_dh hm x y wrap tx ty tw th
      = some (if x = 1 then 0 else -(pix hm (x + 1) y - pix hm (x - 1) y)) := by
  have hW : hm.width ≤ hm.width * hm.height := Nat.le_mul_of_pos_right _ (by omega)
  by_cases h1 : x = 1
  · simp [row_dh, h1]
  · have e1 : usub tw 1 = tw - 1 := usub_eq (by omega) (by omega)
    have e2 : usub x 1 = x - 1 := usub_eq (by omega) (by omega)
    have e3 : uadd x 1 = x + 1 := uadd_eq (by omega)
    have n0 : ¬ x = 0 := by omega
    have n2 : ¬ x = tw - 1 := by omega
    have d := pixel_diff_in hm hlen hsz (x - 1) (x + 1) y y tx ty tw th htx hty
      (by omega) (by omega)
    simp only [row_dh, e1, e2, e3, if_neg h1, if_neg n0, if_neg n2, d, Option.map_some']

theorem col_dh_interior (hm : NormalmapPng) (hlen : hm.data.length = hm.width * hm.height)
    (hsz : hm.width * hm.height < 4294967296) (x y : Nat) (wrap : Bool) (tx ty tw th : Nat)
    (htx : tx + tw ≤ hm.width) (hty : ty + th ≤ hm.height)
    (hx : tx ≤ x ∧ x < tx + tw) (hy : ty < y ∧ y + 1 < ty + th) (hne : y + 1 ≠ th) :
    col_dh hm x y wrap tx ty tw th = some (pix hm x (y + 1) - pix hm x (y - 1)) := by
  have hH : hm.height ≤ hm.width * hm.height := Nat.le_mul_of_pos_left _ (by omega)
  have e1 : usub th 1 = th - 1 := usub_eq (by omega) (by omega)
  have e2 : usub y 1 = y - 1 := usub_eq (by omega) (by omega)
  have e3 : uadd y 1 = y + 1 := uadd_eq (by omega)
  have n1 : ¬ th = 1 := by omega
  have n0 : ¬ y = 0 := by omega
  have n2 : ¬ y = th - 1 := by omega
  have d := pixel_diff_in hm hlen hsz x x (y - 1) (y + 1) tx ty tw th htx hty
    (by omega) (by omega)
  simp only [col_dh, e1, e2, e3, if_neg n1, if_neg n0, if_neg n2, d]

/-- At a pixel strictly inside its tile, where no comparison with 0 or with the tile side
fires, `sobel` is the plain 3 × 3 operator on the samples: it does not depend on the tile. -/
theorem sobel_interior (hm : NormalmapPng) (hlen : hm.data.length = hm.width * hm.height)
    (hsz : hm.width * hm.height < 4294967296) (x y : Nat) (scale : ℚ) (wrap : Bool)
    (tx ty tw th : Nat) (htx : tx + tw ≤ hm.width) (hty : ty + th ≤ hm.height)
    (hx : tx < x ∧ x + 1 < tx + tw) (hy : ty < y ∧ y + 1 < ty + th)
    (hnx : x + 1 ≠ tw) (hny : y + 1 ≠ th) :
    sobel hm x y scale wrap tx ty tw th = some (sobel_vec scale
      ((if x = 1 then 0 else -(pix hm (x + 1) y - pix hm (x - 1) y)) * 2
        + (if x = 1 then 0 else -(pix hm (x + 1) (y - 1) - pix hm (x - 1) (y - 1)))
        + (if x = 1 then 0 else -(pix hm (x + 1) (y + 1) - pix hm (x - 1) (y + 1))), 5)
      ((pix hm x (y + 1) - pix hm x (y - 1)) * 2
        + (pix hm (x - 1) (y + 1) - pix hm (x - 1) (y - 1))
        + (pix hm (x + 1) (y + 1) - pix hm (x + 1) (y - 1)), 5)) := by
  have hW : hm.width ≤ hm.width * hm.height := Nat.le_mul_of_pos_right _ (by omega)
  have hH : hm.height ≤ hm.width * hm.height := Nat.le_mul_of_pos_left _ (by omega)
  have r0 := row_dh_interior hm hlen hsz x y wrap tx ty tw th htx hty hx (by omega) hnx
  have r1 := row_dh_interior hm hlen hsz x (y - 1) wrap tx ty tw th htx hty hx (by omega) hnx
  have r2 := row_dh_interior hm hlen hsz x (y + 1) wrap tx ty tw th htx hty hx (by omega) hnx
  have c0 := col_dh_interior hm hlen hsz x y wrap tx ty tw th htx hty (by omega) hy hny
  have c1 := col_dh_interior hm hlen hsz (x - 1) y wrap tx ty tw th htx hty (by omega) hy hny
  have c2 := col_dh_interior hm hlen hsz (x + 1) y wrap tx ty tw th htx hty (by omega) hy hny
  have ex1 : usub x 1 = x - 1 := usub_eq (by omega) (by omega)
  have ex2 : uadd x 1 = x + 1 := uadd_eq (by omega)
  have ey1 : usub y 1 = y - 1 := usub_eq (by omega) (by omega)
  have ey2 : uadd y 1 = y + 1 := uadd_eq (by omega)
  have ew : usub tw 1 = tw - 1 := usub_eq (by omega) (by omega)
  have eh : usub th 1 = th - 1 := usub_eq (by omega) (by omega)
  have nx0 : ¬ x = 0 := by omega
  have ny0 : ¬ y = 0 := by omega
  have nxw : ¬ x = tw - 1 := by omega
  have nyh : ¬ y = th - 1 := by omega
  simp only [sobel, sobel_row_acc, sobel_col_acc, ex1, ex2, ey1, ey2, ew, eh, if_neg nx0,
    if_neg ny0, if_neg nxw, if_neg nyh, r0, r1, r2, c0, c1, c2, Option.some_bind,
    Option.map_some']

theorem tile_side_zero (opts : NormalmapOptions) (h : opts.tilesize = 0) (full : Nat) :
    tile_side opts full = full := by
  simp [tile_side, h]

theorem tile_side_pos (opts : NormalmapOptions) (t : Nat) (h : opts.tilesize = (t : Int))
    (h0 : 0 < t) (h2 : t < 2147483648) (full : Nat) : tile_side opts full = t := by
  have hp : opts.tilesize > 0 := by omega
  have hm : t % 4294967296 = t := Nat.mod_eq_of_lt (by omega)
  unfold tile_side
  rw [if_pos hp, h, Int.toNat_ofNat, hm]

theorem origin_of_mem {t i x : Nat} (h1 : i * t ≤ x) (h2 : x < i * t + t) :
    x / t * t = i * t := by
  have e : x = i * t + (x - i * t) := by omega
  rw [e]
  exact tile_origin i (x - i * t) (by omega)

theorem tile_zero_or_ge (i t : Nat) : i * t = 0 ∨ t ≤ i * t := by
  rcases Nat.eq_zero_or_pos i with h | h
  · left; rw [h, Nat.zero_mul]
  · right; exact Nat.le_mul_of_pos_left t h

/-- C5: for every well-formed height field, every tile size `t > 0` dividing both sides of
the image, wrap off (and wrap on as well) and all other options equal, the output of
`normalmap_convert` with tile size `t` and the output with tile size 0 hold identical bytes
at every pixel `(x, y)` strictly interior to its `t × t` tile (`tile_x < x < tile_x + t - 1`
and `tile_y < y < tile_y + t - 1`, the tile origin being `(i * t, j * t)`). -/
theorem tiled_interior_eq (hm : NormalmapPng) (opts : NormalmapOptions) (t : Nat)
    (hW : 0 < hm.width) (hH : 0 < hm.height)
    (hlen : hm.data.length = hm.width * hm.height)
    (hsz : hm.width * hm.height * 4 < 4294967296)
    (ht0 : 0 < t) (ht2 : t < 2147483648) (htW : t ∣ hm.width) (htH : t ∣ hm.height) :
    ∃ tiled whole,
      normalmap_convert hm { opts with tilesize := (t : Int) } = some tiled ∧
      normalmap_convert hm { opts with tilesize := 0 } = some whole ∧
      ∀ i j x y o, x < hm.width → y < hm.height →
        i * t < x → x + 1 < i * t + t → j * t < y → y + 1 < j * t + t →
        o < bytes_per_pixel opts →
        tiled.data[(y * hm.width + x) * bytes_per_pixel opts + o]?
          = whole.data[(y * hm.width + x) * bytes_per_pixel opts + o]? := by
  have hsz' : hm.width * hm.height < 4294967296 := by omega
  have hfit1 : tile_fits ({ opts with tilesize := (t : Int) } : NormalmapOptions).tilesize
      hm.width hm.height := by
    refine Or.inr ⟨?_, ?_, ?_, ?_⟩
    · show (0 : Int) < (t : Int); omega
    · show (t : Int) < 2147483648; omega
    · show (t : Int).toNat ∣ hm.width; rw [Int.toNat_ofNat]; exact htW
    · show (t : Int).toNat ∣ hm.height; rw [Int.toNat_ofNat]; exact htH
  have hfit0 : tile_fits ({ opts with tilesize := 0 } : NormalmapOptions).tilesize
      hm.width hm.height := Or.inl rfl
  obtain ⟨scale, hscale⟩ := effective_scale_some hm { opts with tilesize := (t : Int) }
    (by omega) hsz
  have hscale0 : effective_scale hm { opts with tilesize := 0 } = some scale := hscale
  have ctx1 := wellFormed_loopCtx hm { opts with tilesize := (t : Int) } scale hW hH hlen hsz
    hfit1
  have ctx0 := wellFormed_loopCtx hm { opts with tilesize := 0 } scale hW hH hlen hsz hfit0
  obtain ⟨tiled, hrun1, -, -, -, hc1⟩ := normalmap_convert_spec hm _ scale hscale ctx1
  obtain ⟨whole, hrun0, -, -, -, hc0⟩ := normalmap_convert_spec hm _ scale hscale0 ctx0
  refine ⟨tiled, whole, hrun1, hrun0, ?_⟩
  intro i j x y o hx hy hx1 hx2 hy1 hy2 ho
  obtain ⟨v1, hv1, hb1⟩ := (hc1 x y o hx hy ho).1 trivial
  obtain ⟨v0, hv0, hb0⟩ := (hc0 x y o hx hy ho).1 trivial
  have ew1 := tile_side_pos { opts with tilesize := (t : Int) } t rfl ht0 ht2 hm.width
  have eh1 := tile_side_pos { opts with tilesize := (t : Int) } t rfl ht0 ht2 hm.height
  have ew0 := tile_side_zero { opts with tilesize := 0 } rfl hm.width
  have eh0 := tile_side_zero { opts with tilesize := 0 } rfl hm.height
  have ox := origin_of_mem (t := t) (i := i) (x := x) (by omega) (by omega)
  have oy := origin_of_mem (t := t) (i := j) (x := y) (by omega) (by omega)
  have inx := tile_in_image htW hx
  have iny := tile_in_image htH hy
  rw [ox] at inx
  rw [oy] at iny
  rw [ew1, eh1, ox, oy] at hv1
  rw [ew0, eh0, whole_tile_origin hx, whole_tile_origin hy] at hv0
  have zx := tile_zero_or_ge i t
  have zy := tile_zero_or_ge j t
  have s1 := sobel_interior hm hlen hsz' x y scale
    ({ opts with tilesize := (t : Int) } : NormalmapOptions).wrap (i * t) (j * t) t t inx iny
    ⟨hx1, hx2⟩ ⟨hy1, hy2⟩ (by omega) (by omega)
  have s0 := sobel_interior hm hlen hsz' x y scale
    ({ opts with tilesize := 0 } : NormalmapOptions).wrap 0 0 hm.width hm.height
    (by omega) (by omega) (by omega) (by omega) (by omega) (by omega)
  have e1 : v1 = v0 := by
    have a := Option.some.inj (hv1.symm.trans s1)
    have b := Option.some.inj (hv0.symm.trans s0)
    rw [a, b]
  have hb1' : tiled.data[(y * hm.width + x) * bytes_per_pixel opts + o]?
      = some (pixel_bytes opts v1 (axis_offset opts 0) (axis_offset opts 1)
          (axis_offset opts 2) o) := hb1
  have hb0' : whole.data[(y * hm.width + x) * bytes_per_pixel opts + o]?
      = some (pixel_bytes opts v0 (axis_offset opts 0) (axis_offset opts 1)
          (axis_offset opts 2) o) := hb0
  rw [hb1', hb0', e1]

/-- Witness of C5: the 6 × 3 field `wideField` cut into two 3 × 3 tiles. -/
theorem tiled_interior_eq_witness :
    ∃ tiled whole,
      normalmap_convert wideField { rgbOptions with tilesize := ((3 : Nat) : Int) }
        = some tiled ∧
      normalmap_convert wideField { rgbOptions with tilesize := 0 } = some whole ∧
      ∀ i j x y o, x < wideField.width → y < wideField.height →
        i * 3 < x → x + 1 < i * 3 + 3 → j * 3 < y → y + 1 < j * 3 + 3 →
        o < bytes_per_pixel rgbOptions →
        tiled.data[(y * wideField.width + x) * bytes_per_pixel rgbOptions + o]?
          = whole.data[(y * wideField.width + x) * bytes_per_pixel rgbOptions + o]? :=
  tiled_interior_eq wideField rgbOptions 3 (by decide) (by decide) (by decide) (by decide)
    (by decide) (by decide) (by decide) (by decide)

/-! ## Evaluations of the code at inputs where it departs from the specification -/

/-- C3 (the code at the failing input): with normalise on, the field 0, 10, 0 and the same
field scaled by 2 (no clipping) are converted to different bytes. -/
theorem normalise_not_scale_invariant :
    normalmap_convert lowField { rgbOptions with normalise := true }
      = some { width := 3, height := 1, format := PngFormat.RGB,
               data := [96, 128, 251, 128, 128, 255, 160, 128, 251] } ∧
    normalmap_convert lowFieldDoubled { rgbOptions with normalise := true }
      = some { width := 3, height := 1, format := PngFormat.RGB,
               data := [36, 128, 216, 128, 128, 255, 220, 128, 216] } ∧
    effective_scale lowField { rgbOptions with normalise := true } = some (10 / 255) ∧
    effective_scale lowFieldDoubled { rgbOptions with normalise := true } = some (20 / 255) := by
  decide!

/-- C4 (the code at the failing input): for the 1 × 1 image and tile size 2, wrap off,
`pixel_diff` accepts the column 1 (it lies in the tile) and `sample_pixel` reads index 1
of the one-byte buffer; the same happens for a 3 × 3 image and tile size 2. -/
theorem read_outside_buffer :
    sample_pixel singlePixel 1 0 = none ∧
    pixel_diff singlePixel 0 1 0 0 0 0 2 2 = none ∧
    sobel singlePixel 0 0 (1 / 255) false 0 0 2 2 = none ∧
    normalmap_convert singlePixel { rgbOptions with tilesize := 2 } = none ∧
    sample_pixel smallField 1 3 = none ∧
    row_dh smallField 0 3 false 0 2 2 2 = none ∧
    sobel smallField 0 2 (1 / 255) false 0 2 2 2 = none ∧
    normalmap_convert smallField { rgbOptions with tilesize := 2 } = none := by
  decide!

/-- C6 (the code at the failing input): the 4 × 2 field cut into 2 × 2 tiles, wrap off and
normalise off.  The pixels of the tile with origin `(2, 0)` all get `(128, 128, 255)`, the
2 × 2 crop converted on its own does not; at the first column of that tile `row_dh` is 0
and not `-(s(3, 0) - s(2, 0)) = -100`. -/
theorem tile_not_scoped :
    normalmap_convert pairField { rgbOptions with tilesize := 2 }
      = some { width := 4, height := 2, format := PngFormat.RGB,
               data := [128, 128, 255, 128, 128, 255, 128, 128, 255, 128, 128, 255,
                        128, 128, 255, 128, 128, 255, 128, 128, 255, 128, 128, 255] } ∧
    normalmap_convert pairFieldCrop rgbOptions
      = some { width := 2, height := 2, format := PngFormat.RGB,
               data := [92, 128, 250, 128, 128, 255, 92, 128, 250, 128, 128, 255] } ∧
    row_dh pairField 2 0 false 2 0 2 2 = some 0 ∧
    row_dh pairFieldCrop 0 0 false 0 0 2 2 = some (-100) ∧
    -(pix pairField 3 0 - pix pairField 2 0) = -100 := by
  decide!

/-- C7 (the code at the failing input): in the 2 × 4 field cut into 2 × 2 tiles, wrap off,
the pixel `(0, 2)` on the top row of the tile with origin `(0, 2)` gets the divisor 5 and
so does the pixel `(0, 3)` on its bottom row, while the pixels `(0, 0)` and `(0, 1)` of
the tile with origin `(0, 0)` get the divisor 4. -/
theorem divisor_of_lower_tile :
    sobel_row_acc tallField 0 2 false 0 2 2 2 = some (-27, 5) ∧
    sobel_row_acc tallField 0 3 false 0 2 2 2 = some (-27, 5) ∧
    sobel_row_acc tallField 0 0 false 0 0 2 2 = some (-27, 4) ∧
    sobel_row_acc tallField 0 1 false 0 0 2 2 = some (-27, 4) := by
  decide!

/-- C8 (the code at the failing input): in the 3 × 1 field 0, 5, 10 with the single tile
covering the image, `row_dh` at the middle column 1 returns 0 and not
`-(s(2, 0) - s(0, 0)) = -10`; at the columns 0 and 2 it follows the rule. -/
theorem row_dh_column_one :
    row_dh rampField 1 0 false 0 0 3 1 = some 0 ∧
    row_dh rampField 1 0 true 0 0 3 1 = some 0 ∧
    -(pix rampField 2 0 - pix rampField 0 0) = -10 ∧
    row_dh rampField 0 0 false 0 0 3 1 = some (-(pix rampField 1 0 - pix rampField 0 0)) ∧
    row_dh rampField 2 0 false 0 0 3 1 = some (-(pix rampField 2 0 - pix rampField 1 0)) := by
  decide!

/-! ## Two runs that differ in the channel mapping only -/

/-- Relational rule for `forLoop`: bodies that keep two states related, and fail together,
give loops that keep them related, and fail together. -/
theorem forLoop_rel {σ τ : Type} (R : σ → τ → Prop) (cond : Nat → Bool) (step : Nat → Nat)
    (body1 : Nat → σ → Option σ) (body2 : Nat → τ → Option τ)
    (h : ∀ i s t, R s t → cond i = true → OptRel R (body1 i s) (body2 i t)) :
    ∀ fuel i s t, R s t →
      OptRel R (forLoop cond step body1 fuel i s) (forLoop cond step body2 fuel i t) := by
  intro fuel
  induction fuel with
  | zero => intro i s t _; exact Or.inl ⟨rfl, rfl⟩
  | succ n ih =>
    intro i s t hR
    by_cases hc : cond i = true
    · rcases h i s t hR hc with ⟨h1, h2⟩ | ⟨s', t', h1, h2, hR'⟩
      · exact Or.inl ⟨by simp [forLoop, hc, h1], by simp [forLoop, hc, h2]⟩
      · have := ih (step i) s' t' hR'
        simpa [forLoop, hc, h1, h2] using this
    · have hc' : cond i = false := by simpa using hc
      exact Or.inr ⟨s, t, by simp [forLoop, hc'], by simp [forLoop, hc'], hR⟩

/-- The body of the innermost loop keeps the buffers of the two runs related. -/
theorem convert_pixel_rel (hm : NormalmapPng) (o1 o2 : NormalmapOptions)
    (hwrap : o1.wrap = o2.wrap) (hz : o1.unsigned_z = o2.unsigned_z)
    (bpp a0 a1 a2 : Nat) (hbpp : bpp = 3 ∨ bpp = 4) (h0 : a0 < bpp) (h1 : a1 < bpp)
    (h2 : a2 < bpp) (n01 : a0 ≠ a1) (n02 : a0 ≠ a2) (n12 : a1 ≠ a2)
    (hsz : hm.width * hm.height * 4 < 4294967296)
    (scale : ℚ) (tx ty tw th p_y p_x : Nat)
    (hx : uadd tx p_x < hm.width) (hy : uadd ty p_y < hm.height) (buf1 buf2 : List Nat)
    (hR : Relocated (hm.width * hm.height) bpp a0 a1 a2 buf1 buf2) :
    OptRel (Relocated (hm.width * hm.height) bpp a0 a1 a2)
      (convert_pixel hm o1 3 0 1 2 scale tx ty tw th p_y p_x buf1)
      (convert_pixel hm o2 bpp a0 a1 a2 scale tx ty tw th p_y p_x buf2) := by
  obtain ⟨hl1, hl2, hcells⟩ := hR
  have hk := @idx_lt hm.width hm.height _ _ hx hy
  have e3 : umul (uadd ty p_y) hm.width = uadd ty p_y * hm.width := umul_eq (by omega)
  have e4 : uadd (uadd ty p_y * hm.width) (uadd tx p_x)
      = uadd ty p_y * hm.width + uadd tx p_x := uadd_eq (by omega)
  unfold convert_pixel
  simp only [e3, e4]
  rw [← hwrap, ← hz]
  generalize uadd ty p_y * hm.width + uadd tx p_x = k at hk
  generalize hm.width * hm.height = K at hk hsz hl1 hl2 hcells
  rcases hs : sobel hm (uadd tx p_x) (uadd ty p_y) scale o1.wrap tx ty tw th with _ | v
  · exact Or.inl ⟨rfl, rfl⟩
  · simp only [Option.some_bind]
    have m1 : umul k 3 = k * 3 := umul_eq (by omega)
    have m2 : umul k bpp = k * bpp := by
      apply umul_eq
      rcases hbpp with h | h <;> subst h <;> omega
    have u1 : ∀ o, o < 3 → uadd (k * 3) o = k * 3 + o := by
      intro o ho; exact uadd_eq (by omega)
    have u2 : ∀ o, o < bpp → uadd (k * bpp) o = k * bpp + o := by
      intro o ho
      apply uadd_eq
      rcases hbpp with h | h <;> subst h <;> omega
    have i1 : ∀ o, o < 3 → k * 3 + o < buf1.length := by
      intro o ho; rw [hl1]; omega
    have i2 : ∀ o, o < bpp → k * bpp + o < buf2.length := by
      intro o ho
      rw [hl2]
      rcases hbpp with h | h <;> subst h <;> omega
    rw [m1, m2, u1 0 (by omega), u1 1 (by omega), u1 2 (by omega), u2 a0 h0, u2 a1 h1,
      u2 a2 h2]
    obtain ⟨b1, hb1, hbl1, hg1⟩ := stores_spec buf1 (k * 3) 0 1 2 (d_to_signed_byte v.x)
      (d_to_signed_byte v.y)
      (if o1.unsigned_z then d_to_unsigned_byte v.z else d_to_signed_byte v.z)
      (i1 0 (by omega)) (i1 1 (by omega)) (i1 2 (by omega))
    obtain ⟨b2, hb2, hbl2, hg2⟩ := stores_spec buf2 (k * bpp) a0 a1 a2 (d_to_signed_byte v.x)
      (d_to_signed_byte v.y)
      (if o1.unsigned_z then d_to_unsigned_byte v.z else d_to_signed_byte v.z)
      (i2 a0 h0) (i2 a1 h1) (i2 a2 h2)
    refine Or.inr ⟨b1, b2, hb1, hb2, by rw [hbl1, hl1], by rw [hbl2, hl2], ?_⟩
    intro k' hk'
    rw [hg1, hg1, hg1, hg2, hg2, hg2]
    by_cases hkk : k' = k
    · subst hkk
      have q1 : ¬ k' * bpp + a0 = k' * bpp + a2 := by omega
      have q2 : ¬ k' * bpp + a0 = k' * bpp + a1 := by omega
      have q3 : ¬ k' * bpp + a1 = k' * bpp + a2 := by omega
      simp [q1, q2, q3]
    · obtain ⟨c0, c1, c2⟩ := hcells k' hk'
      have r : ∀ o o', o < bpp → o' < bpp → ¬ k' * bpp + o = k * bpp + o' := by
        intro o o' ho ho'
        rcases hbpp with h | h <;> subst h <;> omega
      have r' : ∀ o o', o < 3 → o' < 3 → ¬ k' * 3 + o = k * 3 + o' := by
        intro o o' ho ho'; omega
      simp only [if_neg (r a0 a2 h0 h2), if_neg (r a0 a1 h0 h1), if_neg (r a0 a0 h0 h0),
        if_neg (r a1 a2 h1 h2), if_neg (r a1 a1 h1 h1), if_neg (r a1 a0 h1 h0),
        if_neg (r a2 a2 h2 h2), if_neg (r a2 a1 h2 h1), if_neg (r a2 a0 h2 h0),
        if_neg (r' 0 2 (by omega) (by omega)), if_neg (r' 0 1 (by omega) (by omega)),
        if_neg (r' 0 0 (by omega) (by omega)), if_neg (r' 1 2 (by omega) (by omega)),
        if_neg (r' 1 1 (by omega) (by omega)), if_neg (r' 1 0 (by omega) (by omega)),
        if_neg (r' 2 2 (by omega) (by omega)), if_neg (r' 2 1 (by omega) (by omega)),
        if_neg (r' 2 0 (by omega) (by omega))]
      exact ⟨c0, c1, c2⟩

/-- The four nested loops keep the buffers of the two runs related. -/
theorem convert_tiles_rel (hm : NormalmapPng) (o1 o2 : NormalmapOptions)
    (hwrap : o1.wrap = o2.wrap) (hz : o1.unsigned_z = o2.unsigned_z)
    (bpp a0 a1 a2 : Nat) (hbpp : bpp = 3 ∨ bpp = 4) (h0 : a0 < bpp) (h1 : a1 < bpp)
    (h2 : a2 < bpp) (n01 : a0 ≠ a1) (n02 : a0 ≠ a2) (n12 : a1 ≠ a2)
    (hsz : hm.width * hm.height * 4 < 4294967296)
    (scale : ℚ) (tw th : Nat) (buf1 buf2 : List Nat)
    (hR : Relocated (hm.width * hm.height) bpp a0 a1 a2 buf1 buf2) :
    OptRel (Relocated (hm.width * hm.height) bpp a0 a1 a2)
      (convert_tiles hm o1 3 0 1 2 scale tw th buf1)
      (convert_tiles hm o2 bpp a0 a1 a2 scale tw th buf2) := by
  unfold convert_tiles
  refine forLoop_rel _ _ _ _ _ ?_ _ _ _ _ hR
  intro ty s1 s2 hR1 _
  unfold tile_x_loop
  refine forLoop_rel _ _ _ _ _ ?_ _ _ _ _ hR1
  intro tx s1 s2 hR2 _
  unfold row_loop
  refine forLoop_rel _ _ _ _ _ ?_ _ _ _ _ hR2
  intro p_y s1 s2 hR3 hcy
  simp only [Bool.and_eq_true, decide_eq_true_eq] at hcy
  unfold pixel_loop
  refine forLoop_rel _ _ _ _ _ ?_ _ _ _ _ hR3
  intro p_x s1 s2 hR4 hcx
  simp only [Bool.and_eq_true, decide_eq_true_eq] at hcx
  exact convert_pixel_rel hm o1 o2 hwrap hz bpp a0 a1 a2 hbpp h0 h1 h2 n01 n02 n12 hsz scale
    tx ty tw th p_y p_x hcx.2 hcy.2 s1 s2 hR4

/-- The zeroed buffers of the two runs are related. -/
theorem Relocated_init (n bpp a0 a1 a2 : Nat) (hbpp : bpp = 3 ∨ bpp = 4) (h0 : a0 < bpp)
    (h1 : a1 < bpp) (h2 : a2 < bpp) :
    Relocated n bpp a0 a1 a2 (List.replicate (n * 3) 0) (List.replicate (n * bpp) 0) := by
  refine ⟨by simp, by simp, ?_⟩
  intro k hk
  have i1 : ∀ o, o < 3 → k * 3 + o < n * 3 := by intro o ho; omega
  have i2 : ∀ o, o < bpp → k * bpp + o < n * bpp := by
    intro o ho
    rcases hbpp with h | h <;> subst h <;> omega
  simp only [List.getElem?_replicate, if_pos (i1 0 (by omega)), if_pos (i1 1 (by omega)),
    if_pos (i1 2 (by omega)), if_pos (i2 a0 h0), if_pos (i2 a1 h1), if_pos (i2 a2 h2),
    and_self]

/-- Two runs whose options differ in the channel mapping only, the first with `rgb`. -/
theorem normalmap_convert_rel (hm : NormalmapPng) (o1 o2 : NormalmapOptions)
    (hxyz : o1.xyz = ['r', 'g', 'b']) (hs : o1.scale = o2.scale)
    (hn : o1.normalise = o2.normalise) (hz : o1.unsigned_z = o2.unsigned_z)
    (hwrap : o1.wrap = o2.wrap) (ht : o1.tilesize = o2.tilesize)
    (hmap : valid_mapping o2.xyz) (hsz : hm.width * hm.height * 4 < 4294967296) :
    OptRel (fun r o => Relocated (hm.width * hm.height) (bytes_per_pixel o2)
        (axis_offset o2 0) (axis_offset o2 1) (axis_offset o2 2) r.data o.data)
      (normalmap_convert hm o1) (normalmap_convert hm o2) := by
  have hoff := valid_mapping_offsets o2 hmap
  have hbpp := bytes_per_pixel_cases o2
  have l0 := axis_offset_lt o2 0
  have l1 := axis_offset_lt o2 1
  have l2 := axis_offset_lt o2 2
  have hc : hm.height * hm.width = hm.width * hm.height := Nat.mul_comm _ _
  have e1 : umul hm.height hm.width = hm.width * hm.height := by
    rw [umul_eq (by omega), hc]
  have e2 : umul (hm.width * hm.height) 3 = hm.width * hm.height * 3 := umul_eq (by omega)
  have e3 : umul (hm.width * hm.height) (bytes_per_pixel o2)
      = hm.width * hm.height * bytes_per_pixel o2 := by
    apply umul_eq
    rcases hbpp with h | h <;> rw [h] <;> omega
  have hscale : effective_scale hm o1 = effective_scale hm o2 := by
    unfold effective_scale; rw [hn, hs]
  have hts : ∀ full, tile_side o1 full = tile_side o2 full := by
    intro full; unfold tile_side; rw [ht]
  have hb3 : bytes_per_pixel o1 = 3 := by simp [bytes_per_pixel, hxyz]
  have ha0 : axis_offset o1 0 = 0 := by simp [axis_offset, hxyz, byte_offset]
  have ha1 : axis_offset o1 1 = 1 := by simp [axis_offset, hxyz, byte_offset]
  have ha2 : axis_offset o1 2 = 2 := by simp [axis_offset, hxyz, byte_offset]
  unfold normalmap_convert
  simp only [hscale, hb3, ha0, ha1, ha2, e1, e2, e3, hts]
  rcases effective_scale hm o2 with _ | scale
  · exact Or.inl ⟨rfl, rfl⟩
  · simp only [Option.some_bind]
    rcases convert_tiles_rel hm o1 o2 hwrap hz _ _ _ _ hbpp l0 l1 l2 hoff.1 hoff.2.1 hoff.2.2
      hsz scale (tile_side o2 hm.width) (tile_side o2 hm.height) _ _
      (Relocated_init (hm.width * hm.height) _ _ _ _ hbpp l0 l1 l2)
      with ⟨r1, r2⟩ | ⟨b1, b2, r1, r2, hR⟩
    · rw [r1, r2]; exact Or.inl ⟨rfl, rfl⟩
    · rw [r1, r2]; exact Or.inr ⟨_, _, rfl, rfl, hR⟩

/-- For a well-formed height field and a tile size that is 0 or divides both sides,
`normalmap_convert` returns. -/
theorem normalmap_convert_returns (hm : NormalmapPng) (opts : NormalmapOptions)
    (hW : 0 < hm.width) (hH : 0 < hm.height)
    (hlen : hm.data.length = hm.width * hm.height)
    (hsz : hm.width * hm.height * 4 < 4294967296)
    (ht : tile_fits opts.tilesize hm.width hm.height) :
    ∃ out, normalmap_convert hm opts = some out := by
  obtain ⟨scale, hscale⟩ := effective_scale_some hm opts (by omega) hsz
  obtain ⟨out, hout, -⟩ := normalmap_convert_spec hm opts scale hscale
    (wellFormed_loopCtx hm opts scale hW hH hlen hsz ht)
  exact ⟨out, hout⟩

/-- C10: for every height field, every setting of the other options and every valid channel
mapping `m`: the run with mapping `rgb` and the run with mapping `m` both return when the
height field is well formed (non-empty, one sample per pixel) and the tile size is 0 or
divides both sides; for any tile size the two runs fail together or both return; and
whenever both return, at every pixel the byte at offset `byte_offset (m[0])` of the channel
group (which starts at `(y * width + x) * bpp`, with `bpp` 3 or 4 according to `m`) equals
the red byte of the `rgb` run, the byte at `byte_offset (m[1])` the green byte and the byte
at `byte_offset (m[2])` the blue byte. -/
theorem mapping_relocates (hm : NormalmapPng) (opts : NormalmapOptions) (m : List Char)
    (hmap : valid_mapping m) (hsz : hm.width * hm.height * 4 < 4294967296) :
    (0 < hm.width → 0 < hm.height → hm.data.length = hm.width * hm.height →
      tile_fits opts.tilesize hm.width hm.height →
      ∃ rgb out, normalmap_convert hm { opts with xyz := ['r', 'g', 'b'] } = some rgb ∧
        normalmap_convert hm { opts with xyz := m } = some out) ∧
    (normalmap_convert hm { opts with xyz := ['r', 'g', 'b'] } = none ↔
      normalmap_convert hm { opts with xyz := m } = none) ∧
    ∀ rgb out, normalmap_convert hm { opts with xyz := ['r', 'g', 'b'] } = some rgb →
      normalmap_convert hm { opts with xyz := m } = some out →
      rgb.data.length = hm.width * hm.height * 3 ∧
      out.data.length = hm.width * hm.height * (if 'a' ∈ m then 4 else 3) ∧
      ∀ x y, x < hm.width → y < hm.height →
        out.data[(y * hm.width + x) * (if 'a' ∈ m then 4 else 3)
            + byte_offset (m.getD 0 (Char.ofNat 0))]?
          = rgb.data[(y * hm.width + x) * 3 + 0]? ∧
        out.data[(y * hm.width + x) * (if 'a' ∈ m then 4 else 3)
            + byte_offset (m.getD 1 (Char.ofNat 0))]?
          = rgb.data[(y * hm.width + x) * 3 + 1]? ∧
        out.data[(y * hm.width + x) * (if 'a' ∈ m then 4 else 3)
            + byte_offset (m.getD 2 (Char.ofNat 0))]?
          = rgb.data[(y * hm.width + x) * 3 + 2]? := by
  have key := normalmap_convert_rel hm { opts with xyz := ['r', 'g', 'b'] }
    { opts with xyz := m } rfl rfl rfl rfl rfl rfl hmap hsz
  refine ⟨?_, ?_, ?_⟩
  · intro hW hH hlen hfit
    obtain ⟨rgb, h1⟩ := normalmap_convert_returns hm { opts with xyz := ['r', 'g', 'b'] }
      hW hH hlen hsz hfit
    obtain ⟨out, h2⟩ := normalmap_convert_returns hm { opts with xyz := m }
      hW hH hlen hsz hfit
    exact ⟨rgb, out, h1, h2⟩
  · rcases key with ⟨h1, h2⟩ | ⟨rgb, out, h1, h2, -⟩
    · exact ⟨fun _ => h2, fun _ => h1⟩
    · constructor
      · intro h; rw [h1] at h; cases h
      · intro h; rw [h2] at h; cases h
  · intro rgb out hr ho
    rcases key with ⟨h1, -⟩ | ⟨rgb', out', h1, h2, hl1, hl2, hcells⟩
    · rw [hr] at h1; cases h1
    · have e1 : rgb' = rgb := Option.some.inj (h1.symm.trans hr)
      have e2 : out' = out := Option.some.inj (h2.symm.trans ho)
      subst e1; subst e2
      refine ⟨hl1, hl2, ?_⟩
      intro x y hx hy
      exact hcells (y * hm.width + x) (idx_lt hx hy)

/-- Witness of C10: the mapping `agb` (the Trackmania format) on the 6 × 3 field, where
both runs return. -/
theorem mapping_relocates_witness :
    ∃ rgb out,
      normalmap_convert wideField { rgbOptions with xyz := ['r', 'g', 'b'] } = some rgb ∧
      normalmap_convert wideField { rgbOptions with xyz := ['a', 'g', 'b'] } = some out ∧
      rgb.data.length = wideField.width * wideField.height * 3 ∧
      out.data.length
        = wideField.width * wideField.height * (if 'a' ∈ ['a', 'g', 'b'] then 4 else 3) ∧
      ∀ x y, x < wideField.width → y < wideField.height →
        out.data[(y * wideField.width + x) * (if 'a' ∈ ['a', 'g', 'b'] then 4 else 3)
            + byte_offset (['a', 'g', 'b'].getD 0 (Char.ofNat 0))]?
          = rgb.data[(y * wideField.width + x) * 3 + 0]? ∧
        out.data[(y * wideField.width + x) * (if 'a' ∈ ['a', 'g', 'b'] then 4 else 3)
            + byte_offset (['a', 'g', 'b'].getD 1 (Char.ofNat 0))]?
          = rgb.data[(y * wideField.width + x) * 3 + 1]? ∧
        out.data[(y * wideField.width + x) * (if 'a' ∈ ['a', 'g', 'b'] then 4 else 3)
            + byte_offset (['a', 'g', 'b'].getD 2 (Char.ofNat 0))]?
          = rgb.data[(y * wideField.width + x) * 3 + 2]? :=
  have h := mapping_relocates wideField rgbOptions ['a', 'g', 'b'] (by decide) (by decide)
  (h.1 (by decide) (by decide) (by decide) (by decide)).elim fun rgb hr =>
    hr.elim fun out ho => ⟨rgb, out, ho.1, ho.2, h.2.2 rgb out ho.1 ho.2⟩

/-! ## The integer square root -/

theorem isqrtLoop_spec (n : Nat) :
    ∀ fuel lo hi, lo * lo ≤ n → n < hi * hi → hi ≤ lo + fuel + 1 →
      isqrtLoop n fuel lo hi * isqrtLoop n fuel lo hi ≤ n ∧
      n < (isqrtLoop n fuel lo hi + 1) * (isqrtLoop n fuel lo hi + 1) := by
  intro fuel
  induction fuel with
  | zero =>
    intro lo hi h1 h2 h3
    have : hi * hi ≤ (lo + 1) * (lo + 1) := Nat.mul_le_mul (by omega) (by omega)
    exact ⟨h1, by simp only [isqrtLoop]; omega⟩
  | succ f ih =>
    intro lo hi h1 h2 h3
    unfold isqrtLoop
    split_ifs with c1 c2
    · have : hi * hi ≤ (lo + 1) * (lo + 1) := Nat.mul_le_mul (by omega) (by omega)
      exact ⟨h1, by omega⟩
    · exact ih _ _ c2 h2 (by omega)
    · exact ih _ _ h1 (by omega) (by omega)

/-- The bisection computes the integer square root. -/
theorem isqrt_eq_sqrt (n : Nat) : isqrt n = Nat.sqrt n := by
  have h := isqrtLoop_spec n (n + 1) 0 (n + 1) (by omega)
    (by have := Nat.le_mul_self (n + 1); omega) (by omega)
  exact Nat.eq_sqrt.mpr h

/-! ## The loop nest with an arbitrary body -/

/-- Hoare rule for `forLoop` covering both directions: under `ok` the loop returns, and
whenever it returns, the final state satisfies the invariant and the negated guard. -/
theorem forLoop_both {σ : Type} (ok : Prop) (cond : Nat → Bool) (step : Nat → Nat)
    (body : Nat → σ → Option σ) (Inv : Nat → σ → Prop) (m : Nat → Nat)
    (hstep : ∀ i s, Inv i s → cond i = true →
      m (step i) < m i ∧ (ok → ∃ s', body i s = some s') ∧
      (∀ s', body i s = some s' → Inv (step i) s')) :
    ∀ fuel i s, m i < fuel → Inv i s →
      (ok → ∃ s', forLoop cond step body fuel i s = some s') ∧
      (∀ s', forLoop cond step body fuel i s = some s' → ∃ j, Inv j s' ∧ cond j = false) := by
  intro fuel
  induction fuel with
  | zero => intro i s h; omega
  | succ n ih =>
    intro i s hm hinv
    by_cases hc : cond i = true
    · obtain ⟨hlt, hok, hnext⟩ := hstep i s hinv hc
      constructor
      · intro o
        obtain ⟨s', hb⟩ := hok o
        obtain ⟨s'', hl⟩ := (ih (step i) s' (by omega) (hnext s' hb)).1 o
        exact ⟨s'', by simp [forLoop, hc, hb, hl]⟩
      · intro s'' hl
        simp only [forLoop, hc, if_true] at hl
        rcases hb : body i s with _ | s'
        · rw [hb] at hl; simp at hl
        · rw [hb] at hl
          simp only [Option.some_bind] at hl
          exact (ih (step i) s' (by omega) (hnext s' hb)).2 s'' hl
    · have hc' : cond i = false := by simpa using hc
      constructor
      · intro _; exact ⟨s, by simp [forLoop, hc']⟩
      · intro s' hl
        simp only [forLoop, hc'] at hl
        have : s = s' := by simpa using hl
        exact ⟨i, this ▸ hinv, hc'⟩

/-- The loop over the pixels of one row of a tile handles exactly that row of the tile. -/
theorem nest_px_spec {σ : Type} {W H tw th : Nat} {ok : Prop}
    {P : (Nat → Nat → Prop) → σ → Prop} {body : Nat → Nat → Nat → Nat → σ → Option σ}
    (ctx : NestCtx W H tw th ok P body) {D0 : Nat → Nat → Prop} {s : σ} (hp : P D0 s)
    (a b p_y : Nat) (hao : ∀ p, p < tw → (a + p) / tw * tw = a)
    (hbo : ∀ p, p < th → (b + p) / th * th = b)
    (ha : a < W) (hy : b + p_y < H) (hpy : p_y < th)
    (hfresh : ∀ x, a ≤ x → x < a + tw → ¬ D0 x (b + p_y)) :
    (ok → ∃ s', nest_px W tw (body a b p_y) a s = some s') ∧
    (∀ s', nest_px W tw (body a b p_y) a s = some s' →
      P (fun x y => D0 x y ∨ (a ≤ x ∧ x < a + tw ∧ y = b + p_y)) s') := by
  have hW2 := ctx.hW2
  have htw2 := ctx.htw2
  have key := forLoop_both ok
    (fun p_x => decide (p_x < tw) && decide (uadd a p_x < W)) (fun p_x => uadd p_x 1)
    (body a b p_y)
    (fun p_x s => p_x ≤ tw ∧ P (fun x y => D0 x y ∨ (y = b + p_y ∧ a ≤ x ∧ x < a + p_x)) s)
    (fun p_x => tw - p_x)
    (by
      rintro p_x s ⟨hle, hps⟩ hc
      simp only [Bool.and_eq_true, decide_eq_true_eq] at hc
      obtain ⟨h1, h2⟩ := hc
      rw [uadd_eq (by omega)] at h2
      obtain ⟨hok, hnext⟩ := ctx.hbody _ s a b p_y p_x hps h2 hy h1 hpy (hao p_x h1)
        (hbo p_y hpy) (by
          rintro (h | h)
          · exact hfresh _ (by omega) (by omega) h
          · omega)
      have e : uadd p_x 1 = p_x + 1 := uadd_eq (by omega)
      simp only [e]
      refine ⟨by omega, hok, fun s' hs' => ⟨by omega, ?_⟩⟩
      refine ctx.hcongr _ _ _ ?_ (hnext s' hs')
      intro x y _ _
      constructor
      · rintro ((h | h) | h)
        · exact Or.inl h
        · exact Or.inr (by omega)
        · exact Or.inr (by omega)
      · rintro (h | h)
        · exact Or.inl (Or.inl h)
        · by_cases hx : x = a + p_x
          · exact Or.inr (by omega)
          · exact Or.inl (Or.inr (by omega)))
    loopFuel 0 s (by show tw - 0 < loopFuel; unfold loopFuel; omega)
    ⟨Nat.zero_le _, ctx.hcongr _ _ _ (by
      intro x y _ _
      constructor
      · exact Or.inl
      · rintro (h | h)
        · exact h
        · omega) hp⟩
  refine ⟨key.1, fun s' hs' => ?_⟩
  obtain ⟨j, ⟨hj, hpj⟩, hc⟩ := key.2 s' hs'
  refine ctx.hcongr _ _ _ ?_ hpj
  intro x y hx _
  simp only [Bool.and_eq_false_iff, decide_eq_false_iff_not] at hc
  have hc' : ¬ j < tw ∨ ¬ a + j < W := by
    rcases hc with h | h
    · exact Or.inl h
    · rw [uadd_eq (by omega)] at h; exact Or.inr h
  constructor
  · rintro (h | h)
    · exact Or.inl h
    · exact Or.inr (by omega)
  · rintro (h | h)
    · exact Or.inl h
    · exact Or.inr (by omega)

/-- The loop over the rows of one tile handles exactly the part of the tile inside the
image. -/
theorem nest_py_spec {σ : Type} {W H tw th : Nat} {ok : Prop}
    {P : (Nat → Nat → Prop) → σ → Prop} {body : Nat → Nat → Nat → Nat → σ → Option σ}
    (ctx : NestCtx W H tw th ok P body) {D0 : Nat → Nat → Prop} {s : σ} (hp : P D0 s)
    (a b : Nat) (hao : ∀ p, p < tw → (a + p) / tw * tw = a)
    (hbo : ∀ p, p < th → (b + p) / th * th = b)
    (ha : a < W) (hb : b < H)
    (hfresh : ∀ x y, a ≤ x → x < a + tw → b ≤ y → y < b + th → ¬ D0 x y) :
    (ok → ∃ s', nest_py H th (fun p_y => nest_px W tw (body a b p_y) a) b s = some s') ∧
    (∀ s', nest_py H th (fun p_y => nest_px W tw (body a b p_y) a) b s = some s' →
      P (fun x y => D0 x y ∨ (a ≤ x ∧ x < a + tw ∧ b ≤ y ∧ y < b + th)) s') := by
  have hH2 := ctx.hH2
  have hth2 := ctx.hth2
  have key := forLoop_both ok
    (fun p_y => decide (p_y < th) && decide (uadd b p_y < H)) (fun p_y => uadd p_y 1)
    (fun p_y => nest_px W tw (body a b p_y) a)
    (fun p_y s => p_y ≤ th ∧
      P (fun x y => D0 x y ∨ (a ≤ x ∧ x < a + tw ∧ b ≤ y ∧ y < b + p_y)) s)
    (fun p_y => th - p_y)
    (by
      rintro p_y s ⟨hle, hps⟩ hc
      simp only [Bool.and_eq_true, decide_eq_true_eq] at hc
      obtain ⟨h1, h2⟩ := hc
      rw [uadd_eq (by omega)] at h2
      obtain ⟨hok, hnext⟩ := nest_px_spec ctx hps a b p_y hao hbo ha h2 h1 (by
          intro x hx1 hx2
          rintro (h | h)
          · exact hfresh _ _ hx1 hx2 (by omega) (by omega) h
          · omega)
      have e : uadd p_y 1 = p_y + 1 := uadd_eq (by omega)
      simp only [e]
      refine ⟨by omega, hok, fun s' hs' => ⟨by omega, ?_⟩⟩
      refine ctx.hcongr _ _ _ ?_ (hnext s' hs')
      intro x y _ _
      constructor
      · rintro ((h | h) | h)
        · exact Or.inl h
        · exact Or.inr (by omega)
        · exact Or.inr (by omega)
      · rintro (h | h)
        · exact Or.inl (Or.inl h)
        · by_cases hx : y = b + p_y
          · exact Or.inr (by omega)
          · exact Or.inl (Or.inr (by omega)))
    loopFuel 0 s (by show th - 0 < loopFuel; unfold loopFuel; omega)
    ⟨Nat.zero_le _, ctx.hcongr _ _ _ (by
      intro x y _ _
      constructor
      · exact Or.inl
      · rintro (h | h)
        · exact h
        · omega) hp⟩
  refine ⟨key.1, fun s' hs' => ?_⟩
  obtain ⟨j, ⟨hj, hpj⟩, hc⟩ := key.2 s' hs'
  refine ctx.hcongr _ _ _ ?_ hpj
  intro x y _ hy
  simp only [Bool.and_eq_false_iff, decide_eq_false_iff_not] at hc
  have hc' : ¬ j < th ∨ ¬ b + j < H := by
    rcases hc with h | h
    · exact Or.inl h
    · rw [uadd_eq (by omega)] at h; exact Or.inr h
  constructor
  · rintro (h | h)
    · exact Or.inl h
    · exact Or.inr (by omega)
  · rintro (h | h)
    · exact Or.inl h
    · exact Or.inr (by omega)

/-- The loop over the tiles of one band handles exactly the rows of the band. -/
theorem nest_tx_spec {σ : Type} {W H tw th : Nat} {ok : Prop}
    {P : (Nat → Nat → Prop) → σ → Prop} {body : Nat → Nat → Nat → Nat → σ → Option σ}
    (ctx : NestCtx W H tw th ok P body) {D0 : Nat → Nat → Prop} {s : σ} (hp : P D0 s)
    (b : Nat) (hbo : ∀ p, p < th → (b + p) / th * th = b) (hb : b < H)
    (hfresh : ∀ x y, b ≤ y → y < b + th → ¬ D0 x y) :
    (ok → ∃ s', nest_tx W H tw th body b s = some s') ∧
    (∀ s', nest_tx W H tw th body b s = some s' →
      P (fun x y => D0 x y ∨ (b ≤ y ∧ y < b + th)) s') := by
  have hW2 := ctx.hW2
  have htw := ctx.htw
  have htw2 := ctx.htw2
  have key := forLoop_both ok
    (fun tile_x => decide (tile_x < W)) (fun tile_x => uadd tile_x tw)
    (fun tile_x => nest_py H th (fun p_y => nest_px W tw (body tile_x b p_y) tile_x) b)
    (fun tile_x s => (∃ i, tile_x = i * tw) ∧
      P (fun x y => D0 x y ∨ (b ≤ y ∧ y < b + th ∧ x < tile_x)) s)
    (fun tile_x => W - tile_x)
    (by
      rintro a s ⟨⟨i, hi⟩, hps⟩ hc
      simp only [decide_eq_true_eq] at hc
      obtain ⟨hok, hnext⟩ := nest_py_spec ctx hps a b
        (by intro p hp; rw [hi]; exact tile_origin i p hp) hbo hc hb (by
          intro x y hx1 hx2 hy1 hy2
          rintro (h | h)
          · exact hfresh _ _ hy1 hy2 h
          · omega)
      have e : uadd a tw = a + tw := uadd_eq (by omega)
      simp only [e]
      refine ⟨by omega, hok, fun s' hs' => ⟨⟨i + 1, by rw [hi, Nat.succ_mul]⟩, ?_⟩⟩
      refine ctx.hcongr _ _ _ ?_ (hnext s' hs')
      intro x y _ _
      constructor
      · rintro ((h | h) | h)
        · exact Or.inl h
        · exact Or.inr (by omega)
        · exact Or.inr (by omega)
      · rintro (h | h)
        · exact Or.inl (Or.inl h)
        · by_cases hx : x < a
          · exact Or.inl (Or.inr (by omega))
          · exact Or.inr (by omega))
    loopFuel 0 s (by show W - 0 < loopFuel; unfold loopFuel; omega)
    ⟨⟨0, by simp⟩, ctx.hcongr _ _ _ (by
      intro x y _ _
      constructor
      · exact Or.inl
      · rintro (h | h)
        · exact h
        · omega) hp⟩
  refine ⟨key.1, fun s' hs' => ?_⟩
  obtain ⟨j, ⟨hj, hpj⟩, hc⟩ := key.2 s' hs'
  refine ctx.hcongr _ _ _ ?_ hpj
  intro x y hx _
  simp only [decide_eq_false_iff_not] at hc
  constructor
  · rintro (h | h)
    · exact Or.inl h
    · exact Or.inr (by omega)
  · rintro (h | h)
    · exact Or.inl h
    · exact Or.inr (by omega)

/-- The four nested loops handle every pixel of the image, each once, in its own tile:
started in a state where no pixel is done, they return (under `ok`), and whenever they
return every pixel is done. -/
theorem loop_nest_spec {σ : Type} {W H tw th : Nat} {ok : Prop}
    {P : (Nat → Nat → Prop) → σ → Prop} {body : Nat → Nat → Nat → Nat → σ → Option σ}
    (ctx : NestCtx W H tw th ok P body) {s : σ} (hp : P (fun _ _ => False) s) :
    (ok → ∃ s', loop_nest W H tw th body s = some s') ∧
    (∀ s', loop_nest W H tw th body s = some s' → P (fun _ _ => True) s') := by
  have hH2 := ctx.hH2
  have hth := ctx.hth
  have hth2 := ctx.hth2
  have key := forLoop_both ok
    (fun tile_y => decide (tile_y < H)) (fun tile_y => uadd tile_y th)
    (nest_tx W H tw th body)
    (fun tile_y s => (∃ i, tile_y = i * th) ∧ P (fun _ y => y < tile_y) s)
    (fun tile_y => H - tile_y)
    (by
      rintro b s ⟨⟨i, hi⟩, hps⟩ hc
      simp only [decide_eq_true_eq] at hc
      obtain ⟨hok, hnext⟩ := nest_tx_spec ctx hps b
        (by intro p hp; rw [hi]; exact tile_origin i p hp) hc (by
          intro x y hy1 hy2 h
          omega)
      have e : uadd b th = b + th := uadd_eq (by omega)
      simp only [e]
      refine ⟨by omega, hok, fun s' hs' => ⟨⟨i + 1, by rw [hi, Nat.succ_mul]⟩, ?_⟩⟩
      refine ctx.hcongr _ _ _ ?_ (hnext s' hs')
      intro x y _ _
      constructor
      · rintro (h | h) <;> omega
      · intro h
        by_cases hx : y < b
        · exact Or.inl hx
        · exact Or.inr (by omega))
    loopFuel 0 s (by show H - 0 < loopFuel; unfold loopFuel; omega)
    ⟨⟨0, by simp⟩, ctx.hcongr _ _ _ (by
      intro x y _ _
      constructor
      · exact False.elim
      · intro h; omega) hp⟩
  refine ⟨key.1, fun s' hs' => ?_⟩
  obtain ⟨j, ⟨hj, hpj⟩, hc⟩ := key.2 s' hs'
  refine ctx.hcongr _ _ _ ?_ hpj
  intro x y _ hy
  simp only [decide_eq_false_iff_not] at hc
  constructor
  · intro _; trivial
  · intro _; omega

/-- The loops of `normalmap_convert` are the loop nest with `convert_pixel` as body. -/
theorem convert_tiles_eq_loop_nest (hm : NormalmapPng) (opts : NormalmapOptions)
    (bpp xo yo zo : Nat) (scale : ℚ) (tw th : Nat) (data : List Nat) :
    convert_tiles hm opts bpp xo yo zo scale tw th data
      = loop_nest hm.width hm.height tw th
          (fun tile_x tile_y p_y p_x =>
            convert_pixel hm opts bpp xo yo zo scale tile_x tile_y tw th p_y p_x) data :=
  rfl

/-! ## The pixels visited by the loops -/

theorem tile_side_bounds (opts : NormalmapOptions) (full : Nat) (h0 : 0 < full)
    (h2 : full < 2147483648) (ht : opts.tilesize < 2147483648) :
    0 < tile_side opts full ∧ tile_side opts full < 2147483648 := by
  unfold tile_side
  split_ifs with h
  · have e : opts.tilesize.toNat % 4294967296 = opts.tilesize.toNat :=
      Nat.mod_eq_of_lt (by omega)
    rw [e]; omega
  · exact ⟨h0, h2⟩

theorem dims_lt {W H : Nat} (hW : 0 < W) (hH : 0 < H) (hsz : W * H * 4 < 4294967296) :
    W < 2147483648 ∧ H < 2147483648 := by
  have h1 : W ≤ W * H := Nat.le_mul_of_pos_right _ hH
  have h2 : H ≤ W * H := Nat.le_mul_of_pos_left _ hW
  omega

/-- The loop nest with the body that records the coordinates of the pixel. -/
theorem visited_ctx (W H tw th : Nat) (hW : 0 < W) (hH : 0 < H) (hW2 : W < 2147483648)
    (hH2 : H < 2147483648) (htw : 0 < tw) (hth : 0 < th) (htw2 : tw < 2147483648)
    (hth2 : th < 2147483648) :
    NestCtx W H tw th True
      (fun D (trace : List (Nat × Nat)) =>
        trace.Nodup ∧ ∀ x y, (x, y) ∈ trace ↔ (x < W ∧ y < H ∧ D x y))
      (fun tile_x tile_y p_y p_x trace =>
        some (trace ++ [(uadd tile_x p_x, uadd tile_y p_y)])) :=
  { hW := hW, hH := hH, hW2 := hW2, hH2 := hH2, htw := htw, hth := hth, htw2 := htw2,
    hth2 := hth2
    hcongr := by
      rintro D D' s h ⟨hn, hm⟩
      refine ⟨hn, fun x y => ?_⟩
      rw [hm x y]
      constructor
      · rintro ⟨hx, hy, hd⟩; exact ⟨hx, hy, (h x y hx hy).1 hd⟩
      · rintro ⟨hx, hy, hd⟩; exact ⟨hx, hy, (h x y hx hy).2 hd⟩
    hbody := by
      rintro D s tx ty py px ⟨hn, hm⟩ hx hy _ _ _ _ hD
      have e1 : uadd tx px = tx + px := uadd_eq (by omega)
      have e2 : uadd ty py = ty + py := uadd_eq (by omega)
      refine ⟨fun _ => ⟨_, rfl⟩, fun s' hs' => ?_⟩
      have hs : s' = s ++ [(tx + px, ty + py)] := by
        rw [← e1, ← e2]; exact (Option.some.inj hs').symm
      subst hs
      constructor
      · rw [List.nodup_append]
        refine ⟨hn, List.nodup_singleton _, ?_⟩
        intro p hp hq
        rw [List.mem_singleton] at hq
        subst hq
        exact hD ((hm _ _).1 hp).2.2
      · intro x y
        rw [List.mem_append, List.mem_singleton, hm x y, Prod.mk.injEq]
        constructor
        · rintro (⟨h1, h2, h3⟩ | ⟨rfl, rfl⟩)
          · exact ⟨h1, h2, Or.inl h3⟩
          · exact ⟨hx, hy, Or.inr ⟨rfl, rfl⟩⟩
        · rintro ⟨h1, h2, h3 | h3⟩
          · exact Or.inl ⟨h1, h2, h3⟩
          · exact Or.inr h3 }

/-- C11: for every image of positive width and height (whose buffers fit `unsigned`) and
every tile size (0, dividing, non-dividing or larger than the image), the tile and pixel
loops of `normalmap_convert` terminate, and the coordinates `(x, y)` for which they run the
loop body are the pixels with `x < width` and `y < height`, each exactly once and no
coordinate outside the image. -/
theorem loops_visit_each_pixel_once (W H : Nat) (opts : NormalmapOptions)
    (hW : 0 < W) (hH : 0 < H) (hsz : W * H * 4 < 4294967296)
    (ht : opts.tilesize < 2147483648) :
    ∃ trace, visited W H (tile_side opts W) (tile_side opts H) = some trace ∧
      trace.Nodup ∧ (∀ x y, (x, y) ∈ trace ↔ (x < W ∧ y < H)) ∧ trace.length = W * H := by
  obtain ⟨hW2, hH2⟩ := dims_lt hW hH hsz
  obtain ⟨htw, htw2⟩ := tile_side_bounds opts W hW hW2 ht
  obtain ⟨hth, hth2⟩ := tile_side_bounds opts H hH hH2 ht
  have ctx := visited_ctx W H _ _ hW hH hW2 hH2 htw hth htw2 hth2
  have key := loop_nest_spec ctx (s := []) ⟨List.nodup_nil, by simp⟩
  obtain ⟨trace, htr⟩ := key.1 trivial
  obtain ⟨hn, hm⟩ := key.2 trace htr
  have hmem : ∀ x y, (x, y) ∈ trace ↔ (x < W ∧ y < H) := by
    intro x y; rw [hm x y]; simp
  refine ⟨trace, htr, hn, hmem, ?_⟩
  have hperm : trace.Perm (List.product (List.range W) (List.range H)) := by
    refine (List.perm_ext_iff_of_nodup hn
      (List.Nodup.product (List.nodup_range W) (List.nodup_range H))).2 ?_
    rintro ⟨x, y⟩
    rw [hmem]
    simp [List.mem_range]
  rw [hperm.length_eq]
  exact (List.length_product (List.range W) (List.range H)).trans
    (by rw [List.length_range, List.length_range])

/-- Witness of C11: a 5 × 3 image cut with the tile size 2, which does not divide the
sides. -/
theorem loops_visit_each_pixel_once_witness :
    ∃ trace, visited 5 3 (tile_side { rgbOptions with tilesize := 2 } 5)
        (tile_side { rgbOptions with tilesize := 2 } 3) = some trace ∧
      trace.Nodup ∧ (∀ x y, (x, y) ∈ trace ↔ (x < 5 ∧ y < 3)) ∧ trace.length = 5 * 3 :=
  loops_visit_each_pixel_once 5 3 { rgbOptions with tilesize := 2 } (by decide) (by decide)
    (by decide) (by decide)

/-! ## The quantizer -/

theorem isqrt_mono {a b : Nat} (h : a ≤ b) : isqrt a ≤ isqrt b := by
  rw [isqrt_eq_sqrt, isqrt_eq_sqrt]; exact Nat.sqrt_le_sqrt h

theorem isqrt_lt {n m : Nat} (h : n < m * m) : isqrt n < m := by
  rw [isqrt_eq_sqrt]; exact Nat.sqrt_lt'.mpr (by rw [Nat.pow_two]; exact h)

theorem isqrt_sq (m : Nat) : isqrt (m * m) = m := by
  rw [isqrt_eq_sqrt]; exact Nat.sqrt_eq m

/-- The integer part `⌊√(k · q)⌋` for a rational `q` and a natural `k`, monotone in `q`. -/
theorem isqrt_floor_mono (k : ℚ) (hk : 0 ≤ k) {p q : ℚ} (h : p ≤ q) :
    isqrt (⌊k * p⌋).toNat ≤ isqrt (⌊k * q⌋).toNat := by
  apply isqrt_mono
  apply Int.toNat_le_toNat
  apply Int.floor_le_floor
  exact mul_le_mul_of_nonneg_left h hk

theorem isqrt_floor_lt (m : Nat) {q : ℚ} (h : q < 1) :
    isqrt (⌊((m * m : Nat) : ℚ) * q⌋).toNat < m ∨ m = 0 := by
  rcases Nat.eq_zero_or_pos m with h0 | h0
  · exact Or.inr h0
  · left
    apply isqrt_lt
    have hpos : (0 : ℚ) < ((m * m : Nat) : ℚ) := by
      have : 0 < m * m := Nat.mul_pos h0 h0
      exact_mod_cast this
    have h1 : ((m * m : Nat) : ℚ) * q < ((m * m : Nat) : ℚ) := by
      have := mul_lt_mul_of_pos_left h hpos
      simpa using this
    have h2 : ⌊((m * m : Nat) : ℚ) * q⌋ < ((m * m : Nat) : ℤ) := by
      rw [Int.floor_lt]; exact_mod_cast h1
    have h3 : 0 < m * m := Nat.mul_pos h0 h0
    omega

theorem isqrt_floor_one (m : Nat) : isqrt (⌊((m * m : Nat) : ℚ) * 1⌋).toNat = m := by
  have : ⌊((m * m : Nat) : ℚ) * 1⌋ = ((m * m : Nat) : ℤ) := by
    rw [mul_one]; exact Int.floor_natCast _
  rw [this, Int.toNat_natCast, isqrt_sq]

theorem sq_eq_one_iff (v : Dbl) (hr : 0 < v.rad) : v.sq = 1 ↔ v.num * v.num = v.rad := by
  unfold Dbl.sq; exact div_eq_one_iff_eq hr.ne'

theorem scaled_sq (v : Dbl) (k : ℚ) :
    v.num * k * (v.num * k) / v.rad = k * k * v.sq := by
  unfold Dbl.sq; ring

/-- The test `v * k == k` of the quantizers, for `k > 0`. -/
theorem eqRat_mulRat (v : Dbl) (hr : 0 < v.rad) (k : ℚ) (hk : 0 < k) :
    (v.mulRat k).eqRat k = true ↔ (0 ≤ v.num ∧ v.sq = 1) := by
  have hkk : k * k ≠ 0 := (mul_pos hk hk).ne'
  simp only [Dbl.eqRat, Dbl.mulRat, Bool.and_eq_true, decide_eq_true_eq]
  rw [sq_eq_one_iff v hr]
  constructor
  · rintro ⟨h1, h2⟩
    refine ⟨nonneg_of_mul_nonneg_left h1 hk, ?_⟩
    have : k * k * (v.num * v.num) = k * k * v.rad := by rw [← h2]; ring
    exact mul_left_cancel₀ hkk this
  · rintro ⟨h1, h2⟩
    exact ⟨mul_nonneg h1 hk.le, by rw [← h2]; ring⟩

/-- The truncation of `v * k`, for `k > 0`. -/
theorem trunc_mulRat (v : Dbl) (k : ℚ) (hk : 0 < k) :
    (v.mulRat k).trunc = if 0 ≤ v.num then ((isqrt (⌊k * k * v.sq⌋).toNat : Nat) : Int)
      else -((isqrt (⌊k * k * v.sq⌋).toNat : Nat) : Int) := by
  simp only [Dbl.trunc, Dbl.mulRat, scaled_sq]
  by_cases h : 0 ≤ v.num
  · rw [if_pos h, if_pos (mul_nonneg h hk.le)]
  · have h' : ¬ 0 ≤ v.num * k := by
      intro hh; exact h (nonneg_of_mul_nonneg_left hh hk)
    rw [if_neg h, if_neg h']

/-- `d_to_signed_byte` on `[0, 1)`. -/
theorem d_to_signed_byte_nonneg (v : Dbl) (hr : 0 < v.rad) (h0 : 0 ≤ v.num) (h1 : v.sq < 1) :
    d_to_signed_byte v = isqrt (⌊((128 * 128 : Nat) : ℚ) * v.sq⌋).toNat + 128 ∧
    isqrt (⌊((128 * 128 : Nat) : ℚ) * v.sq⌋).toNat < 128 := by
  have hlt : isqrt (⌊((128 * 128 : Nat) : ℚ) * v.sq⌋).toNat < 128 := by
    rcases isqrt_floor_lt 128 h1 with h | h
    · exact h
    · omega
  refine ⟨?_, hlt⟩
  have hne : ¬ (v.mulRat 128).eqRat 128 = true := by
    rw [eqRat_mulRat v hr 128 (by norm_num)]
    rintro ⟨_, h⟩; rw [h] at h1; exact lt_irrefl _ h1
  have ht := trunc_mulRat v 128 (by norm_num)
  rw [if_pos h0] at ht
  have hk : (128 : ℚ) * 128 = ((128 * 128 : Nat) : ℚ) := by norm_num
  rw [hk] at ht
  simp only [d_to_signed_byte, to_uchar, if_neg hne, ht]
  omega

/-- `d_to_signed_byte` at 1. -/
theorem d_to_signed_byte_top (v : Dbl) (hr : 0 < v.rad) (h0 : 0 ≤ v.num) (h1 : v.sq = 1) :
    d_to_signed_byte v = 255 := by
  have he : (v.mulRat 128).eqRat 128 = true := (eqRat_mulRat v hr 128 (by norm_num)).2 ⟨h0, h1⟩
  simp only [d_to_signed_byte, he, if_true]
  decide!

/-- `d_to_signed_byte` on `[-1, 0)`. -/
theorem d_to_signed_byte_neg (v : Dbl) (h0 : ¬ 0 ≤ v.num) (h1 : v.sq ≤ 1) :
    d_to_signed_byte v = 128 - isqrt (⌊((128 * 128 : Nat) : ℚ) * v.sq⌋).toNat ∧
    isqrt (⌊((128 * 128 : Nat) : ℚ) * v.sq⌋).toNat ≤ 128 := by
  have hle : isqrt (⌊((128 * 128 : Nat) : ℚ) * v.sq⌋).toNat ≤ 128 := by
    have := isqrt_floor_mono ((128 * 128 : Nat) : ℚ) (by norm_num) h1
    rw [isqrt_floor_one] at this
    exact this
  refine ⟨?_, hle⟩
  have hne : ¬ (v.mulRat 128).eqRat 128 = true := by
    simp only [Dbl.eqRat, Dbl.mulRat, Bool.and_eq_true, decide_eq_true_eq]
    rintro ⟨h, _⟩
    exact h0 (nonneg_of_mul_nonneg_left h (by norm_num))
  have ht := trunc_mulRat v 128 (by norm_num)
  rw [if_neg h0] at ht
  have hk : (128 : ℚ) * 128 = ((128 * 128 : Nat) : ℚ) := by norm_num
  rw [hk] at ht
  simp only [d_to_signed_byte, to_uchar, if_neg hne, ht]
  omega

/-- `d_to_unsigned_byte` on `[0, 1)`. -/
theorem d_to_unsigned_byte_nonneg (v : Dbl) (hr : 0 < v.rad) (h0 : 0 ≤ v.num)
    (h1 : v.sq < 1) :
    d_to_unsigned_byte v = isqrt (⌊((256 * 256 : Nat) : ℚ) * v.sq⌋).toNat ∧
    isqrt (⌊((256 * 256 : Nat) : ℚ) * v.sq⌋).toNat < 256 := by
  have hlt : isqrt (⌊((256 * 256 : Nat) : ℚ) * v.sq⌋).toNat < 256 := by
    rcases isqrt_floor_lt 256 h1 with h | h
    · exact h
    · omega
  refine ⟨?_, hlt⟩
  have hne : ¬ (v.mulRat 256).eqRat 256 = true := by
    rw [eqRat_mulRat v hr 256 (by norm_num)]
    rintro ⟨_, h⟩; rw [h] at h1; exact lt_irrefl _ h1
  have ht := trunc_mulRat v 256 (by norm_num)
  rw [if_pos h0] at ht
  have hk : (256 : ℚ) * 256 = ((256 * 256 : Nat) : ℚ) := by norm_num
  rw [hk] at ht
  simp only [d_to_unsigned_byte, to_uchar, if_neg hne, ht]
  omega

/-- `d_to_unsigned_byte` at 1. -/
theorem d_to_unsigned_byte_top (v : Dbl) (hr : 0 < v.rad) (h0 : 0 ≤ v.num) (h1 : v.sq = 1) :
    d_to_unsigned_byte v = 255 := by
  have he : (v.mulRat 256).eqRat 256 = true := (eqRat_mulRat v hr 256 (by norm_num)).2 ⟨h0, h1⟩
  simp only [d_to_unsigned_byte, he, if_true]
  decide!

theorem d_to_signed_byte_lt (v : Dbl) : d_to_signed_byte v < 256 := by
  unfold d_to_signed_byte; exact Nat.mod_lt _ (by norm_num)

theorem d_to_unsigned_byte_lt (v : Dbl) : d_to_unsigned_byte v < 256 := by
  unfold d_to_unsigned_byte to_uchar
  have h := Int.emod_lt_of_pos (if (v.mulRat 256).eqRat 256 = true then Dbl.ofRat 255
    else v.mulRat 256).trunc (show (0 : Int) < 256 by norm_num)
  have h' := Int.emod_nonneg (if (v.mulRat 256).eqRat 256 = true then Dbl.ofRat 255
    else v.mulRat 256).trunc (show (256 : Int) ≠ 0 by norm_num)
  simp only
  omega

/-- `d_to_signed_byte` never goes below 128 on `[0, 1]`. -/
theorem d_to_signed_byte_ge (v : Dbl) (hr : 0 < v.rad) (h0 : 0 ≤ v.num) (h1 : v.sq ≤ 1) :
    128 ≤ d_to_signed_byte v := by
  rcases lt_or_eq_of_le h1 with h | h
  · rw [(d_to_signed_byte_nonneg v hr h0 h).1]; omega
  · rw [d_to_signed_byte_top v hr h0 h]; omega

theorem d_to_signed_byte_mono (v w : Dbl) (hv : 0 < v.rad) (hw : 0 < w.rad)
    (hle : Dbl.le v w) (dv : v.sq ≤ 1) (dw : w.sq ≤ 1) :
    d_to_signed_byte v ≤ d_to_signed_byte w := by
  unfold Dbl.le at hle
  by_cases h0 : 0 ≤ v.num
  · rw [if_pos h0] at hle
    obtain ⟨hw0, hsq⟩ := hle
    rcases lt_or_eq_of_le dw with h | h
    · have hv1 : v.sq < 1 := lt_of_le_of_lt hsq h
      rw [(d_to_signed_byte_nonneg v hv h0 hv1).1, (d_to_signed_byte_nonneg w hw hw0 h).1]
      have := isqrt_floor_mono ((128 * 128 : Nat) : ℚ) (by norm_num) hsq
      omega
    · rw [d_to_signed_byte_top w hw hw0 h]
      have := d_to_signed_byte_lt v
      omega
  · rw [if_neg h0] at hle
    have hvv := (d_to_signed_byte_neg v h0 dv).1
    by_cases hw0 : 0 ≤ w.num
    · have := d_to_signed_byte_ge w hw hw0 dw
      omega
    · have hsq : w.sq ≤ v.sq := by
        rcases hle with h | h
        · exact absurd h hw0
        · exact h
      have hww := (d_to_signed_byte_neg w hw0 dw).1
      have := isqrt_floor_mono ((128 * 128 : Nat) : ℚ) (by norm_num) hsq
      omega

theorem d_to_unsigned_byte_mono (v w : Dbl) (hv : 0 < v.rad) (hw : 0 < w.rad)
    (hle : Dbl.le v w) (h0 : 0 ≤ v.num) (dw : w.sq ≤ 1) :
    d_to_unsigned_byte v ≤ d_to_unsigned_byte w := by
  unfold Dbl.le at hle
  rw [if_pos h0] at hle
  obtain ⟨hw0, hsq⟩ := hle
  rcases lt_or_eq_of_le dw with h | h
  · have hv1 : v.sq < 1 := lt_of_le_of_lt hsq h
    rw [(d_to_unsigned_byte_nonneg v hv h0 hv1).1, (d_to_unsigned_byte_nonneg w hw hw0 h).1]
    exact isqrt_floor_mono ((256 * 256 : Nat) : ℚ) (by norm_num) hsq
  · rw [d_to_unsigned_byte_top w hw hw0 h]
    have := d_to_unsigned_byte_lt v
    omega

/-- C15: with doubles as exact reals (of the form `num / √rad`): for `v ≤ w` in `[-1, 1]`,
`d_to_signed_byte v ≤ d_to_signed_byte w`; for `p ≤ q` in `[0, 1]`,
`d_to_unsigned_byte p ≤ d_to_unsigned_byte q`; all four results lie in 0..255; and
`d_to_signed_byte (-1) = 0`, `d_to_signed_byte 0 = 128`, `d_to_signed_byte 1 = 255`,
`d_to_unsigned_byte 0 = 0`, `d_to_unsigned_byte 1 = 255`. -/
theorem quantizer_monotone (v w p q : Dbl) (hv : 0 < v.rad) (hw : 0 < w.rad)
    (hvw : Dbl.le v w) (dv : v.sq ≤ 1) (dw : w.sq ≤ 1)
    (hp : 0 < p.rad) (hq : 0 < q.rad) (hpq : Dbl.le p q) (hp0 : 0 ≤ p.num) (dq : q.sq ≤ 1) :
    d_to_signed_byte v ≤ d_to_signed_byte w ∧
    d_to_signed_byte v ≤ 255 ∧ d_to_signed_byte w ≤ 255 ∧
    d_to_unsigned_byte p ≤ d_to_unsigned_byte q ∧
    d_to_unsigned_byte p ≤ 255 ∧ d_to_unsigned_byte q ≤ 255 ∧
    d_to_signed_byte (Dbl.ofRat (-1)) = 0 ∧ d_to_signed_byte (Dbl.ofRat 0) = 128 ∧
    d_to_signed_byte (Dbl.ofRat 1) = 255 ∧ d_to_unsigned_byte (Dbl.ofRat 0) = 0 ∧
    d_to_unsigned_byte (Dbl.ofRat 1) = 255 := by
  have b1 := d_to_signed_byte_lt v
  have b2 := d_to_signed_byte_lt w
  have b3 := d_to_unsigned_byte_lt p
  have b4 := d_to_unsigned_byte_lt q
  exact ⟨d_to_signed_byte_mono v w hv hw hvw dv dw, by omega, by omega,
    d_to_unsigned_byte_mono p q hp hq hpq hp0 dq, by omega, by omega,
    by decide!, by decide!, by decide!, by decide!, by decide!⟩

/-- Witness of C15: `v = -1/2`, `w = 1/√3`, `p = 1/2`, `q = 1/√3`. -/
theorem quantizer_monotone_witness :
    d_to_signed_byte ⟨-1, 4⟩ ≤ d_to_signed_byte ⟨1, 3⟩ ∧
    d_to_signed_byte ⟨-1, 4⟩ ≤ 255 ∧ d_to_signed_byte ⟨1, 3⟩ ≤ 255 ∧
    d_to_unsigned_byte ⟨1, 4⟩ ≤ d_to_unsigned_byte ⟨1, 3⟩ ∧
    d_to_unsigned_byte ⟨1, 4⟩ ≤ 255 ∧ d_to_unsigned_byte ⟨1, 3⟩ ≤ 255 ∧
    d_to_signed_byte (Dbl.ofRat (-1)) = 0 ∧ d_to_signed_byte (Dbl.ofRat 0) = 128 ∧
    d_to_signed_byte (Dbl.ofRat 1) = 255 ∧ d_to_unsigned_byte (Dbl.ofRat 0) = 0 ∧
    d_to_unsigned_byte (Dbl.ofRat 1) = 255 :=
  quantizer_monotone ⟨-1, 4⟩ ⟨1, 3⟩ ⟨1, 4⟩ ⟨1, 3⟩ (by decide!) (by decide!) (by decide!)
    (by decide!) (by decide!) (by decide!) (by decide!) (by decide!) (by decide!) (by decide!)

/-! ## The vector returned by `sobel` -/

theorem sobel_row_acc_div (hm : NormalmapPng) (x y : Nat) (wrap : Bool) (tx ty tw th : Nat)
    (a : Int × ℚ) (h : sobel_row_acc hm x y wrap tx ty tw th = some a) :
    a.2 = 3 ∨ a.2 = 4 ∨ a.2 = 5 := by
  simp only [sobel_row_acc, Option.bind_eq_some] at h
  obtain ⟨r0, -, acc, hacc, hfin⟩ := h
  have h1 : acc.2 = 4 ∨ acc.2 = 5 := by
    split_ifs at hacc
    · simp only [Option.map_eq_some'] at hacc
      obtain ⟨r, -, rfl⟩ := hacc
      exact Or.inr rfl
    · have := Option.some.inj hacc
      rw [← this]; left; norm_num
    · simp only [Option.map_eq_some'] at hacc
      obtain ⟨r, -, rfl⟩ := hacc
      exact Or.inr rfl
  split_ifs at hfin
  · simp only [Option.map_eq_some'] at hfin
    obtain ⟨r, -, rfl⟩ := hfin
    rcases h1 with h1 | h1 <;> simp [h1]
  · have := Option.some.inj hfin
    rw [← this]
    rcases h1 with h1 | h1 <;> simp only [h1] <;> norm_num
  · simp only [Option.map_eq_some'] at hfin
    obtain ⟨r, -, rfl⟩ := hfin
    rcases h1 with h1 | h1 <;> simp [h1]

theorem sobel_col_acc_div (hm : NormalmapPng) (x y : Nat) (wrap : Bool) (tx ty tw th : Nat)
    (a : Int × ℚ) (h : sobel_col_acc hm x y wrap tx ty tw th = some a) :
    a.2 = 3 ∨ a.2 = 4 ∨ a.2 = 5 := by
  simp only [sobel_col_acc, Option.bind_eq_some] at h
  obtain ⟨r0, -, acc, hacc, hfin⟩ := h
  have h1 : acc.2 = 4 ∨ acc.2 = 5 := by
    split_ifs at hacc
    · simp only [Option.map_eq_some'] at hacc
      obtain ⟨r, -, rfl⟩ := hacc
      exact Or.inr rfl
    · have := Option.some.inj hacc
      rw [← this]; left; norm_num
    · simp only [Option.map_eq_some'] at hacc
      obtain ⟨r, -, rfl⟩ := hacc
      exact Or.inr rfl
  split_ifs at hfin
  · simp only [Option.map_eq_some'] at hfin
    obtain ⟨r, -, rfl⟩ := hfin
    rcases h1 with h1 | h1 <;> simp [h1]
  · have := Option.some.inj hfin
    rw [← this]
    rcases h1 with h1 | h1 <;> simp only [h1] <;> norm_num
  · simp only [Option.map_eq_some'] at hfin
    obtain ⟨r, -, rfl⟩ := hfin
    rcases h1 with h1 | h1 <;> simp [h1]

/-- The vector of `sobel_vec`: the three components share the radicand
`nx² + ny² + 1 ≥ 1`, the squares add up to 1, and `z` is positive. -/
theorem sobel_vec_unit (scale : ℚ) (ax ay : Int × ℚ) :
    (sobel_vec scale ax ay).x.rad = (sobel_vec scale ax ay).z.rad ∧
    (sobel_vec scale ax ay).y.rad = (sobel_vec scale ax ay).z.rad ∧
    1 ≤ (sobel_vec scale ax ay).z.rad ∧
    (sobel_vec scale ax ay).z.num = 1 ∧
    (sobel_vec scale ax ay).x.sq + (sobel_vec scale ax ay).y.sq
      + (sobel_vec scale ax ay).z.sq = 1 ∧
    (sobel_vec scale ax ay).z.sq ≤ 1 ∧
    (sobel_vec scale ax ay).x.sq < 1 ∧ (sobel_vec scale ax ay).y.sq < 1 := by
  simp only [sobel_vec, Dbl.divSqrt, Dbl.sq]
  set nx : ℚ := scale * (ax.1 : ℚ) / ax.2
  set ny : ℚ := scale * (ay.1 : ℚ) / ay.2
  have hx : 0 ≤ nx * nx := mul_self_nonneg nx
  have hy : 0 ≤ ny * ny := mul_self_nonneg ny
  have hs : 0 < nx * nx + ny * ny + 1 := by linarith
  refine ⟨trivial, trivial, by linarith, trivial, ?_, ?_, ?_, ?_⟩
  · field_simp
  · rw [div_le_one hs]; linarith
  · rw [div_lt_one hs]; linarith
  · rw [div_lt_one hs]; linarith

/-- C16: with doubles as exact reals, for any height field, pixel, scale, wrap flag and
tile rectangle: `sobel` returns when the height field is well formed and the tile lies in
the image, and whenever it returns a vector `v`, each of its two slope divisors is one of
3, 4, 5, the square `nx² + ny² + 1` of `len` is at least 1 (so nothing is divided by
zero), and `v` has unit length, `x² + y² + z² = 1`, with `0 < z ≤ 1` and `-1 < x, y < 1`
(stated on the squares: `z² ≤ 1`, `x² < 1`, `y² < 1`). -/
theorem sobel_unit_vector (hm : NormalmapPng) (x y : Nat) (scale : ℚ) (wrap : Bool)
    (tx ty tw th : Nat) :
    (hm.data.length = hm.width * hm.height → hm.width * hm.height < 4294967296 →
      tx + tw ≤ hm.width → ty + th ≤ hm.height →
      ∃ v, sobel hm x y scale wrap tx ty tw th = some v) ∧
    ∀ v, sobel hm x y scale wrap tx ty tw th = some v →
      ∃ ax ay, sobel_row_acc hm x y wrap tx ty tw th = some ax ∧
        sobel_col_acc hm x y wrap tx ty tw th = some ay ∧
        (ax.2 = 3 ∨ ax.2 = 4 ∨ ax.2 = 5) ∧ (ay.2 = 3 ∨ ay.2 = 4 ∨ ay.2 = 5) ∧
        v = sobel_vec scale ax ay ∧
        v.x.rad = v.z.rad ∧ v.y.rad = v.z.rad ∧ 1 ≤ v.z.rad ∧ v.z.num = 1 ∧
        v.x.sq + v.y.sq + v.z.sq = 1 ∧ v.z.sq ≤ 1 ∧ v.x.sq < 1 ∧ v.y.sq < 1 := by
  refine ⟨fun hlen hsz htx hty =>
    sobel_some hm hlen hsz x y scale wrap tx ty tw th htx hty, ?_⟩
  intro v h
  simp only [sobel, Option.bind_eq_some] at h
  obtain ⟨ax, hax, ay, hay, hv⟩ := h
  have hv' : v = sobel_vec scale ax ay := (Option.some.inj hv).symm
  subst hv'
  exact ⟨ax, ay, hax, hay, sobel_row_acc_div hm x y wrap tx ty tw th ax hax,
    sobel_col_acc_div hm x y wrap tx ty tw th ay hay, rfl, sobel_vec_unit scale ax ay⟩

/-- Witness of C16: the pixel `(2, 1)` of the 6 × 3 field, one tile, scale `1/255`, where
`sobel` returns the vector of the sums `-240 / 5` and `120 / 5`. -/
theorem sobel_unit_vector_witness :
    sobel wideField 2 1 (1 / 255) false 0 0 6 3
      = some (sobel_vec (1 / 255) (-240, 5) (120, 5)) ∧
    ∃ ax ay, sobel_row_acc wideField 2 1 false 0 0 6 3 = some ax ∧
      sobel_col_acc wideField 2 1 false 0 0 6 3 = some ay ∧
      (ax.2 = 3 ∨ ax.2 = 4 ∨ ax.2 = 5) ∧ (ay.2 = 3 ∨ ay.2 = 4 ∨ ay.2 = 5) ∧
      sobel_vec (1 / 255) (-240, 5) (120, 5) = sobel_vec (1 / 255) ax ay ∧
      (sobel_vec (1 / 255) (-240, 5) (120, 5)).x.rad
        = (sobel_vec (1 / 255) (-240, 5) (120, 5)).z.rad ∧
      (sobel_vec (1 / 255) (-240, 5) (120, 5)).y.rad
        = (sobel_vec (1 / 255) (-240, 5) (120, 5)).z.rad ∧
      1 ≤ (sobel_vec (1 / 255) (-240, 5) (120, 5)).z.rad ∧
      (sobel_vec (1 / 255) (-240, 5) (120, 5)).z.num = 1 ∧
      (sobel_vec (1 / 255) (-240, 5) (120, 5)).x.sq
        + (sobel_vec (1 / 255) (-240, 5) (120, 5)).y.sq
        + (sobel_vec (1 / 255) (-240, 5) (120, 5)).z.sq = 1 ∧
      (sobel_vec (1 / 255) (-240, 5) (120, 5)).z.sq ≤ 1 ∧
      (sobel_vec (1 / 255) (-240, 5) (120, 5)).x.sq < 1 ∧
      (sobel_vec (1 / 255) (-240, 5) (120, 5)).y.sq < 1 :=
  ⟨by decide!, (sobel_unit_vector wideField 2 1 (1 / 255) false 0 0 6 3).2
    (sobel_vec (1 / 255) (-240, 5) (120, 5)) (by decide!)⟩

/-! ## The output buffer, whatever the tile size -/

/-- One execution of the body of the innermost loop on a pixel that was not converted yet,
given the vector that `sobel` returns for it. -/
theorem convert_pixel_step_of {hm : NormalmapPng} {opts : NormalmapOptions}
    {bpp xo yo zo : Nat} {scale : ℚ} {tw th : Nat} (hbpp : bpp = 3 ∨ bpp = 4)
    (hxo : xo < bpp) (hyo : yo < bpp) (hzo : zo < bpp)
    (hsz : hm.width * hm.height * 4 < 4294967296)
    {D : Nat → Nat → Prop} {buf : List Nat}
    (hp : Painted hm opts bpp xo yo zo scale tw th D buf) (tile_x tile_y p_x p_y : Nat)
    (hx : tile_x + p_x < hm.width) (hy : tile_y + p_y < hm.height)
    (htx : (tile_x + p_x) / tw * tw = tile_x) (hty : (tile_y + p_y) / th * th = tile_y)
    (hD : ¬ D (tile_x + p_x) (tile_y + p_y)) (v : NormalVector)
    (hv : sobel hm (tile_x + p_x) (tile_y + p_y) scale opts.wrap tile_x tile_y tw th = some v) :
    ∃ buf', convert_pixel hm opts bpp xo yo zo scale tile_x tile_y tw th p_y p_x buf
        = some buf' ∧
      Painted hm opts bpp xo yo zo scale tw th
        (fun x y => D x y ∨ (x = tile_x + p_x ∧ y = tile_y + p_y)) buf' := by
  obtain ⟨hlen, hcells⟩ := hp
  have hk := @idx_lt hm.width hm.height _ _ hx hy
  have e1 : uadd tile_x p_x = tile_x + p_x := uadd_eq (by omega)
  have e2 : uadd tile_y p_y = tile_y + p_y := by
    apply uadd_eq
    have : hm.height ≤ hm.width * hm.height := Nat.le_mul_of_pos_left _ (by omega)
    omega
  have e3 : umul (tile_y + p_y) hm.width = (tile_y + p_y) * hm.width := umul_eq (by omega)
  have e4 : uadd ((tile_y + p_y) * hm.width) (tile_x + p_x)
      = (tile_y + p_y) * hm.width + (tile_x + p_x) := uadd_eq (by omega)
  generalize hkk : (tile_y + p_y) * hm.width + (tile_x + p_x) = k at hk e4
  generalize hK : hm.width * hm.height = K at hk hsz hlen
  have e5 : umul k bpp = k * bpp := by
    apply umul_eq
    rcases hbpp with h | h <;> subst h <;> omega
  have hin : ∀ o, o < bpp → k * bpp + o < buf.length := by
    intro o ho
    rw [hlen]
    rcases hbpp with h | h <;> subst h <;> omega
  have e6 : ∀ o, o < bpp → uadd (k * bpp) o = k * bpp + o := by
    intro o ho
    apply uadd_eq
    rcases hbpp with h | h <;> subst h <;> omega
  obtain ⟨buf', hb, hl', hget⟩ := stores_spec buf (k * bpp) xo yo zo (d_to_signed_byte v.x)
    (d_to_signed_byte v.y)
    (if opts.unsigned_z then d_to_unsigned_byte v.z else d_to_signed_byte v.z)
    (hin xo hxo) (hin yo hyo) (hin zo hzo)
  refine ⟨buf', ?_, ?_, ?_⟩
  · simp only [convert_pixel, e1, e2, e3, e4, e5, e6 xo hxo, e6 yo hyo, e6 zo hzo, hv,
      Option.some_bind, Option.bind_eq_bind]
    exact hb
  · rw [hl', hlen, hK]
  · intro x' y' o hx' hy' ho
    by_cases hsame : x' = tile_x + p_x ∧ y' = tile_y + p_y
    · obtain ⟨rfl, rfl⟩ := hsame
      constructor
      · intro _
        refine ⟨v, by rw [htx, hty]; exact hv, ?_⟩
        rw [hkk, hget]
        have h0 := (hcells _ _ o hx' hy' ho).2 hD
        rw [hkk] at h0
        unfold pixel_bytes
        by_cases c1 : o = zo
        · subst c1; simp
        · by_cases c2 : o = yo
          · subst c2
            have : ¬ k * bpp + o = k * bpp + zo := by omega
            simp [this, c1]
          · by_cases c3 : o = xo
            · subst c3
              have a : ¬ k * bpp + o = k * bpp + zo := by omega
              have b : ¬ k * bpp + o = k * bpp + yo := by omega
              simp [a, b, c1, c2]
            · have a : ¬ k * bpp + o = k * bpp + zo := by omega
              have b : ¬ k * bpp + o = k * bpp + yo := by omega
              have c : ¬ k * bpp + o = k * bpp + xo := by omega
              simp [a, b, c, c1, c2, c3, h0]
      · intro h; exact absurd (Or.inr ⟨rfl, rfl⟩) h
    · have hne : y' * hm.width + x' ≠ k := by
        intro h
        rw [← hkk] at h
        exact hsame (idx_inj hx' hx h)
      have hd : (D x' y' ∨ (x' = tile_x + p_x ∧ y' = tile_y + p_y)) ↔ D x' y' := by
        constructor
        · rintro (h | h)
          · exact h
          · exact absurd h hsame
        · exact Or.inl
      have hj : buf'[(y' * hm.width + x') * bpp + o]? = buf[(y' * hm.width + x') * bpp + o]? := by
        rw [hget]
        generalize y' * hm.width + x' = k' at hne
        have a : ¬ k' * bpp + o = k * bpp + zo := by
          rcases hbpp with h | h <;> subst h <;> omega
        have b : ¬ k' * bpp + o = k * bpp + yo := by
          rcases hbpp with h | h <;> subst h <;> omega
        have c : ¬ k' * bpp + o = k * bpp + xo := by
          rcases hbpp with h | h <;> subst h <;> omega
        simp [a, b, c]
      show (D x' y' ∨ (x' = tile_x + p_x ∧ y' = tile_y + p_y) → _) ∧
        (¬ (D x' y' ∨ (x' = tile_x + p_x ∧ y' = tile_y + p_y)) → _)
      rw [hd, hj]
      exact hcells x' y' o hx' hy' ho

/-- The loop nest of `normalmap_convert`, with `convert_pixel` as body and `Painted` as
state predicate; `ok` says that `sobel` returns for every pixel in its tile. -/
theorem convert_nestCtx (hm : NormalmapPng) (opts : NormalmapOptions) (bpp xo yo zo : Nat)
    (scale : ℚ) (tw th : Nat) (hbpp : bpp = 3 ∨ bpp = 4)
    (hxo : xo < bpp) (hyo : yo < bpp) (hzo : zo < bpp)
    (hW : 0 < hm.width) (hH : 0 < hm.height)
    (hsz : hm.width * hm.height * 4 < 4294967296)
    (htw : 0 < tw) (hth : 0 < th) (htw2 : tw < 2147483648) (hth2 : th < 2147483648) :
    NestCtx hm.width hm.height tw th
      (∀ x y, x < hm.width → y < hm.height →
        ∃ v, sobel hm x y scale opts.wrap (x / tw * tw) (y / th * th) tw th = some v)
      (Painted hm opts bpp xo yo zo scale tw th)
      (fun tile_x tile_y p_y p_x =>
        convert_pixel hm opts bpp xo yo zo scale tile_x tile_y tw th p_y p_x) :=
  { hW := hW, hH := hH, hW2 := (dims_lt hW hH hsz).1, hH2 := (dims_lt hW hH hsz).2,
    htw := htw, hth := hth, htw2 := htw2, hth2 := hth2
    hcongr := fun _ _ _ h hp => Painted_congr h hp
    hbody := by
      intro D s tx ty py px hp hx hy _ _ htx hty hD
      have hW2 := (dims_lt hW hH hsz).1
      have hH2 := (dims_lt hW hH hsz).2
      have e1 : uadd tx px = tx + px := uadd_eq (by omega)
      have e2 : uadd ty py = ty + py := uadd_eq (by omega)
      constructor
      · intro hok
        obtain ⟨v, hv⟩ := hok _ _ hx hy
        rw [htx, hty] at hv
        obtain ⟨s', hs', -⟩ := convert_pixel_step_of hbpp hxo hyo hzo hsz hp tx ty px py
          hx hy htx hty hD v hv
        exact ⟨s', hs'⟩
      · intro s' hs'
        rcases hv : sobel hm (tx + px) (ty + py) scale opts.wrap tx ty tw th with _ | v
        · simp [convert_pixel, e1, e2, hv] at hs'
        · obtain ⟨s'', hs'', hp''⟩ := convert_pixel_step_of hbpp hxo hyo hzo hsz hp tx ty px
            py hx hy htx hty hD v hv
          rw [hs''] at hs'
          rw [← Option.some.inj hs']
          exact hp'' }

/-- Whenever `normalmap_convert` returns, for a non-empty image whose buffers fit
`unsigned` and any tile size (an `int`), the scale was computed, `sobel` returned for every
pixel, and every pixel of the output holds the bytes of its own normal vector. -/
theorem normalmap_convert_painted (hm : NormalmapPng) (opts : NormalmapOptions)
    (hW : 0 < hm.width) (hH : 0 < hm.height)
    (hsz : hm.width * hm.height * 4 < 4294967296) (ht : opts.tilesize < 2147483648)
    (out : NormalmapPng) (hout : normalmap_convert hm opts = some out) :
    ∃ scale, effective_scale hm opts = some scale ∧ out.width = hm.width ∧
      out.height = hm.height ∧
      out.format = (if 'a' ∈ opts.xyz then PngFormat.RGBA else PngFormat.RGB) ∧
      Painted hm opts (bytes_per_pixel opts) (axis_offset opts 0) (axis_offset opts 1)
        (axis_offset opts 2) scale (tile_side opts hm.width) (tile_side opts hm.height)
        (fun _ _ => True) out.data := by
  obtain ⟨hW2, hH2⟩ := dims_lt hW hH hsz
  obtain ⟨htw, htw2⟩ := tile_side_bounds opts hm.width hW hW2 ht
  obtain ⟨hth, hth2⟩ := tile_side_bounds opts hm.height hH hH2 ht
  simp only [normalmap_convert, Option.bind_eq_some, Option.map_eq_some'] at hout
  obtain ⟨scale, hscale, data, hdata, hmk⟩ := hout
  rw [convert_tiles_eq_loop_nest] at hdata
  have ctx := convert_nestCtx hm opts (bytes_per_pixel opts) (axis_offset opts 0)
    (axis_offset opts 1) (axis_offset opts 2) scale _ _ (bytes_per_pixel_cases opts)
    (axis_offset_lt opts 0) (axis_offset_lt opts 1) (axis_offset_lt opts 2) hW hH hsz
    htw hth htw2 hth2
  have hp := (loop_nest_spec ctx
    (Painted_init hm opts _ _ _ _ scale _ _ (bytes_per_pixel_cases opts) hsz)).2 data hdata
  subst hmk
  exact ⟨scale, hscale, rfl, rfl, rfl, hp⟩

/-! ## Claims about the bytes of the output buffer -/

/-- C12: for every valid channel mapping, `bpp` is 4 if the mapping contains `a` and 3
otherwise; the three written offsets are below `bpp`; with `bpp = 3` every offset is named
by the mapping, with `bpp = 4` exactly one offset is not; `normalmap_convert` returns when
the height field is well formed and the tile size is 0 or divides both sides; and whenever
it returns (for any tile size), the output has the format RGBA or RGB that goes with `bpp`,
its buffer has `width * height * bpp` bytes, and every byte of a pixel whose offset is not
named by the mapping is 0. -/
theorem output_buffer_frame (hm : NormalmapPng) (opts : NormalmapOptions)
    (hW : 0 < hm.width) (hH : 0 < hm.height)
    (hsz : hm.width * hm.height * 4 < 4294967296) (ht : opts.tilesize < 2147483648)
    (hmap : valid_mapping opts.xyz) :
    bytes_per_pixel opts = (if 'a' ∈ opts.xyz then 4 else 3) ∧
    axis_offset opts 0 < bytes_per_pixel opts ∧ axis_offset opts 1 < bytes_per_pixel opts ∧
    axis_offset opts 2 < bytes_per_pixel opts ∧
    (bytes_per_pixel opts = 3 → ∀ o, o < 3 →
      o = axis_offset opts 0 ∨ o = axis_offset opts 1 ∨ o = axis_offset opts 2) ∧
    (bytes_per_pixel opts = 4 → ∃ o, o < 4 ∧
      o ≠ axis_offset opts 0 ∧ o ≠ axis_offset opts 1 ∧ o ≠ axis_offset opts 2 ∧
      ∀ o', o' < 4 → o' ≠ axis_offset opts 0 → o' ≠ axis_offset opts 1 →
        o' ≠ axis_offset opts 2 → o' = o) ∧
    (hm.data.length = hm.width * hm.height → tile_fits opts.tilesize hm.width hm.height →
      ∃ out, normalmap_convert hm opts = some out) ∧
    ∀ out, normalmap_convert hm opts = some out →
      out.format = (if 'a' ∈ opts.xyz then PngFormat.RGBA else PngFormat.RGB) ∧
      out.data.length = hm.width * hm.height * bytes_per_pixel opts ∧
      ∀ x y o, x < hm.width → y < hm.height → o < bytes_per_pixel opts →
        o ≠ axis_offset opts 0 → o ≠ axis_offset opts 1 → o ≠ axis_offset opts 2 →
        out.data[(y * hm.width + x) * bytes_per_pixel opts + o]? = some 0 := by
  obtain ⟨n01, n02, n12⟩ := valid_mapping_offsets opts hmap
  have l0 := axis_offset_lt opts 0
  have l1 := axis_offset_lt opts 1
  have l2 := axis_offset_lt opts 2
  refine ⟨rfl, l0, l1, l2, ?_, ?_,
    fun hlen hfit => normalmap_convert_returns hm opts hW hH hlen hsz hfit, ?_⟩
  · intro h3 o ho
    rw [h3] at l0 l1 l2
    omega
  · intro h4
    rw [h4] at l0 l1 l2
    refine ⟨6 - (axis_offset opts 0 + axis_offset opts 1 + axis_offset opts 2),
      by omega, by omega, by omega, by omega, ?_⟩
    intro o' _ _ _ _
    omega
  · intro out hout
    obtain ⟨scale, -, -, -, hfmt, hlen, hcells⟩ :=
      normalmap_convert_painted hm opts hW hH hsz ht out hout
    refine ⟨hfmt, hlen, ?_⟩
    intro x y o hx hy ho h0 h1 h2
    obtain ⟨v, -, hb⟩ := (hcells x y o hx hy ho).1 trivial
    rw [hb]
    simp [pixel_bytes, h0, h1, h2]

/-- Witness of C12: the 2 × 2 field 0, 100 / 0, 100 with the mapping `agb`. -/
theorem output_buffer_frame_witness :
    bytes_per_pixel { rgbOptions with xyz := ['a', 'g', 'b'] }
      = (if 'a' ∈ ({ rgbOptions with xyz := ['a', 'g', 'b'] } : NormalmapOptions).xyz
          then 4 else 3) ∧
    axis_offset { rgbOptions with xyz := ['a', 'g', 'b'] } 0
      < bytes_per_pixel { rgbOptions with xyz := ['a', 'g', 'b'] } ∧
    axis_offset { rgbOptions with xyz := ['a', 'g', 'b'] } 1
      < bytes_per_pixel { rgbOptions with xyz := ['a', 'g', 'b'] } ∧
    axis_offset { rgbOptions with xyz := ['a', 'g', 'b'] } 2
      < bytes_per_pixel { rgbOptions with xyz := ['a', 'g', 'b'] } ∧
    (bytes_per_pixel { rgbOptions with xyz := ['a', 'g', 'b'] } = 3 → ∀ o, o < 3 →
      o = axis_offset { rgbOptions with xyz := ['a', 'g', 'b'] } 0 ∨
      o = axis_offset { rgbOptions with xyz := ['a', 'g', 'b'] } 1 ∨
      o = axis_offset { rgbOptions with xyz := ['a', 'g', 'b'] } 2) ∧
    (bytes_per_pixel { rgbOptions with xyz := ['a', 'g', 'b'] } = 4 → ∃ o, o < 4 ∧
      o ≠ axis_offset { rgbOptions with xyz := ['a', 'g', 'b'] } 0 ∧
      o ≠ axis_offset { rgbOptions with xyz := ['a', 'g', 'b'] } 1 ∧
      o ≠ axis_offset { rgbOptions with xyz := ['a', 'g', 'b'] } 2 ∧
      ∀ o', o' < 4 → o' ≠ axis_offset { rgbOptions with xyz := ['a', 'g', 'b'] } 0 →
        o' ≠ axis_offset { rgbOptions with xyz := ['a', 'g', 'b'] } 1 →
        o' ≠ axis_offset { rgbOptions with xyz := ['a', 'g', 'b'] } 2 → o' = o) ∧
    (pairFieldCrop.data.length = pairFieldCrop.width * pairFieldCrop.height →
      tile_fits ({ rgbOptions with xyz := ['a', 'g', 'b'] } : NormalmapOptions).tilesize
        pairFieldCrop.width pairFieldCrop.height →
      ∃ out, normalmap_convert pairFieldCrop { rgbOptions with xyz := ['a', 'g', 'b'] }
        = some out) ∧
    ∀ out, normalmap_convert pairFieldCrop { rgbOptions with xyz := ['a', 'g', 'b'] }
        = some out →
      out.format
        = (if 'a' ∈ ({ rgbOptions with xyz := ['a', 'g', 'b'] } : NormalmapOptions).xyz
            then PngFormat.RGBA else PngFormat.RGB) ∧
      out.data.length = pairFieldCrop.width * pairFieldCrop.height
        * bytes_per_pixel { rgbOptions with xyz := ['a', 'g', 'b'] } ∧
      ∀ x y o, x < pairFieldCrop.width → y < pairFieldCrop.height →
        o < bytes_per_pixel { rgbOptions with xyz := ['a', 'g', 'b'] } →
        o ≠ axis_offset { rgbOptions with xyz := ['a', 'g', 'b'] } 0 →
        o ≠ axis_offset { rgbOptions with xyz := ['a', 'g', 'b'] } 1 →
        o ≠ axis_offset { rgbOptions with xyz := ['a', 'g', 'b'] } 2 →
        out.data[(y * pairFieldCrop.width + x)
          * bytes_per_pixel { rgbOptions with xyz := ['a', 'g', 'b'] } + o]? = some 0 :=
  output_buffer_frame pairFieldCrop { rgbOptions with xyz := ['a', 'g', 'b'] }
    (by decide) (by decide) (by decide) (by decide) (by decide)

/-- C17: for every height field and every option setting (the image non-empty and its
buffers within `unsigned`), `normalmap_convert` returns when the height field is well
formed and the tile size is 0 or divides both sides, and whenever it returns (for any tile
size) the byte at the Z-axis offset of every output pixel lies in 128..255 when unsigned_z
is off, and in 0..255 when it is on. -/
theorem z_byte_range (hm : NormalmapPng) (opts : NormalmapOptions)
    (hW : 0 < hm.width) (hH : 0 < hm.height)
    (hsz : hm.width * hm.height * 4 < 4294967296) (ht : opts.tilesize < 2147483648) :
    (hm.data.length = hm.width * hm.height → tile_fits opts.tilesize hm.width hm.height →
      ∃ out, normalmap_convert hm opts = some out) ∧
    ∀ out, normalmap_convert hm opts = some out →
      ∀ x y, x < hm.width → y < hm.height →
        ∃ b, out.data[(y * hm.width + x) * bytes_per_pixel opts + axis_offset opts 2]?
            = some b ∧
          b ≤ 255 ∧ (opts.unsigned_z = false → 128 ≤ b) := by
  refine ⟨fun hlen hfit => normalmap_convert_returns hm opts hW hH hlen hsz hfit, ?_⟩
  intro out hout
  obtain ⟨scale, -, -, -, -, -, hcells⟩ :=
    normalmap_convert_painted hm opts hW hH hsz ht out hout
  intro x y hx hy
  obtain ⟨v, hv, hb⟩ := (hcells x y _ hx hy (axis_offset_lt opts 2)).1 trivial
  simp only [sobel, Option.bind_eq_some] at hv
  obtain ⟨ax, -, ay, -, hv⟩ := hv
  have hv' : v = sobel_vec scale ax ay := (Option.some.inj hv).symm
  obtain ⟨-, -, hrad, hnum, -, hz, -, -⟩ := sobel_vec_unit scale ax ay
  rw [← hv'] at hrad hnum hz
  refine ⟨_, hb, ?_, ?_⟩
  · simp only [pixel_bytes, if_true]
    have b1 := d_to_signed_byte_lt v.z
    have b2 := d_to_unsigned_byte_lt v.z
    split_ifs <;> omega
  · intro hu
    simp only [pixel_bytes, if_true, hu]
    exact d_to_signed_byte_ge v.z (by linarith) (by rw [hnum]; norm_num) hz

/-- Witness of C17: the 3 × 1 field 0, 10, 0 with normalise on. -/
theorem z_byte_range_witness :
    (lowField.data.length = lowField.width * lowField.height →
      tile_fits ({ rgbOptions with normalise := true } : NormalmapOptions).tilesize
        lowField.width lowField.height →
      ∃ out, normalmap_convert lowField { rgbOptions with normalise := true } = some out) ∧
    ∀ out, normalmap_convert lowField { rgbOptions with normalise := true } = some out →
      ∀ x y, x < lowField.width → y < lowField.height →
        ∃ b, out.data[(y * lowField.width + x)
              * bytes_per_pixel { rgbOptions with normalise := true }
              + axis_offset { rgbOptions with normalise := true } 2]? = some b ∧
          b ≤ 255 ∧
          (({ rgbOptions with normalise := true } : NormalmapOptions).unsigned_z = false →
            128 ≤ b) :=
  z_byte_range lowField { rgbOptions with normalise := true } (by decide) (by decide)
    (by decide) (by decide)

/-! ## The validation of the channel mapping -/

theorem tolower_mem (c : Char) :
    tolower c ∈ ['r', 'g', 'b', 'a'] ↔ c ∈ ['r', 'g', 'b', 'a', 'R', 'G', 'B', 'A'] := by
  by_cases h : 65 ≤ c.toNat ∧ c.toNat ≤ 90
  · have hc : c = Char.ofNat c.toNat := (Char.ofNat_toNat c).symm
    obtain ⟨h1, h2⟩ := h
    generalize c.toNat = n at hc h1 h2
    subst hc
    interval_cases n <;> decide
  · have ht : tolower c = c := by unfold tolower; rw [if_neg h]
    rw [ht]
    constructor
    · intro hm
      simp only [List.mem_cons, List.mem_singleton, List.not_mem_nil, or_false] at hm ⊢
      rcases hm with h | h | h | h <;> simp [h]
    · intro hm
      simp only [List.mem_cons, List.mem_singleton, List.not_mem_nil, or_false] at hm ⊢
      rcases hm with h | h | h | h | h | h | h | h
      · exact Or.inl h
      · exact Or.inr (Or.inl h)
      · exact Or.inr (Or.inr (Or.inl h))
      · exact Or.inr (Or.inr (Or.inr h))
      · subst h; exact absurd (by decide) h
      · subst h; exact absurd (by decide) h
      · subst h; exact absurd (by decide) h
      · subst h; exact absurd (by decide) h

/-- `validate_xyz` on a string of three characters. -/
theorem validate_xyz_three (c0 c1 c2 : Char) :
    validate_xyz [c0, c1, c2]
      = if (tolower c0 ∈ ['r', 'g', 'b', 'a'] ∧ tolower c1 ∈ ['r', 'g', 'b', 'a'] ∧
            tolower c2 ∈ ['r', 'g', 'b', 'a']) ∧
          (tolower c0 ≠ tolower c1 ∧ tolower c0 ≠ tolower c2 ∧ tolower c1 ≠ tolower c2)
        then (1, [tolower c0, tolower c1, tolower c2])
        else (0, [tolower c0, tolower c1, tolower c2]) := by
  have hlow : [0, 1, 2].foldl (fun s n => s.set n (tolower (s.getD n (Char.ofNat 0))))
      [c0, c1, c2] = [tolower c0, tolower c1, tolower c2] := by
    simp [List.foldl, List.set, List.getD]
  simp only [validate_xyz, List.length_cons, List.length_nil, hlow, ne_eq, not_true_eq_false,
    if_false, strspn]
  by_cases m0 : tolower c0 ∈ ['r', 'g', 'b', 'a']
  · by_cases m1 : tolower c1 ∈ ['r', 'g', 'b', 'a']
    · by_cases m2 : tolower c2 ∈ ['r', 'g', 'b', 'a']
      · by_cases e01 : tolower c0 = tolower c1
        · simp [List.takeWhile, m0, m1, m2, e01, List.any, List.getD]
        · by_cases e02 : tolower c0 = tolower c2
          · simp [List.takeWhile, m0, m1, m2, e02, List.any, List.getD]
          · by_cases e12 : tolower c1 = tolower c2
            · simp [List.takeWhile, m0, m1, m2, e12, List.any, List.getD]
            · have e10 : ¬ tolower c1 = tolower c0 := fun h => e01 h.symm
              have e20 : ¬ tolower c2 = tolower c0 := fun h => e02 h.symm
              have e21 : ¬ tolower c2 = tolower c1 := fun h => e12 h.symm
              simp [List.takeWhile, m0, m1, m2, e01, e02, e12, e10, e20, e21, List.any,
                List.getD]
      · simp [List.takeWhile, m0, m1, m2]
    · simp [List.takeWhile, m0, m1]
  · simp [List.takeWhile, m0]

/-- C18: `validate_xyz` returns 1 if and only if its argument has length exactly 3, each
character is one of `r`, `g`, `b`, `a` in either letter case, and the three characters are
pairwise distinct ignoring case (otherwise it returns 0); and whenever it returns 1 the
string has been lowercased in place, is a valid mapping, and `byte_offset` maps its three
characters to three pairwise distinct offsets in 0..3, with `r = 0`, `g = 1`, `b = 2`,
`a = 3`. -/
theorem validate_xyz_spec (xyz : List Char) :
    ((validate_xyz xyz).1 = 1 ↔
      (xyz.length = 3 ∧ (∀ c ∈ xyz, c ∈ ['r', 'g', 'b', 'a', 'R', 'G', 'B', 'A']) ∧
        (xyz.map tolower).Nodup)) ∧
    ((validate_xyz xyz).1 = 0 ∨ (validate_xyz xyz).1 = 1) ∧
    ((validate_xyz xyz).1 = 1 →
      (validate_xyz xyz).2 = xyz.map tolower ∧ valid_mapping (validate_xyz xyz).2 ∧
      byte_offset ((validate_xyz xyz).2.getD 0 (Char.ofNat 0))
        ≠ byte_offset ((validate_xyz xyz).2.getD 1 (Char.ofNat 0)) ∧
      byte_offset ((validate_xyz xyz).2.getD 0 (Char.ofNat 0))
        ≠ byte_offset ((validate_xyz xyz).2.getD 2 (Char.ofNat 0)) ∧
      byte_offset ((validate_xyz xyz).2.getD 1 (Char.ofNat 0))
        ≠ byte_offset ((validate_xyz xyz).2.getD 2 (Char.ofNat 0)) ∧
      byte_offset ((validate_xyz xyz).2.getD 0 (Char.ofNat 0)) ≤ 3 ∧
      byte_offset ((validate_xyz xyz).2.getD 1 (Char.ofNat 0)) ≤ 3 ∧
      byte_offset ((validate_xyz xyz).2.getD 2 (Char.ofNat 0)) ≤ 3) ∧
    byte_offset 'r' = 0 ∧ byte_offset 'g' = 1 ∧ byte_offset 'b' = 2 ∧ byte_offset 'a' = 3 := by
  refine ⟨?_, ?_, ?_, by decide, by decide, by decide, by decide⟩
  · match xyz with
    | [c0, c1, c2] =>
      rw [validate_xyz_three]
      have nd : ([c0, c1, c2].map tolower).Nodup ↔
          (tolower c0 ≠ tolower c1 ∧ tolower c0 ≠ tolower c2 ∧ tolower c1 ≠ tolower c2) := by
        simp only [List.map_cons, List.map_nil, List.nodup_cons, List.mem_cons,
          List.not_mem_nil, or_false, not_or, List.nodup_nil, and_true, not_false_eq_true,
          ne_eq]
        constructor
        · rintro ⟨⟨a, b⟩, c⟩; exact ⟨a, b, c⟩
        · rintro ⟨a, b, c⟩; exact ⟨⟨a, b⟩, c⟩
      split_ifs with h
      · refine ⟨fun _ => ⟨rfl, ?_, nd.2 h.2⟩, fun _ => rfl⟩
        intro c hc
        simp only [List.mem_cons, List.not_mem_nil, or_false] at hc
        rcases hc with rfl | rfl | rfl
        · exact (tolower_mem _).1 h.1.1
        · exact (tolower_mem _).1 h.1.2.1
        · exact (tolower_mem _).1 h.1.2.2
      · refine ⟨fun h1 => absurd h1 (by simp), ?_⟩
        rintro ⟨-, hm, hn⟩
        exact absurd ⟨⟨(tolower_mem c0).2 (hm c0 (by simp)),
          (tolower_mem c1).2 (hm c1 (by simp)), (tolower_mem c2).2 (hm c2 (by simp))⟩,
          nd.1 hn⟩ h
    | [] => simp [validate_xyz]
    | [_] => simp [validate_xyz]
    | [_, _] => simp [validate_xyz]
    | _ :: _ :: _ :: _ :: _ => simp [validate_xyz]
  · match xyz with
    | [c0, c1, c2] =>
      rw [validate_xyz_three]
      split_ifs
      · exact Or.inr rfl
      · exact Or.inl rfl
    | [] => simp [validate_xyz]
    | [_] => simp [validate_xyz]
    | [_, _] => simp [validate_xyz]
    | _ :: _ :: _ :: _ :: _ => simp [validate_xyz]
  · match xyz with
    | [c0, c1, c2] =>
      rw [validate_xyz_three]
      split_ifs with h
      · intro _
        have hv : valid_mapping [tolower c0, tolower c1, tolower c2] := by
          refine ⟨rfl, ?_, ?_⟩
          · intro c hc
            simp only [List.mem_cons, List.not_mem_nil, or_false] at hc
            rcases hc with rfl | rfl | rfl
            · exact h.1.1
            · exact h.1.2.1
            · exact h.1.2.2
          · simp only [List.nodup_cons, List.mem_cons, List.not_mem_nil, or_false, not_or,
              List.nodup_nil, and_true, not_false_eq_true]
            exact ⟨⟨h.2.1, h.2.2.1⟩, h.2.2.2⟩
        have ho := valid_mapping_offsets
          { rgbOptions with xyz := [tolower c0, tolower c1, tolower c2] } hv
        exact ⟨rfl, hv, ho.1, ho.2.1, ho.2.2, byte_offset_le _, byte_offset_le _,
          byte_offset_le _⟩
      · intro h1; exact absurd h1 (by simp)
    | [] => simp [validate_xyz]
    | [_] => simp [validate_xyz]
    | [_, _] => simp [validate_xyz]
    | _ :: _ :: _ :: _ :: _ => simp [validate_xyz]

/-! ## The effective scale -/

/-- The scan of lines 258-269 finds the least and the greatest sample of a non-empty field
of bytes. -/
theorem min_max_spec (hm : NormalmapPng) (hlen : hm.data.length = hm.width * hm.height)
    (hsz : hm.width * hm.height * 4 < 4294967296) (hne : 0 < hm.width * hm.height)
    (hbytes : ∀ d ∈ hm.data, d ≤ 255) :
    ∃ mn mx, min_max hm = some (mn, mx) ∧ mn ∈ hm.data ∧ mx ∈ hm.data ∧
      ∀ d ∈ hm.data, mn ≤ d ∧ d ≤ mx := by
  have hc : hm.height * hm.width = hm.width * hm.height := Nat.mul_comm _ _
  have e1 : umul hm.height hm.width = hm.width * hm.height := by
    rw [umul_eq (by omega), hc]
  obtain ⟨j, mm, hl, ⟨hj, -, hpos⟩, hcj⟩ := forLoop_total
    (fun p_y => decide (p_y < umul hm.height hm.width)) (fun p_y => uadd p_y 1)
    (fun p_y (mm : Nat × Nat) =>
      (hm.data[p_y]?).bind fun pix =>
        let max := if pix > mm.2 then pix else mm.2
        let min := if pix < mm.1 then pix else mm.1
        some (min, max))
    (fun i mm => i ≤ hm.width * hm.height ∧ (i = 0 → mm = (255, 0)) ∧
      (0 < i → (∃ k, k < i ∧ hm.data[k]? = some mm.1) ∧ (∃ k, k < i ∧ hm.data[k]? = some mm.2) ∧
        ∀ k d, k < i → hm.data[k]? = some d → mm.1 ≤ d ∧ d ≤ mm.2))
    (fun p_y => hm.width * hm.height - p_y)
    (by
      rintro i mm ⟨hi, h0, hp⟩ hc
      simp only [decide_eq_true_eq, e1] at hc
      have hi' : i < hm.data.length := by omega
      have e : uadd i 1 = i + 1 := uadd_eq (by omega)
      have hget : hm.data[i]? = some hm.data[i] := List.getElem?_eq_getElem hi'
      have hb : hm.data[i] ≤ 255 := hbytes _ (List.getElem_mem hi')
      refine ⟨(if hm.data[i] < mm.1 then hm.data[i] else mm.1,
        if mm.2 < hm.data[i] then hm.data[i] else mm.2), ?_, ⟨?_, ?_, ?_⟩, ?_⟩
      · simp [hget]
      · simp only [e]; omega
      · simp only [e]; intro h; omega
      · simp only [e]
        intro _
        rcases Nat.eq_zero_or_pos i with hz | hz
        · have hmm := h0 hz
          subst hz
          rw [hmm]
          have a1 : (if hm.data[0] < 255 then hm.data[0] else 255) = hm.data[0] := by
            split_ifs <;> omega
          have a2 : (if 0 < hm.data[0] then hm.data[0] else 0) = hm.data[0] := by
            split_ifs <;> omega
          simp only [a1, a2]
          refine ⟨⟨0, by omega, hget⟩, ⟨0, by omega, hget⟩, ?_⟩
          intro k d hk hd
          have hk0 : k = 0 := by omega
          subst hk0
          rw [hget] at hd
          have := Option.some.inj hd
          omega
        · obtain ⟨⟨k1, hk1, hg1⟩, ⟨k2, hk2, hg2⟩, hall⟩ := hp hz
          refine ⟨?_, ?_, ?_⟩
          · show ∃ k, k < i + 1 ∧ hm.data[k]? = some (if hm.data[i] < mm.1 then hm.data[i]
              else mm.1)
            split_ifs
            · exact ⟨i, by omega, hget⟩
            · exact ⟨k1, by omega, hg1⟩
          · show ∃ k, k < i + 1 ∧ hm.data[k]? = some (if mm.2 < hm.data[i] then hm.data[i]
              else mm.2)
            split_ifs
            · exact ⟨i, by omega, hget⟩
            · exact ⟨k2, by omega, hg2⟩
          · intro k d hk hd
            show (if hm.data[i] < mm.1 then hm.data[i] else mm.1) ≤ d ∧
              d ≤ (if mm.2 < hm.data[i] then hm.data[i] else mm.2)
            by_cases hki : k = i
            · subst hki
              rw [hget] at hd
              have := Option.some.inj hd
              split_ifs <;> omega
            · have := hall k d (by omega) hd
              split_ifs <;> omega
      · simp only [e]; omega)
    loopFuel 0 (255, 0) (by show hm.width * hm.height - 0 < loopFuel; unfold loopFuel; omega)
    ⟨Nat.zero_le _, fun _ => rfl, fun h => absurd h (by omega)⟩
  simp only [decide_eq_false_iff_not, e1] at hcj
  have hjn : j = hm.width * hm.height := by omega
  obtain ⟨⟨k1, hk1, hg1⟩, ⟨k2, hk2, hg2⟩, hall⟩ := hpos (by omega)
  refine ⟨mm.1, mm.2, hl, List.mem_iff_getElem?.2 ⟨k1, hg1⟩, List.mem_iff_getElem?.2 ⟨k2, hg2⟩, ?_⟩
  intro d hd
  obtain ⟨k, hk, hkd⟩ := List.getElem_of_mem hd
  exact hall k d (by omega) (by rw [List.getElem?_eq_getElem hk, hkd])

/-- C14: for every non-empty height field of bytes, the scale that `normalmap_convert`
computes and hands to the loops, hence to every call of `sobel`, is
`(max - min) / 255 * options.scale` when normalise is set, `max` and `min` being the
greatest and the least of all `width * height` samples, and `options.scale / 255` when it
is not; it does not depend on the tile size.  For the 2 × 2 field 0, 255 / 255, 0 with
normalise on and scale 1 it is exactly 1. -/
theorem effective_scale_value (hm : NormalmapPng) (opts : NormalmapOptions)
    (hlen : hm.data.length = hm.width * hm.height)
    (hsz : hm.width * hm.height * 4 < 4294967296) (hne : 0 < hm.width * hm.height)
    (hbytes : ∀ d ∈ hm.data, d ≤ 255) :
    (∃ mn mx, mn ∈ hm.data ∧ mx ∈ hm.data ∧ (∀ d ∈ hm.data, mn ≤ d ∧ d ≤ mx) ∧
      effective_scale hm opts = some (if opts.normalise
        then (((mx : Int) - (mn : Int) : Int) : ℚ) / 255 * opts.scale
        else opts.scale / 255)) ∧
    (∀ t, effective_scale hm { opts with tilesize := t } = effective_scale hm opts) ∧
    normalmap_convert hm opts = (effective_scale hm opts).bind (fun scale =>
      (convert_tiles hm opts (bytes_per_pixel opts) (axis_offset opts 0) (axis_offset opts 1)
        (axis_offset opts 2) scale (tile_side opts hm.width) (tile_side opts hm.height)
        (List.replicate (umul (umul hm.height hm.width) (bytes_per_pixel opts)) 0)).map
        fun data => { width := hm.width, height := hm.height,
                      format := if 'a' ∈ opts.xyz then PngFormat.RGBA else PngFormat.RGB,
                      data := data }) ∧
    effective_scale checkerField { rgbOptions with normalise := true } = some 1 := by
  obtain ⟨mn, mx, hmm, h1, h2, h3⟩ := min_max_spec hm hlen hsz hne hbytes
  refine ⟨⟨mn, mx, h1, h2, h3, ?_⟩, fun _ => rfl, rfl, by decide!⟩
  unfold effective_scale
  split_ifs
  · rw [hmm]; rfl
  · rfl

/-- Witness of C14: the 3 × 1 field 0, 10, 0. -/
theorem effective_scale_value_witness :
    (∃ mn mx, mn ∈ lowField.data ∧ mx ∈ lowField.data ∧
      (∀ d ∈ lowField.data, mn ≤ d ∧ d ≤ mx) ∧
      effective_scale lowField { rgbOptions with normalise := true }
        = some (if ({ rgbOptions with normalise := true } : NormalmapOptions).normalise
          then (((mx : Int) - (mn : Int) : Int) : ℚ) / 255
            * ({ rgbOptions with normalise := true } : NormalmapOptions).scale
          else ({ rgbOptions with normalise := true } : NormalmapOptions).scale / 255)) ∧
    (∀ t, effective_scale lowField { rgbOptions with normalise := true, tilesize := t }
      = effective_scale lowField { rgbOptions with normalise := true }) ∧
    normalmap_convert lowField { rgbOptions with normalise := true }
      = (effective_scale lowField { rgbOptions with normalise := true }).bind (fun scale =>
      (convert_tiles lowField { rgbOptions with normalise := true }
        (bytes_per_pixel { rgbOptions with normalise := true })
        (axis_offset { rgbOptions with normalise := true } 0)
        (axis_offset { rgbOptions with normalise := true } 1)
        (axis_offset { rgbOptions with normalise := true } 2) scale
        (tile_side { rgbOptions with normalise := true } lowField.width)
        (tile_side { rgbOptions with normalise := true } lowField.height)
        (List.replicate (umul (umul lowField.height lowField.width)
          (bytes_per_pixel { rgbOptions with normalise := true })) 0)).map
        fun data => { width := lowField.width, height := lowField.height,
                      format := if 'a' ∈ ({ rgbOptions with normalise := true }
                          : NormalmapOptions).xyz
                        then PngFormat.RGBA else PngFormat.RGB,
                      data := data }) ∧
    effective_scale checkerField { rgbOptions with normalise := true } = some 1 :=
  effective_scale_value lowField { rgbOptions with normalise := true } (by decide)
    (by decide) (by decide) (by decide)

/-! ## The sign of the slope at the wrap seam -/

/-- C19 (the code at the failing input): in the 3 × 3 field 7, 1, 2 / 3, 4, 5 / 6, 7, 8 with
one tile and wrap on, `row_dh (0, 1)` is `-1`, the negative of `s(2, 1) - s(1, 1) = 1`,
and `col_dh (1, 0)` is `3`, the negative of `s(1, 1) - s(1, 2) = -3`; at the opposite
edges `row_dh (2, 1)` and `col_dh (1, 2)` do follow the interior formula taken
cyclically, `s(1, 1) - s(0, 1) = 1` and `s(1, 0) - s(1, 1) = -3`. -/
theorem wrap_seam_sign :
    row_dh smallField 0 1 true 0 0 3 3 = some (-1) ∧
    pix smallField 2 1 - pix smallField 1 1 = 1 ∧
    col_dh smallField 1 0 true 0 0 3 3 = some 3 ∧
    pix smallField 1 1 - pix smallField 1 2 = -3 ∧
    row_dh smallField 2 1 true 0 0 3 3 = some (pix smallField 1 1 - pix smallField 0 1) ∧
    col_dh smallField 1 2 true 0 0 3 3 = some (pix smallField 1 0 - pix smallField 1 1) := by
  decide

/-! ## Tile independence -/

theorem pixel_diff_congr (hm1 hm2 : NormalmapPng) (tx ty tw th : Nat)
    (hagree : ∀ x y, tx ≤ x → x < uadd tx tw → ty ≤ y → y < uadd ty th →
      sample_pixel hm1 x y = sample_pixel hm2 x y) (x1 x2 y1 y2 : Nat) :
    pixel_diff hm1 x1 x2 y1 y2 tx ty tw th = pixel_diff hm2 x1 x2 y1 y2 tx ty tw th := by
  unfold pixel_diff
  split_ifs with h1 h2
  · rfl
  · rfl
  · rw [hagree x1 y1 (by omega) (by omega) (by omega) (by omega),
      hagree x2 y2 (by omega) (by omega) (by omega) (by omega)]

/-- `sobel` reads the samples of its tile only: two height fields that agree on the tile
give the same vector. -/
theorem sobel_congr (hm1 hm2 : NormalmapPng) (tx ty tw th : Nat)
    (hagree : ∀ x y, tx ≤ x → x < uadd tx tw → ty ≤ y → y < uadd ty th →
      sample_pixel hm1 x y = sample_pixel hm2 x y) (x y : Nat) (scale : ℚ) (wrap : Bool) :
    sobel hm1 x y scale wrap tx ty tw th = sobel hm2 x y scale wrap tx ty tw th := by
  have hd := pixel_diff_congr hm1 hm2 tx ty tw th hagree
  simp only [sobel, sobel_row_acc, sobel_col_acc, row_dh, col_dh, hd]

/-- C13: for normalise off, every tile size that is 0 or divides both sides of the image
and every tile `T` of the partition (origin `(i * tw, j * th)`), if two well-formed height
fields of the same dimensions agree on every pixel of `T`, then under the same options both
conversions return and their outputs agree on every byte of every pixel of `T`. -/
theorem tile_independence (hm1 hm2 : NormalmapPng) (opts : NormalmapOptions) (i j : Nat)
    (hw : hm2.width = hm1.width) (hh : hm2.height = hm1.height)
    (hW : 0 < hm1.width) (hH : 0 < hm1.height)
    (hlen1 : hm1.data.length = hm1.width * hm1.height)
    (hlen2 : hm2.data.length = hm1.width * hm1.height)
    (hsz : hm1.width * hm1.height * 4 < 4294967296)
    (hn : opts.normalise = false)
    (ht : tile_fits opts.tilesize hm1.width hm1.height)
    (hi : i * tile_side opts hm1.width < hm1.width)
    (hj : j * tile_side opts hm1.height < hm1.height)
    (hagree : ∀ x y, i * tile_side opts hm1.width ≤ x →
      x < i * tile_side opts hm1.width + tile_side opts hm1.width →
      j * tile_side opts hm1.height ≤ y →
      y < j * tile_side opts hm1.height + tile_side opts hm1.height →
      pix hm1 x y = pix hm2 x y) :
    ∃ out1 out2, normalmap_convert hm1 opts = some out1 ∧
      normalmap_convert hm2 opts = some out2 ∧
      ∀ x y o, i * tile_side opts hm1.width ≤ x →
        x < i * tile_side opts hm1.width + tile_side opts hm1.width →
        j * tile_side opts hm1.height ≤ y →
        y < j * tile_side opts hm1.height + tile_side opts hm1.height →
        o < bytes_per_pixel opts →
        out1.data[(y * hm1.width + x) * bytes_per_pixel opts + o]?
          = out2.data[(y * hm1.width + x) * bytes_per_pixel opts + o]? := by
  have hsz' : hm1.width * hm1.height < 4294967296 := by omega
  have hW2 : 0 < hm2.width := by rw [hw]; exact hW
  have hH2 : 0 < hm2.height := by rw [hh]; exact hH
  have hlen2' : hm2.data.length = hm2.width * hm2.height := by rw [hw, hh]; exact hlen2
  have hsz2 : hm2.width * hm2.height * 4 < 4294967296 := by rw [hw, hh]; exact hsz
  have ht2 : tile_fits opts.tilesize hm2.width hm2.height := by rw [hw, hh]; exact ht
  have hs1 : effective_scale hm1 opts = some (opts.scale / 255) := by
    simp [effective_scale, hn]
  have hs2 : effective_scale hm2 opts = some (opts.scale / 255) := by
    simp [effective_scale, hn]
  have ctx1 := wellFormed_loopCtx hm1 opts (opts.scale / 255) hW hH hlen1 hsz ht
  have ctx2 := wellFormed_loopCtx hm2 opts (opts.scale / 255) hW2 hH2 hlen2' hsz2 ht2
  obtain ⟨out1, hrun1, -, -, -, hc1⟩ := normalmap_convert_spec hm1 opts _ hs1 ctx1
  obtain ⟨out2, hrun2, -, -, -, hc2⟩ := normalmap_convert_spec hm2 opts _ hs2 ctx2
  rw [hw, hh] at hc2
  refine ⟨out1, out2, hrun1, hrun2, ?_⟩
  intro x y o hx1 hx2 hy1 hy2 ho
  obtain ⟨⟨hw0, hin⟩, ⟨hh0, hjn⟩⟩ := tile_side_inside opts hm1.width hm1.height hW hH ht
  have ox := origin_of_mem hx1 hx2
  have oy := origin_of_mem hy1 hy2
  have inx := hin _ hi
  have iny := hjn _ hj
  have e1 := tile_origin i 0 hw0
  have e2 := tile_origin j 0 hh0
  simp only [Nat.add_zero] at e1 e2
  rw [e1] at inx
  rw [e2] at iny
  have hx : x < hm1.width := by omega
  have hy : y < hm1.height := by omega
  obtain ⟨v1, hv1, hb1⟩ := (hc1 x y o hx hy ho).1 trivial
  obtain ⟨v2, hv2, hb2⟩ := (hc2 x y o hx hy ho).1 trivial
  rw [ox, oy] at hv1 hv2
  have hWb : hm1.width ≤ hm1.width * hm1.height := Nat.le_mul_of_pos_right _ hH
  have hHb : hm1.height ≤ hm1.width * hm1.height := Nat.le_mul_of_pos_left _ hW
  have hcong := sobel_congr hm1 hm2 (i * tile_side opts hm1.width)
    (j * tile_side opts hm1.height) (tile_side opts hm1.width) (tile_side opts hm1.height)
    (by
      intro x' y' a1 a2 b1 b2
      rw [uadd_eq (by omega)] at a2 b2
      have s1 := sample_pixel_eq hm1 hlen1 hsz' (x := x') (y := y') (by omega) (by omega)
      have s2 := sample_pixel_eq hm2 hlen2' (by rw [hw, hh]; exact hsz') (x := x') (y := y')
        (by rw [hw]; omega) (by rw [hh]; omega)
      have hp := hagree x' y' a1 a2 b1 b2
      unfold pix at hp
      rw [hw] at hp s2
      rw [s1, s2, Int.ofNat_inj.mp hp])
    x y (opts.scale / 255) opts.wrap
  have hv : v1 = v2 := by
    rw [hcong] at hv1
    exact Option.some.inj (hv1.symm.trans hv2)
  rw [hb1, hb2, hv]

/-- Witness of C13: two 4 × 2 fields that agree on the tile with origin `(2, 0)` of the
partition into 2 × 2 tiles. -/
theorem tile_independence_witness :
    ∃ out1 out2, normalmap_convert pairField { rgbOptions with tilesize := 2 } = some out1 ∧
      normalmap_convert pairFieldOther { rgbOptions with tilesize := 2 } = some out2 ∧
      ∀ x y o, 1 * tile_side { rgbOptions with tilesize := 2 } pairField.width ≤ x →
        x < 1 * tile_side { rgbOptions with tilesize := 2 } pairField.width
          + tile_side { rgbOptions with tilesize := 2 } pairField.width →
        0 * tile_side { rgbOptions with tilesize := 2 } pairField.height ≤ y →
        y < 0 * tile_side { rgbOptions with tilesize := 2 } pairField.height
          + tile_side { rgbOptions with tilesize := 2 } pairField.height →
        o < bytes_per_pixel { rgbOptions with tilesize := 2 } →
        out1.data[(y * pairField.width + x) * bytes_per_pixel { rgbOptions with tilesize := 2 }
            + o]?
          = out2.data[(y * pairField.width + x)
            * bytes_per_pixel { rgbOptions with tilesize := 2 } + o]? :=
  tile_independence pairField pairFieldOther { rgbOptions with tilesize := 2 } 1 0
    rfl rfl (by decide) (by decide) (by decide) (by decide) (by decide) rfl (by decide)
    (by decide) (by decide)
    (by
      intro x y a1 a2 b1 b2
      have hx : x = 2 ∨ x = 3 := by
        have e : tile_side { rgbOptions with tilesize := 2 } pairField.width = 2 := by decide
        rw [e] at a1 a2; omega
      have hy : y = 0 ∨ y = 1 := by
        have e : tile_side { rgbOptions with tilesize := 2 } pairField.height = 2 := by decide
        rw [e] at b2; omega
      rcases hx with rfl | rfl <;> rcases hy with rfl | rfl <;> decide)

/-! ## The 2 × 2 image in wrap mode -/

/-- A difference of a pixel with itself is 0. -/
theorem pixel_diff_self (hm : NormalmapPng) (hlen : hm.data.length = hm.width * hm.height)
    (hsz : hm.width * hm.height < 4294967296) (x y tx ty tw th : Nat)
    (htx : tx + tw ≤ hm.width) (hty : ty + th ≤ hm.height) :
    pixel_diff hm x x y y tx ty tw th = some 0 := by
  have hx := uadd_le tx tw
  have hy := uadd_le ty th
  unfold pixel_diff
  split_ifs with h1
  · rfl
  · have s1 := sample_pixel_eq hm hlen hsz (x := x) (y := y) (by omega) (by omega)
    rw [s1]
    simp

theorem two_by_two_slopes (hm : NormalmapPng) (hw : hm.width = 2) (hh : hm.height = 2)
    (hlen : hm.data.length = 4) (x y : Nat) (hx : x < 2) (hy : y < 2) :
    row_dh hm x y true 0 0 2 2 = some 0 ∧ col_dh hm x y true 0 0 2 2 = some 0 := by
  have hlen' : hm.data.length = hm.width * hm.height := by rw [hw, hh]; exact hlen
  have hsz : hm.width * hm.height < 4294967296 := by rw [hw, hh]; norm_num
  have key := fun a b => pixel_diff_self hm hlen' hsz a b 0 0 2 2 (by rw [hw]) (by rw [hh])
  have u1 : usub 2 1 = 1 := by decide
  have u2 : usub 2 2 = 0 := by decide
  constructor
  · interval_cases x
    · simp [row_dh, u1, key]
    · simp [row_dh]
  · interval_cases y
    · simp [col_dh, u1, key]
    · simp [col_dh, u1, u2, key]

theorem two_by_two_sobel (hm : NormalmapPng) (hw : hm.width = 2) (hh : hm.height = 2)
    (hlen : hm.data.length = 4) (scale : ℚ) (x y : Nat) (hx : x < 2) (hy : y < 2) :
    sobel hm x y scale true 0 0 2 2 = some ⟨⟨0, 1⟩, ⟨0, 1⟩, ⟨1, 1⟩⟩ := by
  have R := fun a b ha hb => (two_by_two_slopes hm hw hh hlen a b ha hb).1
  have C := fun a b ha hb => (two_by_two_slopes hm hw hh hlen a b ha hb).2
  have u1 : usub 2 1 = 1 := by decide
  have u3 : usub 1 1 = 0 := by decide
  have u4 : uadd 0 1 = 1 := by decide
  have r00 := R 0 0 (by norm_num) (by norm_num)
  have r01 := R 0 1 (by norm_num) (by norm_num)
  have r10 := R 1 0 (by norm_num) (by norm_num)
  have r11 := R 1 1 (by norm_num) (by norm_num)
  have c00 := C 0 0 (by norm_num) (by norm_num)
  have c01 := C 0 1 (by norm_num) (by norm_num)
  have c10 := C 1 0 (by norm_num) (by norm_num)
  have c11 := C 1 1 (by norm_num) (by norm_num)
  interval_cases x <;> interval_cases y <;>
    simp [sobel, sobel_row_acc, sobel_col_acc, u1, u3, u4, r00, r01, r10, r11, c00, c01,
      c10, c11, sobel_vec_zero]

/-- C20: for every 2 × 2 height field (any four values), with wrap on and tile size 0, for
every scale, normalise and unsigned_z setting and every valid channel mapping, every call
of `row_dh` and `col_dh` made by `sobel` returns 0, `normalmap_convert` returns, and
every pixel of the output has byte 128 at the X-axis and Y-axis offsets and byte 255 at the
Z-axis offset, as for a flat field. -/
theorem wrap_two_by_two (hm : NormalmapPng) (opts : NormalmapOptions)
    (hw : hm.width = 2) (hh : hm.height = 2) (hlen : hm.data.length = 4)
    (hwrap : opts.wrap = true) (ht : opts.tilesize = 0) (hmap : valid_mapping opts.xyz) :
    (∀ x y, x < 2 → y < 2 →
      row_dh hm x y true 0 0 2 2 = some 0 ∧ col_dh hm x y true 0 0 2 2 = some 0) ∧
    ∃ out, normalmap_convert hm opts = some out ∧
      ∀ x y, x < 2 → y < 2 →
        out.data[(y * 2 + x) * bytes_per_pixel opts + axis_offset opts 0]? = some 128 ∧
        out.data[(y * 2 + x) * bytes_per_pixel opts + axis_offset opts 1]? = some 128 ∧
        out.data[(y * 2 + x) * bytes_per_pixel opts + axis_offset opts 2]? = some 255 := by
  refine ⟨two_by_two_slopes hm hw hh hlen, ?_⟩
  have hlen' : hm.data.length = hm.width * hm.height := by rw [hw, hh]; exact hlen
  have hsz : hm.width * hm.height * 4 < 4294967296 := by rw [hw, hh]; norm_num
  have hW : 0 < hm.width := by rw [hw]; norm_num
  have hH : 0 < hm.height := by rw [hh]; norm_num
  obtain ⟨scale, hscale⟩ := effective_scale_some hm opts (by omega) hsz
  have ctx := wellFormed_loopCtx hm opts scale hW hH hlen' hsz (Or.inl ht)
  obtain ⟨out, hout, -, -, -, hcells⟩ := normalmap_convert_spec hm opts scale hscale ctx
  obtain ⟨n01, n02, n12⟩ := valid_mapping_offsets opts hmap
  refine ⟨out, hout, ?_⟩
  intro x y hx hy
  have key : ∀ o, o < bytes_per_pixel opts →
      out.data[(y * 2 + x) * bytes_per_pixel opts + o]?
        = some (pixel_bytes opts ⟨⟨0, 1⟩, ⟨0, 1⟩, ⟨1, 1⟩⟩ (axis_offset opts 0)
            (axis_offset opts 1) (axis_offset opts 2) o) := by
    intro o ho
    obtain ⟨v, hv, hb⟩ := (hcells x y o (by omega) (by omega) ho).1 trivial
    rw [tile_side_zero opts ht, tile_side_zero opts ht, whole_tile_origin (by omega),
      whole_tile_origin (by omega), hw, hh, hwrap] at hv
    have e : v = ⟨⟨0, 1⟩, ⟨0, 1⟩, ⟨1, 1⟩⟩ :=
      Option.some.inj (hv.symm.trans (two_by_two_sobel hm hw hh hlen scale x y hx hy))
    rw [hw] at hb
    rw [← e]; exact hb
  refine ⟨?_, ?_, ?_⟩
  · rw [key _ (axis_offset_lt opts 0)]
    simp [pixel_bytes, n01, n02, d_to_signed_byte_zero]
  · rw [key _ (axis_offset_lt opts 1)]
    simp [pixel_bytes, n12, d_to_signed_byte_zero]
  · rw [key _ (axis_offset_lt opts 2)]
    simp [pixel_bytes, d_to_signed_byte_one, d_to_unsigned_byte_one]

/-- Witness of C20: the field 0, 255 / 255, 0 with normalise on, wrap on, tile size 0. -/
theorem wrap_two_by_two_witness :
    (∀ x y, x < 2 → y < 2 →
      row_dh checkerField x y true 0 0 2 2 = some 0 ∧
      col_dh checkerField x y true 0 0 2 2 = some 0) ∧
    ∃ out, normalmap_convert checkerField { rgbOptions with normalise := true, wrap := true }
        = some out ∧
      ∀ x y, x < 2 → y < 2 →
        out.data[(y * 2 + x) * bytes_per_pixel { rgbOptions with normalise := true, wrap := true }
            + axis_offset { rgbOptions with normalise := true, wrap := true } 0]? = some 128 ∧
        out.data[(y * 2 + x) * bytes_per_pixel { rgbOptions with normalise := true, wrap := true }
            + axis_offset { rgbOptions with normalise := true, wrap := true } 1]? = some 128 ∧
        out.data[(y * 2 + x) * bytes_per_pixel { rgbOptions with normalise := true, wrap := true }
            + axis_offset { rgbOptions with normalise := true, wrap := true } 2]? = some 255 :=
  wrap_two_by_two checkerField { rgbOptions with normalise := true, wrap := true }
    rfl rfl rfl rfl rfl (by decide)

end Normalmap
